import Mathlib

/-!
Verification of the glee symbolic-execution engine's expression IR,
symbolic byte-array store, execution-state operations and SSA BinOp
dispatch, as shallow Lean embeddings of the Go source.

Conventions of the embedding:
* Go machine integers are modelled as `Nat`/`Int` with explicit `% 2^w`
  masking where the Go code truncates (casts, wrap-around arithmetic).
* Fallible Go code (assert/panic paths, runtime panics such as division
  by zero) is modelled with the result type `Res`: `.fatal` stands for an
  aborted run.  The recursive smart constructors additionally thread a
  fuel argument; `.out` marks fuel exhaustion and never corresponds to
  any Go behaviour (the Go recursion terminates, so every theorem holds
  for every sufficiently large fuel, which the statements make explicit).
* Go `nil` results that are distinct from panics (`Array.Select`
  returning a nil expression) are modelled with `Option` inside `Res`.
-/

namespace Glee

/-- Result of running a piece of embedded Go code: a value, an abort
(`assert` failure or runtime panic), or fuel exhaustion. -/
inductive Res (α : Type) where
  | ok (val : α)
  | fatal
  | out
deriving DecidableEq, Repr

namespace Res

def bind {α β : Type} : Res α → (α → Res β) → Res β
  | .ok a, f => f a
  | .fatal, _ => .fatal
  | .out, _ => .out

instance : Monad Res where
  pure := .ok
  bind := Res.bind

@[simp] theorem bind_ok {α β : Type} (a : α) (f : α → Res β) :
    Res.bind (.ok a) f = f a := rfl

@[simp] theorem bind_fatal {α β : Type} (f : α → Res β) :
    Res.bind (.fatal : Res α) f = .fatal := rfl

@[simp] theorem bind_out {α β : Type} (f : α → Res β) :
    Res.bind (.out : Res α) f = .out := rfl

@[simp] theorem monad_bind_eq_bind {α β : Type} (x : Res α) (f : α → Res β) :
    x >>= f = Res.bind x f := rfl

end Res

/-- go/types.BasicInfo flags (go/types/types.go). -/
def IsBoolean : Nat := 1
def IsInteger : Nat := 2
def IsUnsigned : Nat := 4
def IsFloat : Nat := 8
def IsComplex : Nat := 16
def IsString : Nat := 32

/-- Widths (expr.go). -/
def WidthBool : Nat := 1
def Width8 : Nat := 8
def Width16 : Nat := 16
def Width32 : Nat := 32
def Width64 : Nat := 64

/-- BinaryExpr operations (expr.go). -/
inductive BinaryOp where
  | add | sub | mul | udiv | sdiv | urem | srem
  | and | or | xor | shl | lshr | ashr
  | eq | ne | ult | ule | ugt | uge | slt | sle | sgt | sge
deriving DecidableEq, Repr

namespace BinaryOp

/-- The iota value of each operation in the Go `const` block
(`arithmetic_op_begin = 0`, `arithmetic_op_end = 14`,
`compare_op_begin = 15`, `compare_op_end = 26`). -/
def code : BinaryOp → Nat
  | .add => 1 | .sub => 2 | .mul => 3 | .udiv => 4 | .sdiv => 5
  | .urem => 6 | .srem => 7 | .and => 8 | .or => 9 | .xor => 10
  | .shl => 11 | .lshr => 12 | .ashr => 13
  | .eq => 16 | .ne => 17 | .ult => 18 | .ule => 19 | .ugt => 20
  | .uge => 21 | .slt => 22 | .sle => 23 | .sgt => 24 | .sge => 25

def arithmetic_op_begin : Nat := 0
def arithmetic_op_end : Nat := 14
def compare_op_begin : Nat := 15
def compare_op_end : Nat := 26

/-- `op.IsArithmetic()`. -/
def IsArithmetic (op : BinaryOp) : Bool :=
  arithmetic_op_begin < op.code && op.code < arithmetic_op_end

/-- `op.IsCompare()`. -/
def IsCompare (op : BinaryOp) : Bool :=
  compare_op_begin < op.code && op.code < compare_op_end

end BinaryOp

mutual
/-- The symbolic expression interface `Expr` and its eight variants
(expr.go).  `ConstantExpr` is inlined as the `constant` constructor;
`SelectExpr` carries the full `Array` it reads from. -/
inductive Expr where
  | constant (value : Nat) (width : Nat)
  | notOptimized (src : Expr)
  | select (arr : Arr) (index : Expr)
  | concat (msb : Expr) (lsb : Expr)
  | extract (expr : Expr) (offset : Nat) (width : Nat)
  | not (expr : Expr)
  | cast (src : Expr) (width : Nat) (signed : Bool)
  | binary (op : BinaryOp) (lhs : Expr) (rhs : Expr)

/-- `Array` (array.go): unique id, size in bytes, update chain. -/
inductive Arr where
  | mk (id : Nat) (size : Nat) (updates : Upd)

/-- `ArrayUpdate` (array.go): a newest-first linked list of byte writes. -/
inductive Upd where
  | nil
  | cons (index : Expr) (value : Expr) (next : Upd)
end

deriving instance DecidableEq for Expr
deriving instance DecidableEq for Arr
deriving instance DecidableEq for Upd
deriving instance Repr for Expr
deriving instance Repr for Arr
deriving instance Repr for Upd

def Arr.ID : Arr → Nat
  | .mk id _ _ => id

def Arr.Size : Arr → Nat
  | .mk _ size _ => size

def Arr.Updates : Arr → Upd
  | .mk _ _ updates => updates

mutual
/-- `ExprWidth` (expr.go): the bit width of an expression. -/
def ExprWidth : Expr → Nat
  | .constant _ width => width
  | .notOptimized src => ExprWidth src
  | .select _ _ => Width8
  | .concat msb lsb => ExprWidth msb + ExprWidth lsb
  | .extract _ _ width => width
  | .not e => ExprWidth e
  | .cast _ width _ => width
  | .binary op lhs _ => if op.IsCompare then WidthBool else ExprWidth lhs
end

/-- The Go struct `ConstantExpr` (expr.go). -/
structure ConstantExpr where
  Value : Nat
  Width : Nat
deriving DecidableEq, Repr

/-- `bitmask(width)` (expr.go): `(1 << width) - 1` computed in `uint64`;
a shift by 64 or more bits yields 0 in Go, so the mask saturates at
`2^64 - 1`. -/
def bitmask (width : Nat) : Nat := 2 ^ min width 64 - 1

/-- `NewConstantExpr` (expr.go): the value is masked to the width
(`value & ((1 << width) - 1)`, i.e. `% 2^(min width 64)`). -/
def NewConstantExpr (value : Nat) (width : Nat) : ConstantExpr :=
  ⟨value % (bitmask width + 1), width⟩

def ConstantExpr.toExpr (c : ConstantExpr) : Expr := .constant c.Value c.Width

def NewConstantExpr8 (value : Nat) : ConstantExpr := NewConstantExpr value 8
def NewConstantExpr16 (value : Nat) : ConstantExpr := NewConstantExpr value 16
def NewConstantExpr32 (value : Nat) : ConstantExpr := NewConstantExpr value 32
def NewConstantExpr64 (value : Nat) : ConstantExpr := NewConstantExpr value 64

/-- `NewBoolConstantExpr` (expr.go). -/
def NewBoolConstantExpr (value : Bool) : ConstantExpr :=
  if value then ⟨1, WidthBool⟩ else ⟨0, WidthBool⟩

namespace ConstantExpr

/-- `IsTrue` (expr.go). -/
def IsTrue (e : ConstantExpr) : Bool := e.Width == WidthBool && e.Value != 0

/-- `IsFalse` (expr.go). -/
def IsFalse (e : ConstantExpr) : Bool := e.Width == WidthBool && e.Value == 0

/-- `IsAllOnes` (expr.go). -/
def IsAllOnes (e : ConstantExpr) : Bool := e.Value == bitmask e.Width

end ConstantExpr

/-- Go's conversion of (the low bits of) an unsigned value to a signed
`intw` value: two's-complement reinterpretation of the low `w` bits. -/
def toSigned (w : Nat) (v : Nat) : Int :=
  if v % 2 ^ w < 2 ^ (w - 1) then ((v % 2 ^ w : Nat) : Int)
  else ((v % 2 ^ w : Nat) : Int) - 2 ^ w

/-- Go's conversion of a signed value to `uint64`: the value modulo
`2^64` (two's-complement bit pattern). -/
def goUint64 (i : Int) : Nat := (i.emod (2 ^ 64)).toNat

/-- Go's wrapping `uint64` subtraction `a - b`. -/
def wsub (a b : Nat) : Nat := (2 ^ 64 + a % 2 ^ 64 - b % 2 ^ 64) % 2 ^ 64

namespace ConstantExpr

/-- `ConstantExpr.Add` (expr.go).  Panics on width mismatch; the `uint64`
sum wraps at `2^64`, which the `NewConstantExpr` mask absorbs. -/
def Add (e other : ConstantExpr) : Res ConstantExpr :=
  if e.Width ≠ other.Width then .fatal
  else .ok (NewConstantExpr (e.Value + other.Value) e.Width)

/-- `ConstantExpr.Sub` (expr.go): wrapping `uint64` subtraction, masked. -/
def Sub (e other : ConstantExpr) : Res ConstantExpr :=
  if e.Width ≠ other.Width then .fatal
  else .ok (NewConstantExpr (wsub e.Value other.Value) e.Width)

/-- `ConstantExpr.Mul` (expr.go): `(e.Value*other.Value) & bitmask(width)`;
the `uint64` wrap is absorbed by the mask. -/
def Mul (e other : ConstantExpr) : Res ConstantExpr :=
  if e.Width ≠ other.Width then .fatal
  else .ok (NewConstantExpr (e.Value * other.Value % (bitmask e.Width + 1)) e.Width)

/-- `ConstantExpr.UDiv` (expr.go): per-width unsigned division
(`uintN(e.Value) / uintN(other.Value)`); Go panics on a zero divisor and
on non-standard widths. -/
def UDiv (e other : ConstantExpr) : Res ConstantExpr :=
  if e.Width ≠ other.Width then .fatal
  else if other.Value % 2 ^ e.Width = 0 then .fatal
  else match e.Width with
  | 8 | 16 | 32 | 64 =>
      .ok (NewConstantExpr (e.Value % 2 ^ e.Width / (other.Value % 2 ^ e.Width)) e.Width)
  | _ => .fatal

/-- `ConstantExpr.SDiv` (expr.go): per-width signed division
(`intN(e.Value) / intN(other.Value)`, truncated toward zero, computed in
`intN` with two's-complement wrap-around which the final mask absorbs). -/
def SDiv (e other : ConstantExpr) : Res ConstantExpr :=
  if e.Width ≠ other.Width then .fatal
  else if other.Value % 2 ^ e.Width = 0 then .fatal
  else match e.Width with
  | 8 | 16 | 32 | 64 =>
      .ok (NewConstantExpr
        (goUint64 (Int.tdiv (toSigned e.Width e.Value) (toSigned e.Width other.Value)))
        e.Width)
  | _ => .fatal

/-- `ConstantExpr.URem` (expr.go). -/
def URem (e other : ConstantExpr) : Res ConstantExpr :=
  if e.Width ≠ other.Width then .fatal
  else if other.Value % 2 ^ e.Width = 0 then .fatal
  else match e.Width with
  | 8 | 16 | 32 | 64 =>
      .ok (NewConstantExpr (e.Value % 2 ^ e.Width % (other.Value % 2 ^ e.Width)) e.Width)
  | _ => .fatal

/-- `ConstantExpr.SRem` (expr.go): Go's `%` on signed integers is the
truncated remainder (sign follows the dividend), i.e. `Int.mod`. -/
def SRem (e other : ConstantExpr) : Res ConstantExpr :=
  if e.Width ≠ other.Width then .fatal
  else if other.Value % 2 ^ e.Width = 0 then .fatal
  else match e.Width with
  | 8 | 16 | 32 | 64 =>
      .ok (NewConstantExpr
        (goUint64 (Int.tmod (toSigned e.Width e.Value) (toSigned e.Width other.Value)))
        e.Width)
  | _ => .fatal

/-- `ConstantExpr.And` (expr.go). -/
def And (e other : ConstantExpr) : Res ConstantExpr :=
  if e.Width ≠ other.Width then .fatal
  else .ok (NewConstantExpr (e.Value &&& other.Value) e.Width)

/-- `ConstantExpr.Or` (expr.go). -/
def Or (e other : ConstantExpr) : Res ConstantExpr :=
  if e.Width ≠ other.Width then .fatal
  else .ok (NewConstantExpr (e.Value ||| other.Value) e.Width)

/-- `ConstantExpr.Xor` (expr.go). -/
def Xor (e other : ConstantExpr) : Res ConstantExpr :=
  if e.Width ≠ other.Width then .fatal
  else .ok (NewConstantExpr (e.Value ^^^ other.Value) e.Width)

/-- `ConstantExpr.Shl` (expr.go): `uintN(e.Value) << other.Value`
computed in `uintN` (truncating; a shift count of `N` or more yields 0),
then widened.  No width-equality assert; non-standard widths panic. -/
def Shl (e other : ConstantExpr) : Res ConstantExpr :=
  match e.Width with
  | 8 | 16 | 32 | 64 =>
      .ok (NewConstantExpr (e.Value % 2 ^ e.Width * 2 ^ other.Value % 2 ^ e.Width) e.Width)
  | _ => .fatal

/-- `ConstantExpr.LShr` (expr.go): `uintN(e.Value) >> other.Value`. -/
def LShr (e other : ConstantExpr) : Res ConstantExpr :=
  match e.Width with
  | 8 | 16 | 32 | 64 =>
      .ok (NewConstantExpr (e.Value % 2 ^ e.Width / 2 ^ other.Value) e.Width)
  | _ => .fatal

/-- `ConstantExpr.AShr` (expr.go): `intN(e.Value) >> other.Value`, the
arithmetic (sign-filling) shift, i.e. floor division by `2^count`,
re-encoded as an unsigned value. -/
def AShr (e other : ConstantExpr) : Res ConstantExpr :=
  match e.Width with
  | 8 | 16 | 32 | 64 =>
      .ok (NewConstantExpr
        (goUint64 (Int.fdiv (toSigned e.Width e.Value) (2 ^ other.Value)))
        e.Width)
  | _ => .fatal

/-- `ConstantExpr.Eq` (expr.go): raw value comparison after a
width-equality assert; works at every width. -/
def Eq (e other : ConstantExpr) : Res ConstantExpr :=
  if e.Width ≠ other.Width then .fatal
  else .ok (NewBoolConstantExpr (e.Value == other.Value))

/-- `ConstantExpr.Ult` (expr.go): `uintN(e.Value) < uintN(other.Value)`. -/
def Ult (e other : ConstantExpr) : Res ConstantExpr :=
  match e.Width with
  | 8 | 16 | 32 | 64 =>
      .ok (NewBoolConstantExpr (e.Value % 2 ^ e.Width < other.Value % 2 ^ e.Width))
  | _ => .fatal

/-- `ConstantExpr.Ugt` (expr.go). -/
def Ugt (e other : ConstantExpr) : Res ConstantExpr := other.Ult e

/-- `ConstantExpr.Ule` (expr.go). -/
def Ule (e other : ConstantExpr) : Res ConstantExpr :=
  match e.Width with
  | 8 | 16 | 32 | 64 =>
      .ok (NewBoolConstantExpr (e.Value % 2 ^ e.Width ≤ other.Value % 2 ^ e.Width))
  | _ => .fatal

/-- `ConstantExpr.Uge` (expr.go). -/
def Uge (e other : ConstantExpr) : Res ConstantExpr := other.Ule e

/-- `ConstantExpr.Slt` (expr.go): `intN(e.Value) < intN(other.Value)`. -/
def Slt (e other : ConstantExpr) : Res ConstantExpr :=
  match e.Width with
  | 8 | 16 | 32 | 64 =>
      .ok (NewBoolConstantExpr (toSigned e.Width e.Value < toSigned e.Width other.Value))
  | _ => .fatal

/-- `ConstantExpr.Sgt` (expr.go). -/
def Sgt (e other : ConstantExpr) : Res ConstantExpr := other.Slt e

/-- `ConstantExpr.Sle` (expr.go). -/
def Sle (e other : ConstantExpr) : Res ConstantExpr :=
  match e.Width with
  | 8 | 16 | 32 | 64 =>
      .ok (NewBoolConstantExpr (toSigned e.Width e.Value ≤ toSigned e.Width other.Value))
  | _ => .fatal

/-- `ConstantExpr.Sge` (expr.go). -/
def Sge (e other : ConstantExpr) : Res ConstantExpr := other.Sle e

/-- `ConstantExpr.ZExt` (expr.go): total; zero-extension, or the
boolean collapse `value != 0` when the target width is 1. -/
def ZExt (e : ConstantExpr) (width : Nat) : ConstantExpr :=
  if e.Width = width then e
  else if width = WidthBool then NewBoolConstantExpr (e.Value != 0)
  else NewConstantExpr e.Value width

/-- `ConstantExpr.SExt` (expr.go): 12 standard-width cases, each a chain
of Go integer casts whose net effect is the two's-complement value of
the low `min(width, e.Width)` bits, re-encoded; other width pairs
panic.  `goSExtCast w v` is that net cast chain. -/
def goSExtCast (w : Nat) (v : Nat) : Nat := goUint64 (toSigned w v)

def SExt (e : ConstantExpr) (width : Nat) : Res ConstantExpr :=
  if e.Width = width then .ok e
  else match width, e.Width with
  | 8, 16 => .ok (NewConstantExpr (goSExtCast 8 e.Value) 8)
  | 8, 32 => .ok (NewConstantExpr (goSExtCast 8 e.Value) 8)
  | 8, 64 => .ok (NewConstantExpr (goSExtCast 8 e.Value) 8)
  | 16, 8 => .ok (NewConstantExpr (goSExtCast 8 e.Value) 16)
  | 16, 32 => .ok (NewConstantExpr (goSExtCast 16 e.Value) 16)
  | 16, 64 => .ok (NewConstantExpr (goSExtCast 16 e.Value) 16)
  | 32, 8 => .ok (NewConstantExpr (goSExtCast 8 e.Value) 32)
  | 32, 16 => .ok (NewConstantExpr (goSExtCast 16 e.Value) 32)
  | 32, 64 => .ok (NewConstantExpr (goSExtCast 32 e.Value) 32)
  | 64, 8 => .ok (NewConstantExpr (goSExtCast 8 e.Value) 64)
  | 64, 16 => .ok (NewConstantExpr (goSExtCast 16 e.Value) 64)
  | 64, 32 => .ok (NewConstantExpr (goSExtCast 32 e.Value) 64)
  | _, _ => .fatal

/-- `ConstantExpr.Not` (expr.go): `(^e.Value) & bitmask(e.Width)`; the
`uint64` complement of the low 64 bits, masked. -/
def Not (e : ConstantExpr) : ConstantExpr :=
  NewConstantExpr (2 ^ 64 - 1 - e.Value % 2 ^ 64) e.Width

/-- `ConstantExpr.Extract` (expr.go):
`uint64(int64(e.Value) >> offset) & bitmask(e.Width)`, then masked to
the new width by `NewConstantExpr`.  The `int64` shift is arithmetic. -/
def Extract (e : ConstantExpr) (offset width : Nat) : ConstantExpr :=
  NewConstantExpr
    (goUint64 (Int.fdiv (toSigned 64 e.Value) (2 ^ offset)) % (bitmask e.Width + 1))
    width

/-- `ConstantExpr.Concat` (expr.go):
`(e.Value << lsb.Width) | lsb.Value` in `uint64`, at the summed width. -/
def Concat (e lsb : ConstantExpr) : ConstantExpr :=
  NewConstantExpr (e.Value * 2 ^ lsb.Width % 2 ^ 64 ||| lsb.Value)
    (e.Width + lsb.Width)

end ConstantExpr

/-- `expr.(*ConstantExpr)`: the constant view of an expression. -/
def Expr.asConst : Expr → Option ConstantExpr
  | .constant v w => some ⟨v, w⟩
  | _ => none

/-- `IsConstantExpr` (expr.go). -/
def IsConstantExpr (e : Expr) : Bool := e.asConst.isSome

/-- `IsConstantTrue` (expr.go). -/
def IsConstantTrue (e : Expr) : Bool :=
  match e.asConst with
  | some c => c.IsTrue
  | none => false

/-- `IsConstantFalse` (expr.go). -/
def IsConstantFalse (e : Expr) : Bool :=
  match e.asConst with
  | some c => c.IsFalse
  | none => false

/-- `exprKind` (expr.go): numeric tag used for ordering expressions. -/
def exprKind : Expr → Nat
  | .constant .. => 1
  | .notOptimized .. => 2
  | .select .. => 3
  | .concat .. => 4
  | .extract .. => 5
  | .not .. => 6
  | .cast .. => 7
  | .binary .. => 8

mutual
/-- `CompareExpr` (expr.go): total order, kind tag first, then the
kind-specific field comparisons (`compareConstantExpr` …
`compareBinaryExpr` are inlined into the corresponding match arms).
The Go nil-pointer cases do not arise: expressions are never nil here. -/
def CompareExpr (a b : Expr) : Int :=
  if exprKind a < exprKind b then -1
  else if exprKind a > exprKind b then 1
  else match a, b with
  | .constant v1 w1, .constant v2 w2 =>   -- compareConstantExpr
      if w1 < w2 then -1 else if w1 > w2 then 1
      else if v1 < v2 then -1 else if v1 > v2 then 1 else 0
  | .notOptimized s1, .notOptimized s2 => CompareExpr s1 s2
  | .select a1 i1, .select a2 i2 =>        -- compareSelectExpr
      let cmp := CompareExpr i1 i2
      if cmp ≠ 0 then cmp else CompareArray a1 a2
  | .concat m1 l1, .concat m2 l2 =>        -- compareConcatExpr
      let cmp := CompareExpr m1 m2
      if cmp ≠ 0 then cmp else CompareExpr l1 l2
  | .extract e1 o1 w1, .extract e2 o2 w2 => -- compareExtractExpr
      if o1 < o2 then -1 else if o1 > o2 then 1
      else if w1 < w2 then -1 else if w1 > w2 then 1
      else CompareExpr e1 e2
  | .not e1, .not e2 => CompareExpr e1 e2  -- compareNotExpr
  | .cast s1 w1 g1, .cast s2 w2 g2 =>      -- compareCastExpr
      if g1 && !g2 then -1 else if !g1 && g2 then 1
      else if w1 < w2 then -1 else if w1 > w2 then 1
      else CompareExpr s1 s2
  | .binary op1 l1 r1, .binary op2 l2 r2 => -- compareBinaryExpr
      if op1.code < op2.code then -1 else if op1.code > op2.code then 1
      else
        let cmp := CompareExpr l1 l2
        if cmp ≠ 0 then cmp else CompareExpr r1 r2
  | _, _ => 0  -- unreachable: equal kinds force equal constructors

/-- `CompareArray` (array.go), on non-nil arrays. -/
def CompareArray (a b : Arr) : Int :=
  match a, b with
  | .mk id1 size1 upd1, .mk id2 size2 upd2 =>
      if id1 < id2 then -1 else if id1 > id2 then 1
      else if size1 < size2 then -1 else if size1 > size2 then 1
      else CompareArrayUpdate upd1 upd2

/-- `CompareArrayUpdate` (array.go); `Upd.nil` plays the nil pointer. -/
def CompareArrayUpdate (a b : Upd) : Int :=
  match a, b with
  | .nil, .cons .. => -1
  | .cons .., .nil => 1
  | .nil, .nil => 0
  | .cons i1 v1 n1, .cons i2 v2 n2 =>
      let cmp := CompareExpr i1 i2
      if cmp ≠ 0 then cmp
      else
        let cmp2 := CompareExpr v1 v2
        if cmp2 ≠ 0 then cmp2 else CompareArrayUpdate n1 n2
end

/-- `NewSelectExpr` (expr.go). -/
def NewSelectExpr (a : Arr) (index : Expr) : Expr := .select a index

/-- `NewNotOptimizedExpr` (expr.go). -/
def NewNotOptimizedExpr (src : Expr) : Expr := .notOptimized src

/-- `NewNotExpr` (expr.go). -/
def NewNotExpr (expr : Expr) : Res Expr :=
  match expr.asConst with
  | some c => .ok c.Not.toExpr
  | none => .ok (.not expr)

mutual
/-- `NewExtractExpr` (expr.go).  Asserts a positive in-bounds window,
returns the expression unchanged at full width, folds constants, and
pushes extraction through concatenation. -/
def NewExtractExpr : Nat → Expr → Nat → Nat → Res Expr
  | 0, _, _, _ => .out
  | fuel+1, expr, offset, width =>
    let kw := ExprWidth expr
    if width = 0 then .fatal                       -- assert(width > 0)
    else if ¬ offset + width ≤ kw then .fatal      -- assert(offset+width <= kw)
    else if width = kw then .ok expr
    else match expr with
    | .constant v w => .ok ((ConstantExpr.Extract ⟨v, w⟩ offset width).toExpr)
    | .concat msb lsb =>
        -- Directly extract from MSB if we skip over LSB.
        if offset ≥ ExprWidth lsb then
          NewExtractExpr fuel msb (offset - ExprWidth lsb) width
        -- Directly extract from LSB if we skip over MSB.
        else if offset + width ≤ ExprWidth lsb then
          NewExtractExpr fuel lsb offset width
        else do
          -- E(C(x,y)) = C(E(x), E(y))
          let hi ← NewExtractExpr fuel msb 0 (width - ExprWidth lsb + offset)
          let lo ← NewExtractExpr fuel lsb offset (ExprWidth msb - offset)
          NewConcatExpr fuel hi lo
    | _ => .ok (.extract expr offset width)

/-- `NewConcatExpr` (expr.go).  Go compares `msb.Expr == lsb.Expr` by
interface (pointer) equality; expressions are immutable and shared, so
structural equality models it. -/
def NewConcatExpr : Nat → Expr → Expr → Res Expr
  | 0, _, _ => .out
  | fuel+1, msb, lsb =>
    match msb, lsb with
    | .constant mv mw, .constant lv lw =>
        .ok ((ConstantExpr.Concat ⟨mv, mw⟩ ⟨lv, lw⟩).toExpr)
    | .extract me mo mw, .extract le lo lw =>
        -- Combine extract expressions if they are contiguous.
        if me = le ∧ lo + lw = mo then NewExtractExpr fuel me lo (mw + lw)
        else .ok (.concat (.extract me mo mw) (.extract le lo lw))
    | _, _ => .ok (.concat msb lsb)

/-- `newZExtExpr` (expr.go). -/
def newZExtExpr : Nat → Expr → Nat → Res Expr
  | 0, _, _ => .out
  | fuel+1, src, w =>
    let sw := ExprWidth src
    if w = sw then .ok src                        -- nop
    else if w < sw then NewExtractExpr fuel src 0 w -- truncate
    else match src.asConst with
    | some c => .ok ((c.ZExt w).toExpr)
    | none => .ok (.cast src w false)

/-- `newSExtExpr` (expr.go). -/
def newSExtExpr : Nat → Expr → Nat → Res Expr
  | 0, _, _ => .out
  | fuel+1, src, w =>
    let sw := ExprWidth src
    if w = sw then .ok src                        -- nop
    else if w < sw then NewExtractExpr fuel src 0 w -- truncate
    else match src.asConst with
    | some c => (c.SExt w).bind fun c2 => .ok c2.toExpr
    | none => .ok (.cast src w true)
end

/-- `NewCastExpr` (expr.go). -/
def NewCastExpr (fuel : Nat) (src : Expr) (width : Nat) (signed : Bool) : Res Expr :=
  if signed then newSExtExpr fuel src width else newZExtExpr fuel src width


/-- The shared bottom of `newEqExpr`: reflexive equality under the
canonical comparator, otherwise the plain EQ node. -/
def eqBottom (lhs rhs : Expr) : Res Expr :=
  if CompareExpr lhs rhs = 0 then .ok (NewConstantExpr 1 WidthBool).toExpr
  else .ok (.binary .eq lhs rhs)

mutual
/-- `NewBinaryExpr` (expr.go): dispatch to the per-operator smart
constructors; `UGT`/`UGE`/`SGT`/`SGE` reverse their operands, `NE`
builds `EQ(false, EQ(lhs, rhs))`.  (The width-mismatch assert at the
top of the Go function is commented out in the source.) -/
def NewBinaryExpr : Nat → BinaryOp → Expr → Expr → Res Expr
  | 0, _, _, _ => .out
  | fuel+1, op, lhs, rhs =>
    match op with
    | .add => newAddExpr fuel lhs rhs
    | .sub => newSubExpr fuel lhs rhs
    | .mul => newMulExpr fuel lhs rhs
    | .udiv => newDivExpr fuel .udiv lhs rhs
    | .sdiv => newDivExpr fuel .sdiv lhs rhs
    | .urem => newRemExpr fuel .urem lhs rhs
    | .srem => newRemExpr fuel .srem lhs rhs
    | .and => newAndExpr fuel lhs rhs
    | .or => newOrExpr fuel lhs rhs
    | .xor => newXorExpr fuel lhs rhs
    | .shl => newShlExpr fuel lhs rhs
    | .lshr => newLShrExpr fuel lhs rhs
    | .ashr => newAShrExpr fuel lhs rhs
    | .eq => newEqExpr fuel lhs rhs
    | .ne => do
        let inner ← NewBinaryExpr fuel .eq lhs rhs
        NewBinaryExpr fuel .eq (NewConstantExpr 0 WidthBool).toExpr inner
    | .ult => newUltExpr fuel lhs rhs
    | .ugt => newUltExpr fuel rhs lhs -- reverse
    | .ule => newUleExpr fuel lhs rhs
    | .uge => newUleExpr fuel rhs lhs -- reverse
    | .slt => newSltExpr fuel lhs rhs
    | .sgt => newSltExpr fuel rhs lhs -- reverse
    | .sle => newSleExpr fuel lhs rhs
    | .sge => newSleExpr fuel rhs lhs -- reverse

/-- `newAddExpr` (expr.go).  The Go function is a chain of guarded
early returns; the match tree below reproduces its reachable paths
(a constant never reaches the "constant LHS.LHS" block, and after the
swap a constant RHS forces a constant LHS). -/
def newAddExpr : Nat → Expr → Expr → Res Expr
  | 0, _, _ => .out
  | fuel+1, lhs0, rhs0 =>
    -- Move constant expression to left hand side.
    let p := if !IsConstantExpr lhs0 && IsConstantExpr rhs0 then (rhs0, lhs0)
             else (lhs0, rhs0)
    let lhs := p.1
    let rhs := p.2
    -- Refactor to XOR for boolean expressions.
    if ExprWidth lhs = WidthBool then NewBinaryExpr fuel .xor lhs rhs
    else match lhs.asConst with
    | some lc =>
        -- Compute constant if both sides are constant.
        if lc.Value = 0 then .ok rhs
        else match rhs.asConst with
        | some rc => (lc.Add rc).bind fun c => .ok c.toExpr
        | none =>
          -- Merge constant LHS with constant in RHS binary expression.
          match rhs with
          | .binary .add rl rr =>
              if IsConstantExpr rl then do -- X + (Y+z) == (X+Y) + z
                let x ← NewBinaryExpr fuel .add lhs rl
                NewBinaryExpr fuel .add x rr
              else .ok (.binary .add lhs rhs)
          | .binary .sub rl rr =>
              if IsConstantExpr rl then do -- X + (Y-z) == (X+Y) - z
                let x ← NewBinaryExpr fuel .add lhs rl
                NewBinaryExpr fuel .sub x rr
              else .ok (.binary .add lhs rhs)
          | _ => .ok (.binary .add lhs rhs)
    | none =>
        -- Refactor constant LHS.LHS to a standalone value on LHS.
        match lhs with
        | .binary .add ll lr =>
            if IsConstantExpr ll then do -- (X+y) + z = X + (y+z)
              let x ← NewBinaryExpr fuel .add lr rhs
              NewBinaryExpr fuel .add ll x
            else newAddRhsStep fuel lhs rhs
        | .binary .sub ll lr =>
            if IsConstantExpr ll then do -- (x-y) + z = x + (z-y)
              let x ← NewBinaryExpr fuel .sub rhs lr
              NewBinaryExpr fuel .add ll x
            else newAddRhsStep fuel lhs rhs
        | _ => newAddRhsStep fuel lhs rhs

/-- The final block of `newAddExpr` ("refactor constant RHS.LHS"),
reached when `lhs` is neither constant nor a mergeable binary. -/
def newAddRhsStep : Nat → Expr → Expr → Res Expr
  | 0, _, _ => .out
  | fuel+1, lhs, rhs =>
    match rhs with
    | .binary .add rl rr =>
        if IsConstantExpr rl then do -- a + (k+b) = k+(a+b)
          let x ← NewBinaryExpr fuel .add lhs rr
          NewBinaryExpr fuel .add rl x
        else .ok (.binary .add lhs rhs)
    | .binary .sub rl rr =>
        if IsConstantExpr rl then do -- a + (k-b) = k+(a-b)
          let x ← NewBinaryExpr fuel .sub lhs rr
          NewBinaryExpr fuel .add rl x
        else .ok (.binary .add lhs rhs)
    | _ => .ok (.binary .add lhs rhs)

/-- `newSubExpr` (expr.go), restructured the same way as `newAddExpr`:
the four cases on constant-ness of the operands cover the Go chain's
reachable paths (the "flip to addition" block requires a constant RHS
with a non-constant LHS, etc.). -/
def newSubExpr : Nat → Expr → Expr → Res Expr
  | 0, _, _ => .out
  | fuel+1, lhs, rhs =>
    -- Subtracting a value from itself is zero.
    if CompareExpr lhs rhs = 0 then .ok (NewConstantExpr 0 (ExprWidth lhs)).toExpr
    else match lhs.asConst, rhs.asConst with
    | some lc, some rc =>
        -- Compute constant if both sides are constant.
        (lc.Sub rc).bind fun c => .ok c.toExpr
    | some _, none =>
        -- Refactor to XOR for boolean expressions.
        if ExprWidth lhs = WidthBool then NewBinaryExpr fuel .xor lhs rhs
        -- (`id` keeps this match out of the top-level pattern tree, so the
        -- unfolding equation of `newSubExpr` stays a single equation.)
        else match id rhs with
        -- Combine with children of RHS binary expression, if possible.
        | .binary .add rl rr =>
            if IsConstantExpr rl then do -- X - (Y+z) == (X-Y) - z
              let x ← NewBinaryExpr fuel .sub lhs rl
              NewBinaryExpr fuel .sub x rr
            else .ok (.binary .sub lhs rhs)
        | .binary .sub rl rr =>
            if IsConstantExpr rl then do -- X - (Y-z) == (X-Y) + z
              let x ← NewBinaryExpr fuel .sub lhs rl
              NewBinaryExpr fuel .add x rr
            else .ok (.binary .sub lhs rhs)
        | _ => .ok (.binary .sub lhs rhs)
    | none, some rc =>
        if ExprWidth lhs = WidthBool then NewBinaryExpr fuel .xor lhs rhs
        else
          -- Constant on right side: refactor to addition, LHS & RHS flipped.
          ((NewConstantExpr 0 rc.Width).Sub rc).bind fun z =>
            NewBinaryExpr fuel .add z.toExpr lhs
    | none, none =>
        if ExprWidth lhs = WidthBool then NewBinaryExpr fuel .xor lhs rhs
        -- Refactor constant LHS.LHS to a standalone value on LHS.
        else match id lhs with
        | .binary .add ll lr =>
            if IsConstantExpr ll then do -- (X+y) - z = X + (y-z)
              let x ← NewBinaryExpr fuel .sub lr rhs
              NewBinaryExpr fuel .add ll x
            else newSubRhsStep fuel lhs rhs
        | .binary .sub ll lr =>
            if IsConstantExpr ll then do -- (X-y) - z = X - (y+z)
              let x ← NewBinaryExpr fuel .add lr rhs
              NewBinaryExpr fuel .sub ll x
            else newSubRhsStep fuel lhs rhs
        | _ => newSubRhsStep fuel lhs rhs

/-- The final block of `newSubExpr` ("refactor constant RHS.LHS"). -/
def newSubRhsStep : Nat → Expr → Expr → Res Expr
  | 0, _, _ => .out
  | fuel+1, lhs, rhs =>
    match rhs with
    | .binary .add rl rr =>
        if IsConstantExpr rl then do -- x - (Y+z) = (x-z) - Y
          let x ← NewBinaryExpr fuel .sub lhs rr
          NewBinaryExpr fuel .sub x rl
        else .ok (.binary .sub lhs rhs)
    | .binary .sub rl rr =>
        if IsConstantExpr rl then do -- x - (Y-z) = (x+z) - Y
          let x ← NewBinaryExpr fuel .add lhs rr
          NewBinaryExpr fuel .sub x rl
        else .ok (.binary .sub lhs rhs)
    | _ => .ok (.binary .sub lhs rhs)

/-- `newMulExpr` (expr.go). -/
def newMulExpr : Nat → Expr → Expr → Res Expr
  | 0, _, _ => .out
  | fuel+1, lhs0, rhs0 =>
    -- If constant is on right side, swap to left side.
    let p := if IsConstantExpr rhs0 && !IsConstantExpr lhs0 then (rhs0, lhs0)
             else (lhs0, rhs0)
    let lhs := p.1
    let rhs := p.2
    match lhs.asConst, rhs.asConst with
    | some lc, some rc =>
        -- Compute constant if both sides are constant.
        (lc.Mul rc).bind fun c => .ok c.toExpr
    | _, _ =>
      -- Refactor to AND for boolean expressions.
      if ExprWidth lhs = WidthBool then NewBinaryExpr fuel .and lhs rhs
      else match lhs.asConst with
      | some lc =>
          -- Optimize for multiplication with a constant 1 or 0.
          if lc.Value = 1 then .ok rhs
          else if lc.Value = 0 then .ok lc.toExpr
          else .ok (.binary .mul lhs rhs)
      | none => .ok (.binary .mul lhs rhs)

/-- `newDivExpr` (expr.go). -/
def newDivExpr : Nat → BinaryOp → Expr → Expr → Res Expr
  | 0, _, _, _ => .out
  | _+1, op, lhs, rhs =>
    if ¬ (op = .udiv ∨ op = .sdiv) then .fatal -- assert(op == UDIV || op == SDIV)
    else match lhs.asConst, rhs.asConst with
    | some lc, some rc =>
        (if op = .udiv then lc.UDiv rc else lc.SDiv rc).bind fun c => .ok c.toExpr
    | _, _ =>
      if ExprWidth lhs = WidthBool then .ok lhs -- rhs must be 1
      else .ok (.binary op lhs rhs)

/-- `newRemExpr` (expr.go). -/
def newRemExpr : Nat → BinaryOp → Expr → Expr → Res Expr
  | 0, _, _, _ => .out
  | _+1, op, lhs, rhs =>
    if ¬ (op = .urem ∨ op = .srem) then .fatal -- assert(op == UREM || op == SREM)
    else match lhs.asConst, rhs.asConst with
    | some lc, some rc =>
        (if op = .urem then lc.URem rc else lc.SRem rc).bind fun c => .ok c.toExpr
    | _, _ =>
      if ExprWidth lhs = WidthBool then .ok (NewConstantExpr 0 WidthBool).toExpr -- rhs must be 1
      else .ok (.binary op lhs rhs)

/-- `newAndExpr` (expr.go). -/
def newAndExpr : Nat → Expr → Expr → Res Expr
  | 0, _, _ => .out
  | _+1, lhs0, rhs0 =>
    match lhs0.asConst, rhs0.asConst with
    | some lc, some rc =>
        -- Compute constant if both sides are constant.
        (lc.And rc).bind fun c => .ok c.toExpr
    | _, _ =>
      -- If constant is on left side, swap to right side.
      let p := if IsConstantExpr lhs0 && !IsConstantExpr rhs0 then (rhs0, lhs0)
               else (lhs0, rhs0)
      let lhs := p.1
      let rhs := p.2
      -- Optimize for if constant is all ones or zeros.
      match rhs.asConst with
      | some rc =>
          if rc.IsAllOnes then .ok lhs
          else if rc.Value = 0 then .ok rc.toExpr
          else .ok (.binary .and lhs rhs)
      | none => .ok (.binary .and lhs rhs)

/-- `newOrExpr` (expr.go). -/
def newOrExpr : Nat → Expr → Expr → Res Expr
  | 0, _, _ => .out
  | _+1, lhs0, rhs0 =>
    match lhs0.asConst, rhs0.asConst with
    | some lc, some rc =>
        -- Compute constant if both sides are constant.
        (lc.Or rc).bind fun c => .ok c.toExpr
    | _, _ =>
      -- If constant is on left side, swap to right side.
      let p := if IsConstantExpr lhs0 && !IsConstantExpr rhs0 then (rhs0, lhs0)
               else (lhs0, rhs0)
      let lhs := p.1
      let rhs := p.2
      -- Optimize for if constant is all ones or zeros.
      match rhs.asConst with
      | some rc =>
          if rc.IsAllOnes then .ok rc.toExpr
          else if rc.Value = 0 then .ok lhs
          else .ok (.binary .or lhs rhs)
      | none => .ok (.binary .or lhs rhs)

/-- `newXorExpr` (expr.go). -/
def newXorExpr : Nat → Expr → Expr → Res Expr
  | 0, _, _ => .out
  | _+1, lhs0, rhs0 =>
    -- If constant is on right side, swap to left side.
    let p := if !IsConstantExpr lhs0 && IsConstantExpr rhs0 then (rhs0, lhs0)
             else (lhs0, rhs0)
    let lhs := p.1
    let rhs := p.2
    match lhs.asConst with
    | some lc =>
        if lc.Value = 0 then .ok rhs
        else match rhs.asConst with
        | some rc => (lc.Xor rc).bind fun c => .ok c.toExpr
        | none => .ok (.binary .xor lhs rhs)
    | none => .ok (.binary .xor lhs rhs)

/-- `newShlExpr` (expr.go). -/
def newShlExpr : Nat → Expr → Expr → Res Expr
  | 0, _, _ => .out
  | fuel+1, lhs, rhs =>
    match lhs.asConst, rhs.asConst with
    | some lc, some rc => (lc.Shl rc).bind fun c => .ok c.toExpr
    | _, _ =>
      if ExprWidth lhs = WidthBool then do -- l & !r
        let z ← NewIsZeroExpr fuel rhs
        NewBinaryExpr fuel .and lhs z
      else .ok (.binary .shl lhs rhs)

/-- `newLShrExpr` (expr.go). -/
def newLShrExpr : Nat → Expr → Expr → Res Expr
  | 0, _, _ => .out
  | fuel+1, lhs, rhs =>
    match lhs.asConst, rhs.asConst with
    | some lc, some rc => (lc.LShr rc).bind fun c => .ok c.toExpr
    | _, _ =>
      if ExprWidth lhs = WidthBool then do -- l & !r
        let z ← NewIsZeroExpr fuel rhs
        NewBinaryExpr fuel .and lhs z
      else .ok (.binary .lshr lhs rhs)

/-- `newAShrExpr` (expr.go). -/
def newAShrExpr : Nat → Expr → Expr → Res Expr
  | 0, _, _ => .out
  | _+1, lhs, rhs =>
    match lhs.asConst, rhs.asConst with
    | some lc, some rc => (lc.AShr rc).bind fun c => .ok c.toExpr
    | _, _ =>
      if ExprWidth lhs = WidthBool then .ok lhs -- l
      else .ok (.binary .ashr lhs rhs)

/-- `newEqExpr` (expr.go): swap a constant to the LHS, fold
constant-constant, then the constant-vs-expression rewrites; the shared
tail (`eqBottom`) is the reflexivity check plus the plain EQ node. -/
def newEqExpr : Nat → Expr → Expr → Res Expr
  | 0, _, _ => .out
  | fuel+1, lhs0, rhs0 =>
    -- If constant is on right side, swap to left side.
    let p := if !IsConstantExpr lhs0 && IsConstantExpr rhs0 then (rhs0, lhs0)
             else (lhs0, rhs0)
    let lhs := p.1
    let rhs := p.2
    match lhs.asConst with
    | some lc =>
      match rhs.asConst with
      | some rc =>
          -- Compute constant if both sides are constant.
          (lc.Eq rc).bind fun c => .ok c.toExpr
      | none =>
        let width := ExprWidth lhs
        match rhs with
        | .binary .eq rl rr =>
            if width = WidthBool then
              if lc.IsTrue then .ok rhs
              else if IsConstantFalse lhs && IsConstantFalse rl then
                .ok rr -- 0 == (0 == A) => A
              else eqBottom lhs rhs
            else eqBottom lhs rhs
        | .binary .or rl rr =>
            if width = WidthBool then
              if lc.IsTrue then .ok rhs -- T == X || Y => X || Y
              else if ExprWidth rl = WidthBool then do
                -- F == X || Y => !X && !Y
                let zl ← NewIsZeroExpr fuel rl
                let zr ← NewIsZeroExpr fuel rr
                NewBinaryExpr fuel .and zl zr
              else eqBottom lhs rhs
            else eqBottom lhs rhs
        | .binary .add rl rr =>
            if IsConstantExpr rl then do -- X = Y + z => X - Y = z
              let x ← NewBinaryExpr fuel .sub lhs rl
              NewBinaryExpr fuel .eq x rr
            else eqBottom lhs rhs
        | .binary .sub rl rr =>
            if IsConstantExpr rl then do -- X = Y - z => Y - X = z
              let x ← NewBinaryExpr fuel .sub rl lhs
              NewBinaryExpr fuel .eq x rr
            else eqBottom lhs rhs
        | .cast src w signed =>
            let trunc := lc.ZExt (ExprWidth src)
            if signed then
              -- (sext(a,T)==c) == (a==c)
              (trunc.SExt w).bind fun s =>
                if CompareExpr lhs s.toExpr = 0 then
                  NewBinaryExpr fuel .eq src trunc.toExpr
                else .ok (NewConstantExpr 0 WidthBool).toExpr
            else
              -- (zext(a,T)==c) == (a==c)
              if CompareExpr lhs ((trunc.ZExt w).toExpr) = 0 then
                NewBinaryExpr fuel .eq src trunc.toExpr
              else .ok (NewConstantExpr 0 WidthBool).toExpr
        | _ => eqBottom lhs rhs
    | none => eqBottom lhs rhs

/-- `newUltExpr` (expr.go). -/
def newUltExpr : Nat → Expr → Expr → Res Expr
  | 0, _, _ => .out
  | fuel+1, lhs, rhs =>
    match lhs.asConst, rhs.asConst with
    | some lc, some rc => (lc.Ult rc).bind fun c => .ok c.toExpr
    | _, _ =>
      if ExprWidth lhs = WidthBool then do -- !lhs && rhs
        let z ← NewIsZeroExpr fuel lhs
        NewBinaryExpr fuel .and z rhs
      else .ok (.binary .ult lhs rhs)

/-- `newUleExpr` (expr.go). -/
def newUleExpr : Nat → Expr → Expr → Res Expr
  | 0, _, _ => .out
  | fuel+1, lhs, rhs =>
    match lhs.asConst, rhs.asConst with
    | some lc, some rc => (lc.Ule rc).bind fun c => .ok c.toExpr
    | _, _ =>
      if ExprWidth lhs = WidthBool then do -- !(lhs && !rhs)
        let z ← NewIsZeroExpr fuel lhs
        NewBinaryExpr fuel .or z rhs
      else .ok (.binary .ule lhs rhs)

/-- `newSltExpr` (expr.go). -/
def newSltExpr : Nat → Expr → Expr → Res Expr
  | 0, _, _ => .out
  | fuel+1, lhs, rhs =>
    match lhs.asConst, rhs.asConst with
    | some lc, some rc => (lc.Slt rc).bind fun c => .ok c.toExpr
    | _, _ =>
      if ExprWidth lhs = WidthBool then do -- lhs && !rhs
        let z ← NewIsZeroExpr fuel rhs
        NewBinaryExpr fuel .and lhs z
      else .ok (.binary .slt lhs rhs)

/-- `newSleExpr` (expr.go). -/
def newSleExpr : Nat → Expr → Expr → Res Expr
  | 0, _, _ => .out
  | fuel+1, lhs, rhs =>
    match lhs.asConst, rhs.asConst with
    | some lc, some rc => (lc.Sle rc).bind fun c => .ok c.toExpr
    | _, _ =>
      if ExprWidth lhs = WidthBool then do -- !(!lhs && rhs)
        let z ← NewIsZeroExpr fuel rhs
        NewBinaryExpr fuel .or lhs z
      else .ok (.binary .sle lhs rhs)

/-- `NewIsZeroExpr` (expr.go). -/
def NewIsZeroExpr : Nat → Expr → Res Expr
  | 0, _ => .out
  | fuel+1, other =>
      NewBinaryExpr fuel .eq other (NewConstantExpr 0 (ExprWidth other)).toExpr
end

/-- `NewArray` (array.go). -/
def NewArray (id : Nat) (size : Nat) : Arr := .mk id size .nil

/-- `Array.Clone` (array.go): a field-for-field copy. -/
def Arr.Clone (a : Arr) : Arr := a

/-- `NewArrayUpdate` (array.go): the index is zero-extended to 64 bits
and the value to 8 bits. -/
def NewArrayUpdate (fuel : Nat) (index value : Expr) (next : Upd) : Res Upd := do
  let i ← newZExtExpr fuel index Width64
  let v ← newZExtExpr fuel value Width8
  .ok (.cons i v next)

/-- The removal loop of `Array.storeByte` (array.go): drop entries whose
constant index equals `iv`, keep others, and stop at the first
symbolic-index entry. -/
def gcTail (iv : Nat) : Upd → Upd
  | .nil => .nil
  | .cons i v next =>
    match i.asConst with
    | none => .cons i v next                      -- symbolic index
    | some c =>
        if c.Value = iv then gcTail iv next       -- matching index, remove
        else .cons i v (gcTail iv next)           -- no matching index, continue

/-- `Array.storeByte` (array.go): assert the index width is 64, bounds-
check a constant index against the array size, prepend the update, then
garbage-collect shadowed constant writes up to a symbolic barrier.
A symbolic index is never bounds-checked. -/
def Arr.storeByte (fuel : Nat) (a : Arr) (index value : Expr) : Res Arr :=
  if ExprWidth index ≠ 64 then .fatal -- assert(ExprWidth(index) == 64)
  else match index.asConst with
  | some c =>
      -- Verify constant is not out of bounds.
      if ¬ c.Value < a.Size then .fatal -- assert(index.Value < a.Size)
      else
        (NewArrayUpdate fuel index value a.Updates).bind fun upd =>
          match upd with
          | .cons i v next => .ok (.mk a.ID a.Size (.cons i v (gcTail c.Value next)))
          | .nil => .fatal -- unreachable: NewArrayUpdate returns a cons
  | none =>
      (NewArrayUpdate fuel index value a.Updates).bind fun upd =>
        .ok (.mk a.ID a.Size upd)

/-- The traversal loop of `Array.selectByte` (array.go) over the update
chain, newest first. -/
def selectByteLoop (fuel : Nat) (a : Arr) (index : Expr) : Upd → Res Expr
  | .nil => .ok (NewSelectExpr a index)
  | .cons ui uv next => do
      let cond ← NewBinaryExpr fuel .eq index ui
      match cond.asConst with
      | none => .ok (NewSelectExpr a index) -- found symbolic index, exit
      | some c => if c.IsTrue then .ok uv else selectByteLoop fuel a index next

/-- `Array.selectByte` (array.go). -/
def Arr.selectByte (fuel : Nat) (a : Arr) (index : Expr) : Res Expr :=
  if ExprWidth index ≠ 64 then .fatal -- assert(ExprWidth(index) == 64)
  else selectByteLoop fuel a index a.Updates

/-- The byte loop of `Array.Store` (array.go): `i` counts from 0 to
`n - 1` (`r` is the remaining iteration count `n - i`). -/
def storeLoop (fuel : Nat) (offset value : Expr) (n : Nat) (le : Bool) :
    Arr → Nat → Nat → Res Arr
  | a, _, 0 => .ok a
  | a, i, r+1 => do
      let byteOffset := if le then i else n - i - 1
      let idx ← NewBinaryExpr fuel .add offset (NewConstantExpr64 byteOffset).toExpr
      let b ← NewExtractExpr fuel value (i * 8) Width8
      let a2 ← a.storeByte fuel idx b
      storeLoop fuel offset value n le a2 (i + 1) r

/-- `Array.Store` (array.go): returns a new copy of the array. -/
def Arr.Store (fuel : Nat) (a : Arr) (offset value : Expr)
    (isLittleEndian : Bool) : Res Arr := do
  let other := a.Clone
  let off ← newZExtExpr fuel offset Width64
  let width := ExprWidth value
  if width = 0 then .fatal -- assert(width > 0)
  else if width = WidthBool then
    -- Treat bool specially, it is the only non-byte sized write we allow.
    other.storeByte fuel off value
  else
    -- Otherwise, follow the slow general case.
    storeLoop fuel off value (width / 8) isLittleEndian other 0 (width / 8)

/-- The byte loop of `Array.Select` (array.go); `result` starts nil and
is set on iteration 0, later iterations concatenate onto it. -/
def selectLoop (fuel : Nat) (a : Arr) (offset : Expr) (n : Nat) (le : Bool) :
    Nat → Nat → Option Expr → Res (Option Expr)
  | _, 0, result => .ok result
  | i, r+1, result => do
      let byteOffset := if le then i else n - i - 1
      let idx ← NewBinaryExpr fuel .add offset (NewConstantExpr64 byteOffset).toExpr
      let value ← a.selectByte fuel idx
      if i = 0 then selectLoop fuel a offset n le (i + 1) r (some value)
      else match result with
      | some rr => do
          let c ← NewConcatExpr fuel value rr
          selectLoop fuel a offset n le (i + 1) r (some c)
      | none => .fatal -- unreachable: result is set on iteration 0

/-- `Array.Select` (array.go).  `.ok none` models the Go `nil` result
(the loop body never runs when `width/8 = 0` and `width ≠ 1`). -/
def Arr.Select (fuel : Nat) (a : Arr) (offset : Expr) (width : Nat)
    (isLittleEndian : Bool) : Res (Option Expr) :=
  if width = 0 then .fatal -- assert(width > 0)
  else do
    let off ← newZExtExpr fuel offset Width64
    if width = WidthBool then do
      let b ← a.selectByte fuel off
      let e ← NewExtractExpr fuel b 0 WidthBool
      .ok (some e)
    else
      -- Handle read byte-by-byte.
      selectLoop fuel a off (width / 8) isLittleEndian 0 (width / 8) none

/-- `Executor.MaxAllocSize` (executor.go), as a function of
`Executor.PointerWidth()`. -/
def MaxAllocSize (pointerWidth : Nat) : Nat :=
  if pointerWidth = 32 then 1 * 1024 * 1024 -- 1MB
  else 256 * 1024 * 1024 -- 256MB

/-- The slice of `ExecutionState` (execution_state.go) that allocation
and constraints touch.  `ptrWidth` is `executor.PointerWidth()`, which
`executor.go` computes as `Sizeof(pointer) * 8` — a bit count. -/
structure ExecutionState where
  ptrWidth : Nat
  heap : List (Nat × Arr)
  constraints : List Expr
deriving DecidableEq, Repr

/-- `immutable.SortedMap.Set`: insert or replace, keeping keys sorted. -/
def heapSet : List (Nat × Arr) → Nat → Arr → List (Nat × Arr)
  | [], k, v => [(k, v)]
  | (k', v') :: rest, k, v =>
    if k < k' then (k, v) :: (k', v') :: rest
    else if k = k' then (k, v) :: rest
    else (k', v') :: heapSet rest k v

/-- `ExecutionState.nextAddr` (execution_state.go): seek to the last
(highest) heap entry and return `addr + size`; an empty heap yields the
pointer width, so addresses are always non-zero. -/
def ExecutionState.nextAddr (s : ExecutionState) : Nat :=
  match s.heap.getLast? with
  | some (k, v) => k + v.Size
  | none => s.ptrWidth

/-- `ExecutionState.Alloc` (execution_state.go): place a fresh array,
whose id is its address, at `nextAddr`; there is no size check. -/
def ExecutionState.Alloc (s : ExecutionState) (width : Nat) :
    ConstantExpr × Arr × ExecutionState :=
  let addr := s.nextAddr
  let array := NewArray addr width
  (NewConstantExpr addr s.ptrWidth, array,
   { s with heap := heapSet s.heap addr array })

/-- `ExecutionState.AddConstraint` (execution_state.go) acting on the
constraint list (the only state it reads or writes): a constant that is
not boolean-true fails the assert; a top-level AND splits into two
recursive calls; everything else is appended. -/
def AddConstraintList (cs : List Expr) (e : Expr) : Option (List Expr) :=
  match e.asConst with
  | some c =>
      if c.IsTrue then some (cs ++ [e]) -- assert(expr.IsTrue())
      else none
  | none =>
    match e with
    | .binary .and l r =>
        -- Split logical conjunctions into two separate constraints.
        (AddConstraintList cs l).bind fun cs2 => AddConstraintList cs2 r
    | _ => some (cs ++ [e])

/-- `ExecutionState.AddConstraint`, packaged on the state. -/
def ExecutionState.AddConstraint (s : ExecutionState) (expr : Expr) :
    Option ExecutionState :=
  (AddConstraintList s.constraints expr).map fun cs =>
    { s with constraints := cs }

/-- go/token operators appearing in `executeBinOpInstr*` (executor.go). -/
inductive Token where
  | ADD | SUB | MUL | QUO | REM
  | AND | OR | XOR | SHL | SHR | AND_NOT
  | EQL | NEQ | LSS | LEQ | GTR | GEQ
deriving DecidableEq, Repr

/-- `executeBinOpInstrBoolean` (executor.go): the expression bound for a
boolean-typed BinOp; other tokens are errors. -/
def executeBinOpInstrBoolean (fuel : Nat) (x y : Expr) : Token → Res Expr
  | .AND => NewBinaryExpr fuel .and x y
  | .OR => NewBinaryExpr fuel .or x y
  | _ => .fatal -- invalid boolean binop operator

/-- `executeBinOpInstrInteger` (executor.go): the expression bound for
an integer-typed BinOp, chosen from the token and the `signed`
parameter. -/
def executeBinOpInstrInteger (fuel : Nat) (x y : Expr) (signed : Bool) :
    Token → Res Expr
  | .ADD => NewBinaryExpr fuel .add x y
  | .SUB => NewBinaryExpr fuel .sub x y
  | .MUL => NewBinaryExpr fuel .mul x y
  | .QUO =>
      if signed then NewBinaryExpr fuel .sdiv x y
      else NewBinaryExpr fuel .udiv x y
  | .REM => -- unsigned vs signed
      if signed then NewBinaryExpr fuel .srem x y
      else NewBinaryExpr fuel .urem x y
  | .AND => NewBinaryExpr fuel .and x y
  | .OR => NewBinaryExpr fuel .or x y
  | .XOR => NewBinaryExpr fuel .xor x y
  | .SHL => NewBinaryExpr fuel .shl x y
  | .SHR =>
      if signed then NewBinaryExpr fuel .ashr x y
      else NewBinaryExpr fuel .lshr x y
  | .AND_NOT => NewBinaryExpr fuel .xor x y
  | .EQL => NewBinaryExpr fuel .eq x y
  | .NEQ => NewBinaryExpr fuel .ne x y
  | .LSS =>
      if signed then NewBinaryExpr fuel .slt x y
      else NewBinaryExpr fuel .ult x y
  | .LEQ =>
      if signed then NewBinaryExpr fuel .sle x y
      else NewBinaryExpr fuel .ule x y
  | .GTR =>
      if signed then NewBinaryExpr fuel .sgt x y
      else NewBinaryExpr fuel .ugt x y
  | .GEQ =>
      if signed then NewBinaryExpr fuel .sge x y
      else NewBinaryExpr fuel .uge x y

/-- The `*types.Basic` arm of `executeBinOpInstr` (executor.go), for the
boolean and integer branches (`info` is the operand type's
`types.BasicInfo` flag set).  The integer branch passes the signedness
argument `types.IsUnsigned == 0` — a comparison of the constant flag
itself against zero, exactly as written in the source — so it does not
depend on `info`.  The float, complex and string branches return errors
or delegate to the string routine; none is needed by a claim, and all
are collapsed to `.fatal` here. -/
def executeBinOpInstr (fuel : Nat) (info : Nat) (tok : Token) (x y : Expr) :
    Res Expr :=
  if info &&& IsBoolean ≠ 0 then executeBinOpInstrBoolean fuel x y tok
  else if info &&& IsInteger ≠ 0 then
    executeBinOpInstrInteger fuel x y (IsUnsigned == 0) tok
  else .fatal

/-- Top-level-AND test used to state the constraint-splitting claims. -/
def isTopAnd : Expr → Bool
  | .binary .and _ _ => true
  | _ => false

/-- Select-expression test used to state the read-barrier claims. -/
def isSelectExpr : Expr → Bool
  | .select _ _ => true
  | _ => false

/-- Length of an update chain. -/
def updLen : Upd → Nat
  | .nil => 0
  | .cons _ _ next => updLen next + 1

/-- The binary operators that survive compare canonicalization: `NE`,
`UGT`, `UGE`, `SGT` and `SGE` are rewritten away by `NewBinaryExpr`. -/
def opCanon : BinaryOp → Bool
  | .ne => false
  | .ugt => false
  | .uge => false
  | .sgt => false
  | .sge => false
  | _ => true

mutual
/-- Every binary node anywhere in the expression (including inside a
select's array update chain) carries a canonical operator. -/
def canonOps : Expr → Bool
  | .constant _ _ => true
  | .notOptimized src => canonOps src
  | .select a i => canonArr a && canonOps i
  | .concat m l => canonOps m && canonOps l
  | .extract e _ _ => canonOps e
  | .not e => canonOps e
  | .cast s _ _ => canonOps s
  | .binary op l r => opCanon op && canonOps l && canonOps r

/-- `canonOps` lifted to arrays. -/
def canonArr : Arr → Bool
  | .mk _ _ u => canonUpd u

/-- `canonOps` lifted to update chains. -/
def canonUpd : Upd → Bool
  | .nil => true
  | .cons i v n => canonOps i && canonOps v && canonUpd n
end

/-- The widths handled by the per-width switches of the `ConstantExpr`
methods (`uint8`/`uint16`/`uint32`/`uint64` cases). -/
@[reducible] def StdWidth (w : Nat) : Prop := w = 8 ∨ w = 16 ∨ w = 32 ∨ w = 64

/-- The widths the specification calls accepted: 1, 8, 16, 32, 64. -/
@[reducible] def AcceptedWidth (w : Nat) : Prop := w = 1 ∨ StdWidth w

/-- Specification-side closed-form semantics: the two's-complement
integer denoted by the width-`w` value `v`. -/
def specSInt (w : Nat) (v : Nat) : Int :=
  if v % 2 ^ w < 2 ^ (w - 1) then ((v % 2 ^ w : Nat) : Int)
  else ((v % 2 ^ w : Nat) : Int) - 2 ^ w

/-- Specification-side encoding of an integer as a width-`w` value
(modulo `2^w`). -/
def specEnc (w : Nat) (i : Int) : Nat := (i % (2 ^ w)).toNat

/-- Helper shape for C6: an update chain made of constant-index byte writes
(`pairs`, newest first) on top of a residual chain `rest`. -/
def chainOf : List (Nat × Expr) → Upd → Upd
  | [], rest => rest
  | (p, b) :: W, rest => .cons (.constant p 64) b (chainOf W rest)

/-- Lookup of a constant index in the pairs of a `chainOf` chain. -/
def pairsLookup (x : Nat) : List (Nat × Expr) → Option Expr
  | [] => none
  | (y, b) :: W => if y = x then some b else pairsLookup x W

/-! ## Claim theorems -/

/-- C1: `executeBinOpInstrInteger` itself maps QUO/REM/SHR/LSS/LEQ/GTR/
GEQ with `signed = true` to the signed opcodes, but `executeBinOpInstr`
passes the constant `types.IsUnsigned == 0` (missing `info&`), which is
`false`, so a BinOp over a *signed* integer type (`info = IsInteger`,
no `IsUnsigned` bit) is bound to the *unsigned* opcodes UDIV/UREM/LSHR/
ULT/ULE/UGT/UGE, contradicting the claim. -/
theorem C1_integer_binop_signedness (fuel : Nat) (x y : Expr) :
    executeBinOpInstrInteger fuel x y true .QUO = NewBinaryExpr fuel .sdiv x y
    ∧ executeBinOpInstrInteger fuel x y true .SHR = NewBinaryExpr fuel .ashr x y
    ∧ executeBinOpInstrInteger fuel x y true .LSS = NewBinaryExpr fuel .slt x y
    ∧ executeBinOpInstr fuel IsInteger .QUO x y = NewBinaryExpr fuel .udiv x y
    ∧ executeBinOpInstr fuel IsInteger .REM x y = NewBinaryExpr fuel .urem x y
    ∧ executeBinOpInstr fuel IsInteger .SHR x y = NewBinaryExpr fuel .lshr x y
    ∧ executeBinOpInstr fuel IsInteger .LSS x y = NewBinaryExpr fuel .ult x y
    ∧ executeBinOpInstr fuel IsInteger .LEQ x y = NewBinaryExpr fuel .ule x y
    ∧ executeBinOpInstr fuel IsInteger .GTR x y = NewBinaryExpr fuel .ugt x y
    ∧ executeBinOpInstr fuel IsInteger .GEQ x y = NewBinaryExpr fuel .uge x y :=
  ⟨rfl, rfl, rfl, rfl, rfl, rfl, rfl, rfl, rfl, rfl⟩

/-- C4 counterexample: an allocation of `MaxAllocSize + 1` bytes on a
64-bit target succeeds exactly like any other allocation (`Alloc` has
no failure path and never consults `MaxAllocSize`), rather than
yielding a fatal error. -/
theorem C4_counterexample :
    ExecutionState.Alloc ⟨64, [], []⟩ (MaxAllocSize 64 + 1)
      = (NewConstantExpr 64 64, NewArray 64 (MaxAllocSize 64 + 1),
         ⟨64, [(64, NewArray 64 (MaxAllocSize 64 + 1))], []⟩) := by
  decide

/-- C4 amended: `MaxAllocSize` is 1 MiB at pointer width 32 and 256 MiB
otherwise, but no allocation path checks it: `Alloc` unconditionally
places an array of the requested size — for every state and every
size, including sizes above the limit. -/
theorem C4_max_alloc_size_unenforced :
    MaxAllocSize 32 = 1024 * 1024
    ∧ MaxAllocSize 64 = 256 * 1024 * 1024
    ∧ ∀ (s : ExecutionState) (width : Nat),
        s.Alloc width
          = (NewConstantExpr s.nextAddr s.ptrWidth, NewArray s.nextAddr width,
             { s with heap := heapSet s.heap s.nextAddr (NewArray s.nextAddr width) }) :=
  ⟨rfl, rfl, fun _ _ => rfl⟩

/-- C5 counterexample: in an empty heap on a 64-bit target the first
allocation is placed at address 64 — `PointerWidth()` is a *bit* count
(`Sizeof * 8`) — not at the pointer width in bytes (8). -/
theorem C5_counterexample :
    (ExecutionState.Alloc ⟨64, [], []⟩ 16).2.1.ID = 64 ∧ (64 : Nat) / 8 ≠ 64 := by
  decide

theorem mem_of_getLast?_eq {α : Type} :
    ∀ {l : List α} {v : α}, l.getLast? = some v → v ∈ l
  | [], _, h => by simp at h
  | [x], v, h => by
      simp only [List.getLast?_singleton, Option.some_inj] at h
      simp [h]
  | x :: y :: r, v, h => by
      rw [List.getLast?_cons_cons] at h
      exact List.mem_cons_of_mem x (mem_of_getLast?_eq h)

theorem heap_getLast_ge :
    ∀ (l : List (Nat × Arr)), l.Pairwise (fun p q => p.1 < q.1) →
      ∀ p ∈ l, ∀ (k : Nat) (a : Arr), l.getLast? = some (k, a) → p.1 ≤ k
  | [], _, p, hp, _, _, _ => by cases hp
  | [x], _, p, hp, k, a, hl => by
      simp only [List.getLast?_singleton, Option.some_inj] at hl
      rcases List.mem_singleton.mp hp with rfl
      rw [hl]
  | x :: y :: rest2, hs, p, hp, k, a, hl => by
      rw [List.getLast?_cons_cons] at hl
      rcases List.mem_cons.mp hp with rfl | hp2
      · have hk : (k, a) ∈ y :: rest2 := mem_of_getLast?_eq hl
        have := (List.pairwise_cons.mp hs).1 _ hk
        omega
      · exact heap_getLast_ge (y :: rest2) (List.pairwise_cons.mp hs).2 p hp2 k a hl

/-- C5 amended: each allocation is placed at `nextAddr`, which is
`last_addr + last_size` of the highest existing allocation, or the
executor's `PointerWidth()` — the pointer width in *bits* — when the
heap is empty; the allocated array's id equals its base address; on a
sorted heap with positive addresses the new address is positive and at
least every existing address, strictly greater when the highest
allocation has positive size (allocation sizes of zero make the next
address merely non-decreasing). -/
theorem C5_alloc_addresses (s : ExecutionState) (width : Nat)
    (hs : s.heap.Pairwise (fun p q => p.1 < q.1))
    (hpos : 0 < s.ptrWidth) (hmem : ∀ p ∈ s.heap, 0 < p.1) :
    (s.Alloc width).2.1.ID = s.nextAddr
    ∧ (s.Alloc width).1 = NewConstantExpr s.nextAddr s.ptrWidth
    ∧ (s.heap = [] → s.nextAddr = s.ptrWidth)
    ∧ (∀ k a, s.heap.getLast? = some (k, a) → s.nextAddr = k + a.Size)
    ∧ 0 < s.nextAddr
    ∧ (∀ p ∈ s.heap, p.1 ≤ s.nextAddr)
    ∧ (∀ k a, s.heap.getLast? = some (k, a) → 0 < a.Size →
        ∀ p ∈ s.heap, p.1 < s.nextAddr) := by
  refine ⟨rfl, rfl, ?_, ?_, ?_, ?_, ?_⟩
  · intro h
    simp [ExecutionState.nextAddr, h]
  · intro k a h
    simp [ExecutionState.nextAddr, h]
  · unfold ExecutionState.nextAddr
    cases hl : s.heap.getLast? with
    | none => simpa using hpos
    | some p =>
        obtain ⟨k, a⟩ := p
        have := hmem _ (mem_of_getLast?_eq hl)
        simp only []
        omega
  · intro p hp
    unfold ExecutionState.nextAddr
    cases hl : s.heap.getLast? with
    | none =>
        rw [List.getLast?_eq_none_iff] at hl
        rw [hl] at hp
        cases hp
    | some q =>
        obtain ⟨k, a⟩ := q
        have := heap_getLast_ge s.heap hs p hp k a hl
        simp only []
        omega
  · intro k a hl ha p hp
    unfold ExecutionState.nextAddr
    rw [hl]
    have := heap_getLast_ge s.heap hs p hp k a hl
    simp only []
    omega

/-- C5 witness: the amended theorem at a concrete two-entry heap. -/
theorem C5_alloc_addresses_witness :
    (ExecutionState.Alloc ⟨64, [(64, NewArray 64 16), (80, NewArray 80 4)], []⟩ 9).2.1.ID
      = ExecutionState.nextAddr ⟨64, [(64, NewArray 64 16), (80, NewArray 80 4)], []⟩
    ∧ 0 < ExecutionState.nextAddr ⟨64, [(64, NewArray 64 16), (80, NewArray 80 4)], []⟩ := by
  have h := C5_alloc_addresses ⟨64, [(64, NewArray 64 16), (80, NewArray 80 4)], []⟩ 9
    (by decide) (by decide) (by decide)
  exact ⟨h.1, h.2.2.2.2.1⟩

/-- C8 counterexample: an 8-bit constant 5 is neither a constant false
(width-1 zero) nor a top-level AND, yet `AddConstraint` aborts on it
instead of appending it — the assert accepts only boolean-true
constants. -/
theorem C8_counterexample :
    AddConstraintList [] (.constant 5 8) = none
    ∧ IsConstantFalse (.constant 5 8) = false
    ∧ isTopAnd (.constant 5 8) = false := by
  decide

theorem addConstraintList_prefix (cs : List Expr) (e : Expr) (cs2 : List Expr)
    (h : AddConstraintList cs e = some cs2) : cs <+: cs2 := by
  induction cs, e using AddConstraintList.induct generalizing cs2 with
  | case1 e cs c hc htrue =>
      rw [AddConstraintList] at h
      · rw [hc] at h
        simp only [htrue, if_true] at h
        rw [Option.some_inj] at h
        exact h ▸ List.prefix_append cs [e]
      · intro l r he
        subst he
        simp [Expr.asConst] at hc
  | case2 e cs c hc hfalse =>
      rw [AddConstraintList] at h
      · rw [hc] at h
        simp only [if_neg hfalse] at h
        cases h
      · intro l r he
        subst he
        simp [Expr.asConst] at hc
  | case3 cs l r hnone ihl ihr =>
      simp only [AddConstraintList, hnone] at h
      cases hl : AddConstraintList cs l with
      | none => rw [hl] at h; simp at h
      | some cs1 =>
          rw [hl] at h
          simp only [Option.some_bind] at h
          exact (ihl cs1 hl).trans (ihr cs1 cs2 h)
  | case4 e cs hnone hne =>
      rw [AddConstraintList] at h
      · rw [hnone] at h
        rw [Option.some_inj] at h
        exact h ▸ List.prefix_append cs [e]
      · exact hne

theorem addConstraintList_no_top_and (cs : List Expr) (e : Expr)
    (cs2 : List Expr) (hcs : ∀ c ∈ cs, isTopAnd c = false)
    (h : AddConstraintList cs e = some cs2) : ∀ c ∈ cs2, isTopAnd c = false := by
  induction cs, e using AddConstraintList.induct generalizing cs2 with
  | case1 e cs c hc htrue =>
      rw [AddConstraintList] at h
      · rw [hc] at h
        simp only [htrue, if_true] at h
        rw [Option.some_inj] at h
        subst h
        intro c2 hc2
        rcases List.mem_append.mp hc2 with hm | hm
        · exact hcs c2 hm
        · rcases List.mem_singleton.mp hm with rfl
          cases c2 <;> simp_all [Expr.asConst, isTopAnd]
      · intro l r he
        rw [he] at hc
        simp [Expr.asConst] at hc
  | case2 e cs c hc hfalse =>
      rw [AddConstraintList] at h
      · rw [hc] at h
        simp only [if_neg hfalse] at h
        cases h
      · intro l r he
        subst he
        simp [Expr.asConst] at hc
  | case3 cs l r hnone ihl ihr =>
      simp only [AddConstraintList, hnone] at h
      cases hl : AddConstraintList cs l with
      | none => rw [hl] at h; simp at h
      | some cs1 =>
          rw [hl] at h
          simp only [Option.some_bind] at h
          exact ihr cs1 cs2 (ihl cs1 hcs hl) h
  | case4 e cs hnone hne =>
      rw [AddConstraintList] at h
      · rw [hnone] at h
        rw [Option.some_inj] at h
        subst h
        intro c2 hc2
        rcases List.mem_append.mp hc2 with hm | hm
        · exact hcs c2 hm
        · rcases List.mem_singleton.mp hm with rfl
          cases c2 <;> simp_all [isTopAnd]
      · exact hne

/-- C8 amended: a constant that is not boolean-true is fatal (in
particular a constant false, which when top-level leaves no constraint
recorded); a top-level AND is split recursively so that no stored
constraint is a top-level AND; any non-constant non-AND expression,
and constant true, is appended after the existing constraints, whose
order (as a prefix) is preserved. -/
theorem C8_add_constraint (cs : List Expr) (e : Expr) :
    (∀ v w, ConstantExpr.IsTrue ⟨v, w⟩ = false →
        AddConstraintList cs (.constant v w) = none)
    ∧ (∀ l r, AddConstraintList cs (.binary .and l r)
        = (AddConstraintList cs l).bind fun cs2 => AddConstraintList cs2 r)
    ∧ (isTopAnd e = false → (e.asConst = none ∨ IsConstantTrue e = true) →
        AddConstraintList cs e = some (cs ++ [e]))
    ∧ (∀ cs2, AddConstraintList cs e = some cs2 → cs <+: cs2)
    ∧ (∀ cs2, (∀ c ∈ cs, isTopAnd c = false) →
        AddConstraintList cs e = some cs2 → ∀ c ∈ cs2, isTopAnd c = false) := by
  refine ⟨?_, ?_, ?_, ?_, ?_⟩
  · intro v w hv
    simp [AddConstraintList, Expr.asConst, hv]
  · intro l r
    rfl
  · intro hand hc
    rcases hc with hc | hc
    · cases e <;> simp_all [AddConstraintList, isTopAnd, Expr.asConst]
      rename_i op _ _
      cases op <;> simp_all [AddConstraintList]
    · cases e <;> simp_all [AddConstraintList, IsConstantTrue, Expr.asConst]
  · exact fun cs2 => addConstraintList_prefix cs e cs2
  · exact fun cs2 => addConstraintList_no_top_and cs e cs2

/-! Shared evaluation lemmas for the array operations. -/

theorem newZExtExpr_nop (fuel : Nat) (e : Expr) (w : Nat) (h : ExprWidth e = w) :
    newZExtExpr (fuel+1) e w = .ok e := by
  simp [newZExtExpr, h]

theorem NewExtractExpr_full (fuel : Nat) (e : Expr) (w : Nat)
    (h : ExprWidth e = w) (hw : w ≠ 0) : NewExtractExpr (fuel+1) e 0 w = .ok e := by
  simp [NewExtractExpr, h, hw]

theorem NBE_eq_const64 (fuel : Nat) (a b : Nat) :
    NewBinaryExpr (fuel+2) .eq (.constant a 64) (.constant b 64)
      = .ok (NewBoolConstantExpr (a == b)).toExpr := by
  simp [NewBinaryExpr, newEqExpr, IsConstantExpr, Expr.asConst, ConstantExpr.Eq]

theorem NBE_add_const64 (fuel : Nat) (a b : Nat) (h : a + b < 2 ^ 64) :
    NewBinaryExpr (fuel+2) .add (.constant a 64) (.constant b 64)
      = .ok (.constant (a + b) 64) := by
  by_cases ha : a = 0
  · subst ha
    simp [NewBinaryExpr, newAddExpr, IsConstantExpr, Expr.asConst, ExprWidth, WidthBool]
  · simp only [NewBinaryExpr, newAddExpr, IsConstantExpr, Expr.asConst, ExprWidth,
      WidthBool, Option.isSome_some, Bool.not_true, Bool.false_and, if_false,
      Bool.and_self]
    norm_num
    rw [if_neg ha]
    simp [ConstantExpr.Add, ConstantExpr.toExpr, NewConstantExpr, bitmask]
    omega

theorem storeByte_const (fuel : Nat) (a : Arr) (k : Nat) (v : Expr)
    (hk : k < a.Size) (hv : ExprWidth v = 8) :
    Arr.storeByte (fuel+1) a (.constant k 64) v
      = .ok (.mk a.ID a.Size (.cons (.constant k 64) v (gcTail k a.Updates))) := by
  simp [Arr.storeByte, ExprWidth, Expr.asConst, hk, NewArrayUpdate,
    newZExtExpr, hv, Width64, Width8]

theorem storeByte_symb (fuel : Nat) (a : Arr) (i v : Expr)
    (h64 : ExprWidth i = 64) (hsym : i.asConst = none) (hv : ExprWidth v = 8) :
    Arr.storeByte (fuel+1) a i v
      = .ok (.mk a.ID a.Size (.cons i v a.Updates)) := by
  simp [Arr.storeByte, h64, hsym, NewArrayUpdate, newZExtExpr, hv, Width64, Width8]

/-- C9: a store_byte whose index is a constant at or beyond the array
size aborts via the bounds assert before touching the update chain
(hence `Store` with such an offset aborts as well), while a store_byte
with a symbolic (non-constant) 64-bit index is never bounds-checked and
always prepends a new head entry, leaving the tail untouched. -/
theorem C9_store_bounds (fuel : Nat) :
    (∀ (a : Arr) (iv : Nat) (v : Expr), a.Size ≤ iv →
        Arr.storeByte fuel a (.constant iv 64) v = .fatal)
    ∧ (∀ (a : Arr) (i v : Expr), ExprWidth i = 64 → i.asConst = none →
        ExprWidth v = 8 →
        Arr.storeByte (fuel+1) a i v = .ok (.mk a.ID a.Size (.cons i v a.Updates)))
    ∧ (∀ (a : Arr) (ov : Nat) (v : Expr) (le : Bool), ExprWidth v = 8 →
        ov < 2 ^ 64 → a.Size ≤ ov →
        Arr.Store (fuel+2) a (.constant ov 64) v le = .fatal) := by
  refine ⟨?_, ?_, ?_⟩
  · intro a iv v h
    simp [Arr.storeByte, ExprWidth, Expr.asConst, Nat.not_lt.mpr h]
  · intro a i v h64 hsym hv
    exact storeByte_symb fuel a i v h64 hsym hv
  · intro a ov v le hv hov h
    have hz : newZExtExpr (fuel+2) (.constant ov 64) 64 = .ok (.constant ov 64) :=
      newZExtExpr_nop (fuel+1) _ 64 rfl
    have hadd : NewBinaryExpr (fuel+2) .add (.constant ov 64) (.constant 0 64)
        = .ok (.constant ov 64) := by
      have := NBE_add_const64 fuel ov 0 (by omega)
      simpa using this
    have hx : NewExtractExpr (fuel+2) v 0 8 = .ok v :=
      NewExtractExpr_full (fuel+1) v 8 hv (by omega)
    have hsb : Arr.storeByte (fuel+2) a (.constant ov 64) v = .fatal := by
      simp [Arr.storeByte, ExprWidth, Expr.asConst, Nat.not_lt.mpr h]
    simp [Arr.Store, Arr.Clone, hz, hv, Width64, WidthBool, storeLoop,
      NewConstantExpr64, NewConstantExpr, ConstantExpr.toExpr, bitmask,
      hadd, hx, hsb, Width8]

/-- C9 witness: both abort and prepend behaviour at concrete inputs. -/
theorem C9_store_bounds_witness :
    Arr.storeByte 9 (.mk 1 4 .nil) (.constant 4 64) (.constant 7 8) = .fatal
    ∧ Arr.storeByte 9 (.mk 1 4 .nil)
        (.cast (.select (.mk 2 8 .nil) (.constant 0 64)) 64 false) (.constant 7 8)
      = .ok (.mk 1 4 (.cons (.cast (.select (.mk 2 8 .nil) (.constant 0 64)) 64 false)
          (.constant 7 8) .nil))
    ∧ Arr.Store 9 (.mk 1 4 .nil) (.constant 9 64) (.constant 7 8) true = .fatal :=
  ⟨(C9_store_bounds 9).1 (.mk 1 4 .nil) 4 (.constant 7 8) (by decide),
   (C9_store_bounds 8).2.1 (.mk 1 4 .nil) _ _ (by decide) (by decide) (by decide),
   (C9_store_bounds 7).2.2 (.mk 1 4 .nil) 9 (.constant 7 8) true (by decide)
     (by norm_num) (by decide)⟩

/-- C2 counterexample: after a concrete write at index 3, a
symbolic-index write, and another concrete write at index 3, all three
entries are retained, but `selectByte(3)` returns the most recent
constant value (12) — the newest concrete write precedes the symbolic
barrier in the newest-first traversal — and not a `Select` expression,
refuting the claim's final clause. -/
theorem C2_counterexample :
    (((Arr.mk 1 8 .nil).storeByte 20 (.constant 3 64) (.constant 10 8)).bind fun a1 =>
     (a1.storeByte 20 (.cast (.select (.mk 2 8 .nil) (.constant 0 64)) 64 false)
        (.constant 11 8)).bind fun a2 =>
      a2.storeByte 20 (.constant 3 64) (.constant 12 8))
      = .ok (.mk 1 8 (.cons (.constant 3 64) (.constant 12 8)
          (.cons (.cast (.select (.mk 2 8 .nil) (.constant 0 64)) 64 false) (.constant 11 8)
            (.cons (.constant 3 64) (.constant 10 8) .nil))))
    ∧ ((((Arr.mk 1 8 .nil).storeByte 20 (.constant 3 64) (.constant 10 8)).bind fun a1 =>
        (a1.storeByte 20 (.cast (.select (.mk 2 8 .nil) (.constant 0 64)) 64 false)
           (.constant 11 8)).bind fun a2 =>
         a2.storeByte 20 (.constant 3 64) (.constant 12 8)).bind fun a3 =>
        a3.selectByte 20 (.constant 3 64))
      = .ok (.constant 12 8)
    ∧ isSelectExpr (.constant 12 8) = false := by
  refine ⟨by decide, by decide, rfl⟩

/-- C2 amended: for every array, a concrete write at constant in-bounds
index `k`, then a symbolic-index write, then another concrete write at
`k` retains **all three** entries in the update chain (the third
write's garbage collection stops at the symbolic barrier, so nothing is
elided); a subsequent `selectByte` at `k` returns the *most recent
constant value* — the newest entry is a constant-index match found
before the symbolic barrier — not a `Select` expression. -/
theorem C2_symbolic_barrier (fuel : Nat) (a : Arr) (k : Nat) (s v1 v2 v3 : Expr)
    (hk : k < a.Size) (hs64 : ExprWidth s = 64) (hsym : s.asConst = none)
    (h1 : ExprWidth v1 = 8) (h2 : ExprWidth v2 = 8) (h3 : ExprWidth v3 = 8) :
    ((Arr.storeByte (fuel+1) a (.constant k 64) v1).bind fun a1 =>
     (Arr.storeByte (fuel+1) a1 s v2).bind fun a2 =>
      Arr.storeByte (fuel+1) a2 (.constant k 64) v3)
      = .ok (.mk a.ID a.Size (.cons (.constant k 64) v3 (.cons s v2
          (.cons (.constant k 64) v1 (gcTail k a.Updates)))))
    ∧ Arr.selectByte (fuel+2)
        (.mk a.ID a.Size (.cons (.constant k 64) v3 (.cons s v2
          (.cons (.constant k 64) v1 (gcTail k a.Updates)))))
        (.constant k 64)
      = .ok v3 := by
  constructor
  · rw [storeByte_const fuel a k v1 hk h1]
    rw [Res.bind_ok]
    rw [storeByte_symb fuel _ s v2 hs64 hsym h2]
    rw [Res.bind_ok]
    simp only [Arr.ID, Arr.Size, Arr.Updates]
    rw [storeByte_const fuel _ k v3 (by simpa [Arr.Size] using hk) h3]
    simp [Arr.ID, Arr.Size, Arr.Updates, gcTail, hsym]
  · have heq := NBE_eq_const64 fuel k k
    simp [Arr.selectByte, ExprWidth, Arr.Updates, selectByteLoop, heq,
      ConstantExpr.toExpr, NewBoolConstantExpr, Expr.asConst, ConstantExpr.IsTrue,
      WidthBool]

/-- C2 amended witness: the amended theorem at the concrete scenario of
the counterexample. -/
theorem C2_symbolic_barrier_witness :
    Arr.selectByte 20
      (.mk 1 8 (.cons (.constant 3 64) (.constant 12 8)
        (.cons (.cast (.select (.mk 2 8 .nil) (.constant 0 64)) 64 false) (.constant 11 8)
          (.cons (.constant 3 64) (.constant 10 8) (gcTail 3 .nil)))))
      (.constant 3 64)
      = .ok (.constant 12 8) :=
  (C2_symbolic_barrier 18 (.mk 1 8 .nil) 3
    (.cast (.select (.mk 2 8 .nil) (.constant 0 64)) 64 false)
    (.constant 10 8) (.constant 11 8) (.constant 12 8)
    (by decide) (by decide) (by decide) (by decide) (by decide) (by decide)).2

/-- Concat-expression test. -/
def isConcatExpr : Expr → Bool
  | .concat _ _ => true
  | _ => false

/-- A right-nested concatenation comb: most-significant chunks `ms`
(listed MSB first) over a lowest chunk `base`. -/
def combOf : List Expr → Expr → Expr
  | [], base => base
  | m :: ms, base => .concat m (combOf ms base)

/-- `NewConcatExpr`'s constant-folding guard: both operands constant. -/
def constPair : Expr → Expr → Bool
  | .constant _ _, .constant _ _ => true
  | _, _ => false

/-- `NewConcatExpr`'s contiguous-extract-merge guard. -/
def mergeablePair : Expr → Expr → Bool
  | .extract pe po _, .extract qe qo qw => pe == qe && qo + qw == po
  | _, _ => false

/-- Lowest chunks whose byte decomposition reassembles exactly: any 8-bit
expression, a well-formed constant of byte-multiple width, or a
non-constant non-concat of byte-multiple width. -/
def baseOK : Expr → Bool := fun e =>
  if ExprWidth e = 8 then true
  else match e.asConst with
    | some c => decide (c.Value < 2 ^ c.Width) && decide (16 ≤ c.Width)
        && decide (c.Width % 8 = 0) && decide (c.Width ≤ 64)
    | none => !(isConcatExpr e) && decide (ExprWidth e % 8 = 0)
        && decide (16 ≤ ExprWidth e)

/-- Byte `k` (LSB-indexed) of a comb with `j` base bytes. -/
def combByteF (j : Nat) (baseByte : Nat → Expr) (ms : List Expr) (k : Nat) : Expr :=
  if k < j then baseByte k else ms.getD (ms.length + j - 1 - k) (.constant 0 8)

/-- The value `Array.Select` has reassembled after reading `i` bytes of a
comb back. -/
def combAccF (j : Nat) (baseAcc : Nat → Expr) (ms : List Expr) (base : Expr)
    (i : Nat) : Expr :=
  if i < j then baseAcc i else combOf (List.drop (ms.length + j - i) ms) base

/-- The indexes of an update chain, when they are all constant. -/
def chainIdxs : Upd → Option (List Nat)
  | .nil => some []
  | .cons i _ n =>
    match i.asConst with
    | some c => (chainIdxs n).map (c.Value :: ·)
    | none => none

theorem updLen_chainIdxs : ∀ (u : Upd) (l : List Nat),
    chainIdxs u = some l → updLen u = l.length
  | .nil, l, h => by
      simp only [chainIdxs, Option.some_inj] at h
      simp [updLen, ← h]
  | .cons i v n, l, h => by
      simp only [chainIdxs] at h
      cases hi : i.asConst with
      | none => rw [hi] at h; cases h
      | some c =>
          rw [hi] at h
          cases hn : chainIdxs n with
          | none => rw [hn] at h; cases h
          | some l2 =>
              rw [hn] at h
              simp only [Option.map_some', Option.some_inj] at h
              subst h
              simp [updLen, updLen_chainIdxs n l2 hn]

theorem gcTail_not_mem : ∀ (u : Upd) (l : List Nat), chainIdxs u = some l →
    ∀ iv, iv ∉ l → gcTail iv u = u
  | .nil, _, _, _, _ => rfl
  | .cons i v n, l, h, iv, hm => by
      simp only [chainIdxs] at h
      cases hi : i.asConst with
      | none => simp [gcTail, hi]
      | some c =>
          rw [hi] at h
          cases hn : chainIdxs n with
          | none => rw [hn] at h; cases h
          | some l2 =>
              rw [hn] at h
              simp only [Option.map_some', Option.some_inj] at h
              subst h
              simp only [List.mem_cons, not_or] at hm
              simp [gcTail, hi, Ne.symm hm.1, gcTail_not_mem n l2 hn iv hm.2]

theorem NewConcatExpr_select (fuel : Nat) (hf : fuel ≠ 0) (a : Arr) (i lsb : Expr) :
    NewConcatExpr fuel (.select a i) lsb = .ok (.concat (.select a i) lsb) := by
  obtain ⟨f, rfl⟩ : ∃ f, fuel = f + 1 := ⟨fuel - 1, by omega⟩
  cases lsb <;> rfl

theorem selectByte_nil (fuel : Nat) (id size : Nat) (idx : Expr)
    (h : ExprWidth idx = 64) :
    Arr.selectByte fuel (.mk id size .nil) idx
      = .ok (.select (.mk id size .nil) idx) := by
  simp [Arr.selectByte, h, Arr.Updates, selectByteLoop, NewSelectExpr]

theorem NewExtractExpr_plain (fuel : Nat) (hf : fuel ≠ 0) (v : Expr) (off w' : Nat)
    (hw0 : w' ≠ 0) (hb : off + w' ≤ ExprWidth v) (hneq : w' ≠ ExprWidth v)
    (hc : v.asConst = none) (hcc : isConcatExpr v = false) :
    NewExtractExpr fuel v off w' = .ok (.extract v off w') := by
  obtain ⟨f, rfl⟩ : ∃ f, fuel = f + 1 := ⟨fuel - 1, by omega⟩
  simp only [NewExtractExpr]
  rw [if_neg hw0, if_neg (not_not_intro hb), if_neg hneq]
  cases v <;> simp_all [Expr.asConst, isConcatExpr]

theorem extract_byte_ok (fuel : Nat) (hf : fuel ≠ 0) (v : Expr) (w i : Nat)
    (hw : ExprWidth v = w) (h9 : 9 ≤ w) (hi : i * 8 + 8 ≤ w)
    (hv : v.asConst.isSome = true ∨ isConcatExpr v = false) :
    ∃ b, NewExtractExpr fuel v (i*8) 8 = .ok b ∧ ExprWidth b = 8 := by
  obtain ⟨fuel, rfl⟩ : ∃ f, fuel = f + 1 := ⟨fuel - 1, by omega⟩
  cases hvc : v.asConst with
  | some c =>
      have hvshape : v = .constant c.Value c.Width := by
        cases v <;> simp_all [Expr.asConst]
        cases hvc
        exact ⟨rfl, rfl⟩
      subst hvshape
      simp only [ExprWidth] at hw
      refine ⟨(ConstantExpr.Extract ⟨c.Value, c.Width⟩ (i*8) 8).toExpr, ?_, rfl⟩
      simp only [NewExtractExpr, ExprWidth]
      rw [if_neg (by omega), if_neg (by omega), if_neg (by omega)]
  | none =>
      have hcc : isConcatExpr v = false := by
        rcases hv with hv | hv
        · rw [hvc] at hv; cases hv
        · exact hv
      exact ⟨.extract v (i*8) 8,
        NewExtractExpr_plain (fuel+1) (by omega) v (i*8) 8 (by omega) (by omega)
          (by omega) hvc hcc,
        rfl⟩

theorem constExpr64_small (bo : Nat) (h : bo < 2 ^ 64) :
    (NewConstantExpr64 bo).toExpr = .constant bo 64 := by
  simp only [NewConstantExpr64, NewConstantExpr, ConstantExpr.toExpr, bitmask]
  norm_num
  omega

theorem selectLoop_nil (fuel id size ov n : Nat) (le : Bool)
    (hov : ov + n ≤ 2 ^ 64) (hn : 1 ≤ n) :
    ∀ (r i : Nat) (acc : Option Expr), i + r = n →
      ((i = 0 ∧ acc = none) ∨ (∃ x, acc = some x ∧ ExprWidth x = 8 * i ∧ 1 ≤ i)) →
      ∃ e, selectLoop (fuel+2) (.mk id size .nil) (.constant ov 64) n le i r acc
        = .ok (some e) ∧ ExprWidth e = 8 * n := by
  intro r
  induction r with
  | zero =>
      intro i acc hin hinv
      rcases hinv with ⟨hi, hacc⟩ | ⟨x, hacc, hx, hi⟩
      · omega
      · subst hacc
        exact ⟨x, rfl, by omega⟩
  | succ r ih =>
      intro i acc hin hinv
      have hbo : (if le then i else n - i - 1) < n := by
        cases le <;> simp <;> omega
      have hlt : ov + (if le then i else n - i - 1) < 2 ^ 64 := by omega
      have hadd : NewBinaryExpr (fuel+2) .add (.constant ov 64)
          (.constant (if le then i else n - i - 1) 64)
          = .ok (.constant (ov + (if le then i else n - i - 1)) 64) :=
        NBE_add_const64 fuel ov _ hlt
      have hsel := selectByte_nil (fuel+2) id size
        (.constant (ov + (if le then i else n - i - 1)) 64) rfl
      rw [selectLoop]
      rw [constExpr64_small _ (by omega), hadd]
      simp only [Res.monad_bind_eq_bind, Res.bind_ok]
      rw [hsel]
      simp only [Res.monad_bind_eq_bind, Res.bind_ok]
      by_cases hi : i = 0
      · subst hi
        rw [if_pos rfl]
        exact ih 1 (some (.select (.mk id size .nil)
            (.constant (ov + (if le then 0 else n - 0 - 1)) 64)))
          (by omega) (Or.inr ⟨_, rfl, by simp [ExprWidth, Width8], by omega⟩)
      · rcases hinv with ⟨hz, _⟩ | ⟨x, hacc, hx, _⟩
        · omega
        · subst hacc
          rw [if_neg hi]
          have hcc := NewConcatExpr_select (fuel+2) (by omega) (.mk id size .nil)
            (.constant (ov + (if le then i else n - i - 1)) 64) x
          simp only [hcc, Res.monad_bind_eq_bind, Res.bind_ok]
          exact ih (i+1) (some (.concat (.select (.mk id size .nil)
              (.constant (ov + (if le then i else n - i - 1)) 64)) x))
            (by omega)
            (Or.inr ⟨_, rfl, by simp [ExprWidth, Width8]; omega, by omega⟩)

theorem storeLoop_fresh (fuel id size ov n : Nat) (le : Bool) (v : Expr) (w : Nat)
    (hw : ExprWidth v = w) (h9 : 9 ≤ w) (hn8 : n = w / 8)
    (hovn : ov + n ≤ size) (hs : size ≤ 2 ^ 64)
    (hv : v.asConst.isSome = true ∨ isConcatExpr v = false) :
    ∀ (r i : Nat) (u : Upd), i + r = n →
      chainIdxs u = some ((List.range i).reverse.map
        (fun j => ov + (if le then j else n - j - 1))) →
      ∃ u2, storeLoop (fuel+2) (.constant ov 64) v n le (.mk id size u) i r
          = .ok (.mk id size u2)
        ∧ chainIdxs u2 = some ((List.range (i+r)).reverse.map
            (fun j => ov + (if le then j else n - j - 1))) := by
  intro r
  induction r with
  | zero =>
      intro i u hin hu
      exact ⟨u, rfl, hu⟩
  | succ r ih =>
      intro i u hin hu
      have hbo : (if le then i else n - i - 1) < n := by
        cases le <;> simp <;> omega
      have hadd : NewBinaryExpr (fuel+2) .add (.constant ov 64)
          (.constant (if le then i else n - i - 1) 64)
          = .ok (.constant (ov + (if le then i else n - i - 1)) 64) :=
        NBE_add_const64 fuel ov _ (by omega)
      obtain ⟨b, hb, hwb⟩ := extract_byte_ok (fuel+2) (by omega) v w i hw h9 (by omega) hv
      have hnotmem : (ov + (if le then i else n - i - 1)) ∉
          (List.range i).reverse.map (fun j => ov + (if le then j else n - j - 1)) := by
        intro hmem
        rw [List.mem_map] at hmem
        obtain ⟨j, hj, hje⟩ := hmem
        rw [List.mem_reverse, List.mem_range] at hj
        cases le <;> simp at hje <;> omega
      have hgc := gcTail_not_mem u _ hu _ hnotmem
      have hsb : Arr.storeByte (fuel+2) (.mk id size u)
          (.constant (ov + (if le then i else n - i - 1)) 64) b
          = .ok (.mk id size (.cons (.constant (ov + (if le then i else n - i - 1)) 64) b u)) := by
        rw [storeByte_const (fuel+1) (.mk id size u) _ b (by simp [Arr.Size]; omega) hwb]
        simp [Arr.ID, Arr.Size, Arr.Updates, hgc]
      have hchain : chainIdxs (.cons (.constant (ov + (if le then i else n - i - 1)) 64) b u)
          = some ((List.range (i+1)).reverse.map
              (fun j => ov + (if le then j else n - j - 1))) := by
        simp only [chainIdxs, Expr.asConst, hu, Option.map_some', Option.some_inj]
        rw [List.range_succ, List.reverse_append]
        simp
      obtain ⟨u2, hu2, hi2⟩ := ih (i+1)
        (.cons (.constant (ov + (if le then i else n - i - 1)) 64) b u)
        (by omega) hchain
      refine ⟨u2, ?_, by rw [hi2, show i + 1 + r = i + (r+1) from by omega]⟩
      rw [storeLoop]
      simp only [Width8, Width64]
      rw [constExpr64_small _ (by omega), hadd]
      simp only [Res.monad_bind_eq_bind, Res.bind_ok]
      rw [hb]
      simp only [Res.monad_bind_eq_bind, Res.bind_ok]
      rw [hsb]
      simp only [Res.monad_bind_eq_bind, Res.bind_ok]
      exact hu2

/-- C10: `Select` honors the requested width only when it is 1 or a
multiple of 8: for widths 2–7 it returns no expression (Go nil) and
`Store` returns an unchanged copy; for a width of 9 or more `Select`
behaves exactly as at width `8⌊w/8⌋` (it reads only `⌊w/8⌋` bytes, so
its result has width `8⌊w/8⌋`), and `Store` writes exactly `⌊w/8⌋`
byte entries. -/
theorem C10_width_handling (fuel : Nat) :
    (∀ (a : Arr) (off : Expr) (le : Bool) (w : Nat), ExprWidth off = 64 →
        2 ≤ w → w ≤ 7 → Arr.Select (fuel+1) a off w le = .ok none)
    ∧ (∀ (a : Arr) (off v : Expr) (le : Bool), ExprWidth off = 64 →
        2 ≤ ExprWidth v → ExprWidth v ≤ 7 → Arr.Store (fuel+1) a off v le = .ok a)
    ∧ (∀ (a : Arr) (off : Expr) (le : Bool) (w : Nat), 9 ≤ w →
        Arr.Select fuel a off w le = Arr.Select fuel a off (8 * (w / 8)) le)
    ∧ (∀ (id size ov w : Nat) (le : Bool) (e : Expr), 9 ≤ w → ov + w / 8 ≤ 2 ^ 64 →
        Arr.Select (fuel+2) (.mk id size .nil) (.constant ov 64) w le = .ok (some e) →
        ExprWidth e = 8 * (w / 8))
    ∧ (∀ (id size ov w : Nat) (le : Bool) (v : Expr) (a2 : Arr), ExprWidth v = w →
        9 ≤ w → ov + w / 8 ≤ size → size ≤ 2 ^ 64 →
        (v.asConst.isSome = true ∨ isConcatExpr v = false) →
        Arr.Store (fuel+2) (.mk id size .nil) (.constant ov 64) v le = .ok a2 →
        updLen a2.Updates = w / 8) := by
  refine ⟨?_, ?_, ?_, ?_, ?_⟩
  · intro a off le w hoff h2 h7
    have hz := newZExtExpr_nop fuel off 64 hoff
    have h0 : w / 8 = 0 := by omega
    simp only [Arr.Select, Width64, WidthBool, if_neg (by omega : ¬ w = 0), hz,
      Res.monad_bind_eq_bind, Res.bind_ok, if_neg (by omega : ¬ w = 1), h0]
    rfl
  · intro a off v le hoff h2 h7
    have hz := newZExtExpr_nop fuel off 64 hoff
    have h0 : ExprWidth v / 8 = 0 := by omega
    simp only [Arr.Store, Arr.Clone, Width64, WidthBool,
      if_neg (by omega : ¬ ExprWidth v = 0), hz,
      Res.monad_bind_eq_bind, Res.bind_ok, if_neg (by omega : ¬ ExprWidth v = 1), h0]
    rfl
  · intro a off le w h9
    have hdiv : 8 * (w / 8) / 8 = w / 8 := by omega
    simp only [Arr.Select, Width64, WidthBool, if_neg (by omega : ¬ w = 0),
      if_neg (by omega : ¬ 8 * (w / 8) = 0), if_neg (by omega : ¬ w = 1),
      if_neg (by omega : ¬ 8 * (w / 8) = 1), hdiv]
  · intro id size ov w le e h9 hov hsel
    have hz := newZExtExpr_nop (fuel+1) (.constant ov 64) 64 rfl
    obtain ⟨e2, he2, hw2⟩ := selectLoop_nil fuel id size ov (w/8) le hov (by omega)
      (w/8) 0 none (by omega) (Or.inl ⟨rfl, rfl⟩)
    simp only [Arr.Select, Width64, WidthBool, if_neg (by omega : ¬ w = 0), hz,
      Res.monad_bind_eq_bind, Res.bind_ok, if_neg (by omega : ¬ w = 1), he2] at hsel
    rw [Res.ok.injEq, Option.some_inj] at hsel
    rw [← hsel]
    exact hw2
  · intro id size ov w le v a2 hw h9 hov hs hv hst
    obtain ⟨u2, hu2, hidx⟩ := storeLoop_fresh fuel id size ov (w/8) le v w hw h9 rfl
      hov hs hv (w/8) 0 .nil (by omega) (by simp [chainIdxs])
    have hz := newZExtExpr_nop (fuel+1) (.constant ov 64) 64 rfl
    simp only [Arr.Store, Arr.Clone, Width64, WidthBool, hw,
      if_neg (by omega : ¬ w = 0), hz, Res.monad_bind_eq_bind, Res.bind_ok,
      if_neg (by omega : ¬ w = 1), hu2] at hst
    rw [Res.ok.injEq] at hst
    subst hst
    have := updLen_chainIdxs u2 _ hidx
    simp only [Arr.Updates, this, List.length_map, List.length_reverse,
      List.length_range]
    omega

/-- C10 witness: the five clauses at concrete inputs (width 5 select
and store, width 9 select equivalence, select-result width, store
byte count). -/
theorem C10_width_handling_witness :
    Arr.Select 11 (.mk 1 4 .nil) (.constant 0 64) 5 true = .ok none
    ∧ Arr.Store 11 (.mk 1 4 .nil) (.constant 0 64)
        (.extract (.select (.mk 2 8 .nil) (.constant 0 64)) 0 5) true
      = .ok (.mk 1 4 .nil)
    ∧ Arr.Select 10 (.mk 1 4 .nil) (.constant 0 64) 9 true
      = Arr.Select 10 (.mk 1 4 .nil) (.constant 0 64) (8 * (9 / 8)) true
    ∧ ExprWidth (.select (.mk 3 9 .nil) (.constant 2 64)) = 8 * (9 / 8)
    ∧ updLen (Arr.mk 3 20 (.cons (.constant 2 64)
        (.extract (.extract (.select (.mk 2 8 .nil) (.constant 0 64)) 0 9) 0 8)
        .nil)).Updates = 9 / 8 :=
  ⟨(C10_width_handling 10).1 (.mk 1 4 .nil) (.constant 0 64) true 5 (by decide)
      (by decide) (by decide),
   (C10_width_handling 10).2.1 (.mk 1 4 .nil) (.constant 0 64)
      (.extract (.select (.mk 2 8 .nil) (.constant 0 64)) 0 5) true (by decide)
      (by decide) (by decide),
   (C10_width_handling 10).2.2.1 (.mk 1 4 .nil) (.constant 0 64) true 9 (by decide),
   (C10_width_handling 10).2.2.2.1 3 9 2 9 true
      (.select (.mk 3 9 .nil) (.constant 2 64)) (by decide) (by norm_num)
      (by decide),
   (C10_width_handling 10).2.2.2.2 3 20 2 9 true
      (.extract (.select (.mk 2 8 .nil) (.constant 0 64)) 0 9)
      (.mk 3 20 (.cons (.constant 2 64)
        (.extract (.extract (.select (.mk 2 8 .nil) (.constant 0 64)) 0 9) 0 8)
        .nil))
      (by decide) (by decide) (by decide) (by norm_num)
      (Or.inr (by decide)) (by decide)⟩

/-- C8 witness: the amended theorem's append clause applied at a
concrete non-constant, non-AND expression. -/
theorem C8_add_constraint_witness :
    AddConstraintList [.binary .ult (.select (.mk 1 4 .nil) (.constant 0 64)) (.constant 9 8)]
        (.extract (.select (.mk 1 4 .nil) (.constant 0 64)) 0 1)
      = some [.binary .ult (.select (.mk 1 4 .nil) (.constant 0 64)) (.constant 9 8),
              .extract (.select (.mk 1 4 .nil) (.constant 0 64)) 0 1] :=
  (C8_add_constraint
    [.binary .ult (.select (.mk 1 4 .nil) (.constant 0 64)) (.constant 9 8)]
    (.extract (.select (.mk 1 4 .nil) (.constant 0 64)) 0 1)).2.2.1
    (by decide) (Or.inl (by decide))

theorem Res.eq_ok_of_bind {a : Type} {b : Type} {x : Res a} {f : a -> Res b} {v : b}
    (h : Res.bind x f = .ok v) : ∃ y, x = .ok y ∧ f y = .ok v := by
  cases x with
  | ok y => exact ⟨y, rfl, h⟩
  | fatal => exact absurd h (by simp [Res.bind])
  | out => exact absurd h (by simp [Res.bind])

theorem canonOps_constant (v w : Nat) : canonOps (.constant v w) = true := by
  rw [canonOps]

theorem canonOps_toExpr (c : ConstantExpr) : canonOps c.toExpr = true := by
  rw [ConstantExpr.toExpr, canonOps]

theorem canonOps_binary (op : BinaryOp) (l r : Expr) :
    canonOps (.binary op l r) = (opCanon op && canonOps l && canonOps r) := by
  rw [canonOps]

theorem canon_eqBottom {l r e : Expr} (hl : canonOps l = true)
    (hr : canonOps r = true) (h : eqBottom l r = .ok e) : canonOps e = true := by
  rw [eqBottom] at h
  split at h
  · injection h with h
    subst h
    exact canonOps_toExpr _
  · injection h with h
    subst h
    rw [canonOps_binary, hl, hr]
    rfl

theorem canonOps_cast_eq (s : Expr) (w : Nat) (g : Bool) :
    canonOps (.cast s w g) = canonOps s := by
  rw [canonOps]

theorem canon_binary_parts {op : BinaryOp} {l r : Expr}
    (h : canonOps (.binary op l r) = true) :
    canonOps l = true ∧ canonOps r = true := by
  rw [canonOps_binary] at h
  simp only [Bool.and_eq_true] at h
  exact ⟨h.1.2, h.2⟩

/-- Canonical operators are preserved by every constructor in the
`NewBinaryExpr` mutual block: an `.ok` result built from operands free
of `NE`/`UGT`/`UGE`/`SGT`/`SGE` nodes is itself free of them. -/
theorem canon_preserve : ∀ fuel : Nat,
    (∀ (op : BinaryOp) (l r e : Expr), canonOps l = true → canonOps r = true →
        NewBinaryExpr fuel op l r = .ok e → canonOps e = true)
    ∧ (∀ (l r e : Expr), canonOps l = true → canonOps r = true →
        newAddExpr fuel l r = .ok e → canonOps e = true)
    ∧ (∀ (l r e : Expr), canonOps l = true → canonOps r = true →
        newAddRhsStep fuel l r = .ok e → canonOps e = true)
    ∧ (∀ (l r e : Expr), canonOps l = true → canonOps r = true →
        newSubExpr fuel l r = .ok e → canonOps e = true)
    ∧ (∀ (l r e : Expr), canonOps l = true → canonOps r = true →
        newSubRhsStep fuel l r = .ok e → canonOps e = true)
    ∧ (∀ (l r e : Expr), canonOps l = true → canonOps r = true →
        newMulExpr fuel l r = .ok e → canonOps e = true)
    ∧ (∀ (op : BinaryOp) (l r e : Expr), canonOps l = true → canonOps r = true →
        newDivExpr fuel op l r = .ok e → canonOps e = true)
    ∧ (∀ (op : BinaryOp) (l r e : Expr), canonOps l = true → canonOps r = true →
        newRemExpr fuel op l r = .ok e → canonOps e = true)
    ∧ (∀ (l r e : Expr), canonOps l = true → canonOps r = true →
        newAndExpr fuel l r = .ok e → canonOps e = true)
    ∧ (∀ (l r e : Expr), canonOps l = true → canonOps r = true →
        newOrExpr fuel l r = .ok e → canonOps e = true)
    ∧ (∀ (l r e : Expr), canonOps l = true → canonOps r = true →
        newXorExpr fuel l r = .ok e → canonOps e = true)
    ∧ (∀ (l r e : Expr), canonOps l = true → canonOps r = true →
        newShlExpr fuel l r = .ok e → canonOps e = true)
    ∧ (∀ (l r e : Expr), canonOps l = true → canonOps r = true →
        newLShrExpr fuel l r = .ok e → canonOps e = true)
    ∧ (∀ (l r e : Expr), canonOps l = true → canonOps r = true →
        newAShrExpr fuel l r = .ok e → canonOps e = true)
    ∧ (∀ (l r e : Expr), canonOps l = true → canonOps r = true →
        newEqExpr fuel l r = .ok e → canonOps e = true)
    ∧ (∀ (l r e : Expr), canonOps l = true → canonOps r = true →
        newUltExpr fuel l r = .ok e → canonOps e = true)
    ∧ (∀ (l r e : Expr), canonOps l = true → canonOps r = true →
        newUleExpr fuel l r = .ok e → canonOps e = true)
    ∧ (∀ (l r e : Expr), canonOps l = true → canonOps r = true →
        newSltExpr fuel l r = .ok e → canonOps e = true)
    ∧ (∀ (l r e : Expr), canonOps l = true → canonOps r = true →
        newSleExpr fuel l r = .ok e → canonOps e = true)
    ∧ (∀ (x e : Expr), canonOps x = true →
        NewIsZeroExpr fuel x = .ok e → canonOps e = true) := by
  intro fuel
  induction fuel with
  | zero =>
      exact ⟨fun op l r e _ _ h => absurd h (by simp [NewBinaryExpr]),
        fun l r e _ _ h => absurd h (by simp [newAddExpr]),
        fun l r e _ _ h => absurd h (by simp [newAddRhsStep]),
        fun l r e _ _ h => absurd h (by simp [newSubExpr]),
        fun l r e _ _ h => absurd h (by simp [newSubRhsStep]),
        fun l r e _ _ h => absurd h (by simp [newMulExpr]),
        fun op l r e _ _ h => absurd h (by simp [newDivExpr]),
        fun op l r e _ _ h => absurd h (by simp [newRemExpr]),
        fun l r e _ _ h => absurd h (by simp [newAndExpr]),
        fun l r e _ _ h => absurd h (by simp [newOrExpr]),
        fun l r e _ _ h => absurd h (by simp [newXorExpr]),
        fun l r e _ _ h => absurd h (by simp [newShlExpr]),
        fun l r e _ _ h => absurd h (by simp [newLShrExpr]),
        fun l r e _ _ h => absurd h (by simp [newAShrExpr]),
        fun l r e _ _ h => absurd h (by simp [newEqExpr]),
        fun l r e _ _ h => absurd h (by simp [newUltExpr]),
        fun l r e _ _ h => absurd h (by simp [newUleExpr]),
        fun l r e _ _ h => absurd h (by simp [newSltExpr]),
        fun l r e _ _ h => absurd h (by simp [newSleExpr]),
        fun x e _ h => absurd h (by simp [NewIsZeroExpr])⟩
  | succ fuel ih =>
  obtain ⟨ihB, ihAdd, ihAddR, ihSub, ihSubR, ihMul, ihDiv, ihRem, ihAnd, ihOr,
    ihXor, ihShl, ihLShr, ihAShr, ihEq, ihUlt, ihUle, ihSlt, ihSle, ihZ⟩ := ih
  refine ⟨?_, ?_, ?_, ?_, ?_, ?_, ?_, ?_, ?_, ?_, ?_, ?_, ?_, ?_, ?_, ?_, ?_, ?_, ?_, ?_⟩

  · -- NewBinaryExpr dispatch
    intro op l r e hl hr h
    cases op
    case add => exact ihAdd l r e hl hr h
    case sub => exact ihSub l r e hl hr h
    case mul => exact ihMul l r e hl hr h
    case udiv => exact ihDiv .udiv l r e hl hr h
    case sdiv => exact ihDiv .sdiv l r e hl hr h
    case urem => exact ihRem .urem l r e hl hr h
    case srem => exact ihRem .srem l r e hl hr h
    case and => exact ihAnd l r e hl hr h
    case or => exact ihOr l r e hl hr h
    case xor => exact ihXor l r e hl hr h
    case shl => exact ihShl l r e hl hr h
    case lshr => exact ihLShr l r e hl hr h
    case ashr => exact ihAShr l r e hl hr h
    case eq => exact ihEq l r e hl hr h
    case ne =>
      obtain ⟨inner, h1, h2⟩ := Res.eq_ok_of_bind h
      exact ihB .eq _ inner e (canonOps_toExpr _) (ihB .eq l r inner hl hr h1) h2
    case ult => exact ihUlt l r e hl hr h
    case ugt => exact ihUlt r l e hr hl h
    case ule => exact ihUle l r e hl hr h
    case uge => exact ihUle r l e hr hl h
    case slt => exact ihSlt l r e hl hr h
    case sgt => exact ihSlt r l e hr hl h
    case sle => exact ihSle l r e hl hr h
    case sge => exact ihSle r l e hr hl h

  · intro l r e hl hr h
    simp only [newAddExpr] at h
    generalize hP1 : (if !IsConstantExpr l && IsConstantExpr r then (r, l) else (l, r)).1 = lhs at h
    generalize hP2 : (if !IsConstantExpr l && IsConstantExpr r then (r, l) else (l, r)).2 = rhs at h
    have hl2 : canonOps lhs = true := by
      rw [← hP1]
      split <;> assumption
    have hr2 : canonOps rhs = true := by
      rw [← hP2]
      split <;> assumption
    clear hP1 hP2 hl hr
    split at h
    · exact ihB .xor lhs rhs e hl2 hr2 h
    · split at h
      · -- lhs constant
        split at h
        · injection h with h
          subst h
          exact hr2
        · split at h
          · obtain ⟨c, hc1, hc2⟩ := Res.eq_ok_of_bind h
            injection hc2 with hc2
            subst hc2
            exact canonOps_toExpr _
          · -- merge with RHS binary
            split at h
            · obtain ⟨hrl, hrr⟩ := canon_binary_parts hr2
              split at h
              · obtain ⟨x, hx1, hx2⟩ := Res.eq_ok_of_bind h
                exact ihB .add x _ e (ihB .add lhs _ x hl2 hrl hx1) hrr hx2
              · injection h with h
                subst h
                rw [canonOps_binary, hl2, hr2]
                rfl
            · obtain ⟨hrl, hrr⟩ := canon_binary_parts hr2
              split at h
              · obtain ⟨x, hx1, hx2⟩ := Res.eq_ok_of_bind h
                exact ihB .sub x _ e (ihB .add lhs _ x hl2 hrl hx1) hrr hx2
              · injection h with h
                subst h
                rw [canonOps_binary, hl2, hr2]
                rfl
            · injection h with h
              subst h
              rw [canonOps_binary, hl2, hr2]
              rfl
      · -- lhs not constant
        split at h
        · obtain ⟨hll, hlr2⟩ := canon_binary_parts hl2
          split at h
          · obtain ⟨x, hx1, hx2⟩ := Res.eq_ok_of_bind h
            exact ihB .add _ x e hll (ihB .add _ rhs x hlr2 hr2 hx1) hx2
          · exact ihAddR _ rhs e hl2 hr2 h
        · obtain ⟨hll, hlr2⟩ := canon_binary_parts hl2
          split at h
          · obtain ⟨x, hx1, hx2⟩ := Res.eq_ok_of_bind h
            exact ihB .add _ x e hll (ihB .sub rhs _ x hr2 hlr2 hx1) hx2
          · exact ihAddR _ rhs e hl2 hr2 h
        · exact ihAddR lhs rhs e hl2 hr2 h

  · intro l r e hl hr h
    rcases r with ⟨v, w⟩ | s | ⟨a, i⟩ | ⟨m2, l2⟩ | ⟨e2, o2, w2⟩ | e2 | ⟨s2, w2, g2⟩ | ⟨op, rl, rr⟩
    case binary =>
      obtain ⟨hrl, hrr⟩ := canon_binary_parts hr
      cases op
      case add =>
        rw [newAddRhsStep.eq_2] at h
        split at h
        · obtain ⟨x, hx1, hx2⟩ := Res.eq_ok_of_bind h
          exact ihB .add rl x e hrl (ihB .add l rr x hl hrr hx1) hx2
        · injection h with h
          subst h
          rw [canonOps_binary, hl, hr]
          rfl
      case sub =>
        rw [newAddRhsStep.eq_3] at h
        split at h
        · obtain ⟨x, hx1, hx2⟩ := Res.eq_ok_of_bind h
          exact ihB .add rl x e hrl (ihB .sub l rr x hl hrr hx1) hx2
        · injection h with h
          subst h
          rw [canonOps_binary, hl, hr]
          rfl
      all_goals
        injection h with h
      all_goals
        subst h
      all_goals
        rw [canonOps_binary, hl, hr]
      all_goals
        rfl
    all_goals
      injection h with h
    all_goals
      subst h
    all_goals
      rw [canonOps_binary, hl, hr]
    all_goals
      rfl

  · intro l r e hl hr h
    simp only [newSubExpr] at h
    split at h
    · injection h with h
      subst h
      exact canonOps_toExpr _
    · split at h
      · -- both constant
        obtain ⟨c, hc1, hc2⟩ := Res.eq_ok_of_bind h
        injection hc2 with hc2
        subst hc2
        exact canonOps_toExpr _
      · -- some, none
        split at h
        · exact ihB .xor l r e hl hr h
        · split at h
          all_goals rename_i heq
          all_goals rw [id_eq] at heq
          · subst heq
            obtain ⟨hrl, hrr⟩ := canon_binary_parts hr
            split at h
            · obtain ⟨x, hx1, hx2⟩ := Res.eq_ok_of_bind h
              exact ihB .sub x _ e (ihB .sub l _ x hl hrl hx1) hrr hx2
            · injection h with h
              subst h
              rw [canonOps_binary, hl, hr]
              rfl
          · subst heq
            obtain ⟨hrl, hrr⟩ := canon_binary_parts hr
            split at h
            · obtain ⟨x, hx1, hx2⟩ := Res.eq_ok_of_bind h
              exact ihB .add x _ e (ihB .sub l _ x hl hrl hx1) hrr hx2
            · injection h with h
              subst h
              rw [canonOps_binary, hl, hr]
              rfl
          · injection h with h
            subst h
            rw [canonOps_binary, hl, hr]
            rfl
      · -- none, some
        split at h
        · exact ihB .xor l r e hl hr h
        · obtain ⟨z, hz1, hz2⟩ := Res.eq_ok_of_bind h
          exact ihB .add z.toExpr l e (canonOps_toExpr _) hl hz2
      · -- none, none
        split at h
        · exact ihB .xor l r e hl hr h
        · split at h
          all_goals rename_i heq
          all_goals rw [id_eq] at heq
          · subst heq
            obtain ⟨hll, hlr2⟩ := canon_binary_parts hl
            split at h
            · obtain ⟨x, hx1, hx2⟩ := Res.eq_ok_of_bind h
              exact ihB .add _ x e hll (ihB .sub _ r x hlr2 hr hx1) hx2
            · exact ihSubR _ r e hl hr h
          · subst heq
            obtain ⟨hll, hlr2⟩ := canon_binary_parts hl
            split at h
            · obtain ⟨x, hx1, hx2⟩ := Res.eq_ok_of_bind h
              exact ihB .sub _ x e hll (ihB .add _ r x hlr2 hr hx1) hx2
            · exact ihSubR _ r e hl hr h
          · exact ihSubR l r e hl hr h

  · intro l r e hl hr h
    rcases r with ⟨v, w⟩ | s | ⟨a, i⟩ | ⟨m2, l2⟩ | ⟨e2, o2, w2⟩ | e2 | ⟨s2, w2, g2⟩ | ⟨op, rl, rr⟩
    case binary =>
      obtain ⟨hrl, hrr⟩ := canon_binary_parts hr
      cases op
      case add =>
        rw [newSubRhsStep.eq_2] at h
        split at h
        · obtain ⟨x, hx1, hx2⟩ := Res.eq_ok_of_bind h
          exact ihB .sub x rl e (ihB .sub l rr x hl hrr hx1) hrl hx2
        · injection h with h
          subst h
          rw [canonOps_binary, hl, hr]
          rfl
      case sub =>
        rw [newSubRhsStep.eq_3] at h
        split at h
        · obtain ⟨x, hx1, hx2⟩ := Res.eq_ok_of_bind h
          exact ihB .sub x rl e (ihB .add l rr x hl hrr hx1) hrl hx2
        · injection h with h
          subst h
          rw [canonOps_binary, hl, hr]
          rfl
      all_goals
        injection h with h
      all_goals
        subst h
      all_goals
        rw [canonOps_binary, hl, hr]
      all_goals
        rfl
    all_goals
      injection h with h
    all_goals
      subst h
    all_goals
      rw [canonOps_binary, hl, hr]
    all_goals
      rfl

  · intro l r e hl hr h
    simp only [newMulExpr] at h
    generalize hP : (if IsConstantExpr r && !IsConstantExpr l then (r, l) else (l, r)) = p at h
    obtain ⟨lhs, rhs⟩ := p
    have hlr : canonOps lhs = true ∧ canonOps rhs = true := by
      split at hP <;> (injection hP with h1 h2; subst h1; subst h2; exact ⟨by assumption, by assumption⟩)
    obtain ⟨hl2, hr2⟩ := hlr
    split at h
    · obtain ⟨c, hc1, hc2⟩ := Res.eq_ok_of_bind h
      injection hc2 with hc2
      subst hc2
      exact canonOps_toExpr _
    · split at h
      · exact ihB .and lhs rhs e hl2 hr2 h
      · split at h
        · split at h
          · injection h with h
            subst h
            exact hr2
          · split at h
            · injection h with h
              subst h
              exact canonOps_toExpr _
            · injection h with h
              subst h
              rw [canonOps_binary, hl2, hr2]
              rfl
        · injection h with h
          subst h
          rw [canonOps_binary, hl2, hr2]
          rfl

  · intro op l r e hl hr h
    rw [newDivExpr] at h
    split at h
    · exact Res.noConfusion h
    · rename_i hop
      rw [not_not] at hop
      split at h
      · obtain ⟨c, hc1, hc2⟩ := Res.eq_ok_of_bind h
        injection hc2 with hc2
        subst hc2
        exact canonOps_toExpr _
      · split at h
        · injection h with h
          subst h
          exact hl
        · injection h with h
          subst h
          rw [canonOps_binary, hl, hr]
          obtain rfl | rfl := hop <;> rfl

  · intro op l r e hl hr h
    rw [newRemExpr] at h
    split at h
    · exact Res.noConfusion h
    · rename_i hop
      rw [not_not] at hop
      split at h
      · obtain ⟨c, hc1, hc2⟩ := Res.eq_ok_of_bind h
        injection hc2 with hc2
        subst hc2
        exact canonOps_toExpr _
      · split at h
        · injection h with h
          subst h
          exact canonOps_toExpr _
        · injection h with h
          subst h
          rw [canonOps_binary, hl, hr]
          obtain rfl | rfl := hop <;> rfl

  · intro l r e hl hr h
    simp only [newAndExpr] at h
    split at h
    · obtain ⟨c, hc1, hc2⟩ := Res.eq_ok_of_bind h
      injection hc2 with hc2
      subst hc2
      exact canonOps_toExpr _
    · generalize hP : (if IsConstantExpr l && !IsConstantExpr r then (r, l) else (l, r)) = p at h
      obtain ⟨lhs, rhs⟩ := p
      have hlr : canonOps lhs = true ∧ canonOps rhs = true := by
        split at hP <;> (injection hP with h1 h2; subst h1; subst h2; exact ⟨by assumption, by assumption⟩)
      obtain ⟨hl2, hr2⟩ := hlr
      split at h
      · split at h
        · injection h with h
          subst h
          exact hl2
        · split at h
          · injection h with h
            subst h
            exact canonOps_toExpr _
          · injection h with h
            subst h
            rw [canonOps_binary, hl2, hr2]
            rfl
      · injection h with h
        subst h
        rw [canonOps_binary, hl2, hr2]
        rfl

  · intro l r e hl hr h
    simp only [newOrExpr] at h
    split at h
    · obtain ⟨c, hc1, hc2⟩ := Res.eq_ok_of_bind h
      injection hc2 with hc2
      subst hc2
      exact canonOps_toExpr _
    · generalize hP : (if IsConstantExpr l && !IsConstantExpr r then (r, l) else (l, r)) = p at h
      obtain ⟨lhs, rhs⟩ := p
      have hlr : canonOps lhs = true ∧ canonOps rhs = true := by
        split at hP <;> (injection hP with h1 h2; subst h1; subst h2; exact ⟨by assumption, by assumption⟩)
      obtain ⟨hl2, hr2⟩ := hlr
      split at h
      · split at h
        · injection h with h
          subst h
          exact canonOps_toExpr _
        · split at h
          · injection h with h
            subst h
            exact hl2
          · injection h with h
            subst h
            rw [canonOps_binary, hl2, hr2]
            rfl
      · injection h with h
        subst h
        rw [canonOps_binary, hl2, hr2]
        rfl

  · intro l r e hl hr h
    simp only [newXorExpr] at h
    generalize hP : (if !IsConstantExpr l && IsConstantExpr r then (r, l) else (l, r)) = p at h
    obtain ⟨lhs, rhs⟩ := p
    have hlr : canonOps lhs = true ∧ canonOps rhs = true := by
      split at hP <;> (injection hP with h1 h2; subst h1; subst h2; exact ⟨by assumption, by assumption⟩)
    obtain ⟨hl2, hr2⟩ := hlr
    split at h
    · split at h
      · injection h with h
        subst h
        exact hr2
      · split at h
        · obtain ⟨c, hc1, hc2⟩ := Res.eq_ok_of_bind h
          injection hc2 with hc2
          subst hc2
          exact canonOps_toExpr _
        · injection h with h
          subst h
          rw [canonOps_binary, hl2, hr2]
          rfl
    · injection h with h
      subst h
      rw [canonOps_binary, hl2, hr2]
      rfl

  · intro l r e hl hr h
    rw [newShlExpr] at h
    split at h
    · obtain ⟨c, hc1, hc2⟩ := Res.eq_ok_of_bind h
      injection hc2 with hc2
      subst hc2
      exact canonOps_toExpr _
    · split at h
      · obtain ⟨z, hz1, hz2⟩ := Res.eq_ok_of_bind h
        exact ihB .and l z e hl (ihZ r z hr hz1) hz2
      · injection h with h
        subst h
        rw [canonOps_binary, hl, hr]
        rfl

  · intro l r e hl hr h
    rw [newLShrExpr] at h
    split at h
    · obtain ⟨c, hc1, hc2⟩ := Res.eq_ok_of_bind h
      injection hc2 with hc2
      subst hc2
      exact canonOps_toExpr _
    · split at h
      · obtain ⟨z, hz1, hz2⟩ := Res.eq_ok_of_bind h
        exact ihB .and l z e hl (ihZ r z hr hz1) hz2
      · injection h with h
        subst h
        rw [canonOps_binary, hl, hr]
        rfl

  · intro l r e hl hr h
    rw [newAShrExpr] at h
    split at h
    · obtain ⟨c, hc1, hc2⟩ := Res.eq_ok_of_bind h
      injection hc2 with hc2
      subst hc2
      exact canonOps_toExpr _
    · split at h
      · injection h with h
        subst h
        exact hl
      · injection h with h
        subst h
        rw [canonOps_binary, hl, hr]
        rfl

  · intro l r e hl hr h
    simp only [newEqExpr] at h
    generalize hP1 : (if !IsConstantExpr l && IsConstantExpr r then (r, l) else (l, r)).1 = lhs at h
    generalize hP2 : (if !IsConstantExpr l && IsConstantExpr r then (r, l) else (l, r)).2 = rhs at h
    have hl2 : canonOps lhs = true := by
      rw [← hP1]
      split <;> assumption
    have hr2 : canonOps rhs = true := by
      rw [← hP2]
      split <;> assumption
    clear hP1 hP2 hl hr
    split at h
    · -- lhs constant
      split at h
      · -- rhs constant
        obtain ⟨c, hc1, hc2⟩ := Res.eq_ok_of_bind h
        injection hc2 with hc2
        subst hc2
        exact canonOps_toExpr _
      · -- rhs not constant: case on rhs shape
        split at h
        · -- rhs = .binary .eq rl rr
          split at h
          · split at h
            · injection h with h
              subst h
              exact hr2
            · split at h
              · injection h with h
                subst h
                exact (canon_binary_parts hr2).2
              · exact canon_eqBottom hl2 hr2 h
          · exact canon_eqBottom hl2 hr2 h
        · -- rhs = .binary .or rl rr
          split at h
          · split at h
            · injection h with h
              subst h
              exact hr2
            · split at h
              · obtain ⟨hrl, hrr⟩ := canon_binary_parts hr2
                obtain ⟨zl, hzl1, h⟩ := Res.eq_ok_of_bind h
                obtain ⟨zr, hzr1, h⟩ := Res.eq_ok_of_bind h
                exact ihB .and zl zr e (ihZ _ zl hrl hzl1) (ihZ _ zr hrr hzr1) h
              · exact canon_eqBottom hl2 hr2 h
          · exact canon_eqBottom hl2 hr2 h
        · -- rhs = .binary .add rl rr
          split at h
          · obtain ⟨hrl, hrr⟩ := canon_binary_parts hr2
            obtain ⟨x, hx1, hx2⟩ := Res.eq_ok_of_bind h
            exact ihB .eq x _ e (ihB .sub lhs _ x hl2 hrl hx1) hrr hx2
          · exact canon_eqBottom hl2 hr2 h
        · -- rhs = .binary .sub rl rr
          split at h
          · obtain ⟨hrl, hrr⟩ := canon_binary_parts hr2
            obtain ⟨x, hx1, hx2⟩ := Res.eq_ok_of_bind h
            exact ihB .eq x _ e (ihB .sub _ lhs x hrl hl2 hx1) hrr hx2
          · exact canon_eqBottom hl2 hr2 h
        · -- rhs = .cast src w signed
          rw [canonOps_cast_eq] at hr2
          split at h
          · obtain ⟨s, hs1, h⟩ := Res.eq_ok_of_bind h
            split at h
            · exact ihB .eq _ _ e hr2 (canonOps_toExpr _) h
            · injection h with h
              subst h
              exact canonOps_toExpr _
          · split at h
            · exact ihB .eq _ _ e hr2 (canonOps_toExpr _) h
            · injection h with h
              subst h
              exact canonOps_toExpr _
        · exact canon_eqBottom hl2 hr2 h
    · exact canon_eqBottom hl2 hr2 h

  · intro l r e hl hr h
    rw [newUltExpr] at h
    split at h
    · obtain ⟨c, hc1, hc2⟩ := Res.eq_ok_of_bind h
      injection hc2 with hc2
      subst hc2
      exact canonOps_toExpr _
    · split at h
      · obtain ⟨z, hz1, hz2⟩ := Res.eq_ok_of_bind h
        exact ihB .and z r e (ihZ l z hl hz1) hr hz2
      · injection h with h
        subst h
        rw [canonOps_binary, hl, hr]
        rfl

  · intro l r e hl hr h
    rw [newUleExpr] at h
    split at h
    · obtain ⟨c, hc1, hc2⟩ := Res.eq_ok_of_bind h
      injection hc2 with hc2
      subst hc2
      exact canonOps_toExpr _
    · split at h
      · obtain ⟨z, hz1, hz2⟩ := Res.eq_ok_of_bind h
        exact ihB .or z r e (ihZ l z hl hz1) hr hz2
      · injection h with h
        subst h
        rw [canonOps_binary, hl, hr]
        rfl

  · intro l r e hl hr h
    rw [newSltExpr] at h
    split at h
    · obtain ⟨c, hc1, hc2⟩ := Res.eq_ok_of_bind h
      injection hc2 with hc2
      subst hc2
      exact canonOps_toExpr _
    · split at h
      · obtain ⟨z, hz1, hz2⟩ := Res.eq_ok_of_bind h
        exact ihB .and l z e hl (ihZ r z hr hz1) hz2
      · injection h with h
        subst h
        rw [canonOps_binary, hl, hr]
        rfl

  · intro l r e hl hr h
    rw [newSleExpr] at h
    split at h
    · obtain ⟨c, hc1, hc2⟩ := Res.eq_ok_of_bind h
      injection hc2 with hc2
      subst hc2
      exact canonOps_toExpr _
    · split at h
      · obtain ⟨z, hz1, hz2⟩ := Res.eq_ok_of_bind h
        exact ihB .or l z e hl (ihZ r z hr hz1) hz2
      · injection h with h
        subst h
        rw [canonOps_binary, hl, hr]
        rfl

  · intro x e hx h
    rw [NewIsZeroExpr] at h
    exact ihB .eq x _ e hx (canonOps_toExpr _) h

theorem opCanon_compare : ∀ op : BinaryOp, opCanon op = true → op.IsCompare = true →
    op = .ult ∨ op = .ule ∨ op = .slt ∨ op = .sle ∨ op = .eq := by
  intro op h1 h2
  revert h1 h2
  cases op <;> decide

/-- C7: the compare constructors canonicalize: `UGT(a,b)` builds the very
same result as `ULT(b,a)` (both dispatch to `newUltExpr(b,a)`), `UGE` as
`ULE` swapped, `SGT` as `SLT` swapped, `SGE` as `SLE` swapped, and
`NE(a,b)` builds `EQ(0, EQ(a,b))` through two recursive `NewBinaryExpr EQ`
calls; consequently for operands free of `NE`/`UGT`/`UGE`/`SGT`/`SGE`
nodes every expression `NewBinaryExpr` returns is free of them, so each
compare-operator binary node it produces carries `ULT`, `ULE`, `SLT`,
`SLE` or `EQ`. -/
theorem C7_compare_canonical (fuel : Nat) :
    (∀ a b : Expr, ExprWidth a = ExprWidth b →
        NewBinaryExpr (fuel+1) .ugt a b = NewBinaryExpr (fuel+1) .ult b a
        ∧ NewBinaryExpr (fuel+1) .uge a b = NewBinaryExpr (fuel+1) .ule b a
        ∧ NewBinaryExpr (fuel+1) .sgt a b = NewBinaryExpr (fuel+1) .slt b a
        ∧ NewBinaryExpr (fuel+1) .sge a b = NewBinaryExpr (fuel+1) .sle b a
        ∧ NewBinaryExpr (fuel+1) .ne a b =
            Res.bind (NewBinaryExpr fuel .eq a b) (fun inner =>
              NewBinaryExpr fuel .eq (NewConstantExpr 0 WidthBool).toExpr inner))
    ∧ (∀ (op : BinaryOp) (l r e : Expr), canonOps l = true → canonOps r = true →
        NewBinaryExpr fuel op l r = .ok e →
        canonOps e = true
        ∧ (∀ (op2 : BinaryOp) (l2 r2 : Expr), e = .binary op2 l2 r2 →
            op2.IsCompare = true →
            op2 = .ult ∨ op2 = .ule ∨ op2 = .slt ∨ op2 = .sle ∨ op2 = .eq)) := by
  refine ⟨fun a b hw => ⟨rfl, rfl, rfl, rfl, rfl⟩, fun op l r e hl hr h => ?_⟩
  have hc := (canon_preserve fuel).1 op l r e hl hr h
  refine ⟨hc, fun op2 l2 r2 he hcmp => ?_⟩
  subst he
  rw [canonOps_binary] at hc
  simp only [Bool.and_eq_true] at hc
  exact opCanon_compare op2 hc.1.1 hcmp

/-- C7 witness: the swap equalities at two width-8 constants, and the
canonical-operator conclusion for `UGT` over a symbolic byte read. -/
theorem C7_compare_canonical_witness :
    (NewBinaryExpr 6 .ugt (.constant 5 8) (.constant 3 8)
      = NewBinaryExpr 6 .ult (.constant 3 8) (.constant 5 8))
    ∧ canonOps (.binary .ult (.constant 7 8)
        (.select (.mk 1 4 .nil) (.constant 0 64))) = true :=
  ⟨(((C7_compare_canonical 5).1 (.constant 5 8) (.constant 3 8) rfl).1),
   ((C7_compare_canonical 5).2 .ugt (.select (.mk 1 4 .nil) (.constant 0 64))
      (.constant 7 8)
      (.binary .ult (.constant 7 8) (.select (.mk 1 4 .nil) (.constant 0 64)))
      (by decide) (by decide) (by decide)).1⟩

theorem specSInt_eq_toSigned : specSInt = toSigned := rfl

theorem bitmask_succ {w : Nat} (hw : w ≤ 64) : bitmask w + 1 = 2 ^ w := by
  rw [bitmask, Nat.min_eq_left hw]
  exact Nat.sub_add_cancel Nat.one_le_two_pow

theorem NewConstantExpr_eq {w : Nat} (hw : w ≤ 64) (v : Nat) :
    NewConstantExpr v w = ⟨v % 2 ^ w, w⟩ := by
  rw [NewConstantExpr, bitmask_succ hw]

theorem C3add (fuel w a b : Nat) (hw : AcceptedWidth w) (ha : a < 2 ^ w) (hb : b < 2 ^ w) :
    NewBinaryExpr (fuel+4) .add (.constant a w) (.constant b w)
      = .ok (.constant ((a + b) % 2 ^ w) w) := by
  have h64 : w ≤ 64 := by rcases hw with rfl | rfl | rfl | rfl | rfl <;> norm_num
  show newAddExpr (fuel+3) _ _ = _
  rcases hw with rfl | hw4
  · -- width 1: refactored to XOR
    simp only [newAddExpr, IsConstantExpr, Expr.asConst, Option.isSome_some, Bool.not_true,
      Bool.false_and, if_false, ExprWidth, WidthBool, Bool.false_eq_true, if_true]
    norm_num
    interval_cases a <;> interval_cases b <;>
      simp [NewBinaryExpr, newXorExpr, IsConstantExpr, Expr.asConst, ConstantExpr.Xor,
        NewConstantExpr, bitmask, ConstantExpr.toExpr]
  · have hw1 : w ≠ 1 := by rcases hw4 with rfl | rfl | rfl | rfl <;> norm_num
    simp only [newAddExpr, IsConstantExpr, Expr.asConst, Option.isSome_some, Bool.not_true,
      Bool.false_and, if_false, ExprWidth, WidthBool, Bool.false_eq_true, if_neg hw1]
    by_cases ha0 : a = 0
    · subst ha0
      simp [ConstantExpr.toExpr, Nat.mod_eq_of_lt hb]
    · simp [if_neg ha0, ConstantExpr.Add, NewConstantExpr_eq h64, ConstantExpr.toExpr]

theorem C3mul (fuel w a b : Nat) (hw : AcceptedWidth w) (ha : a < 2 ^ w) (hb : b < 2 ^ w) :
    NewBinaryExpr (fuel+4) .mul (.constant a w) (.constant b w)
      = .ok (.constant (a * b % 2 ^ w) w) := by
  have h64 : w ≤ 64 := by rcases hw with rfl | rfl | rfl | rfl | rfl <;> norm_num
  show newMulExpr (fuel+3) (.constant a w) (.constant b w) = .ok (.constant (a * b % 2 ^ w) w)
  simp [newMulExpr, IsConstantExpr, Expr.asConst, ConstantExpr.Mul, bitmask_succ h64,
    NewConstantExpr_eq h64, ConstantExpr.toExpr]

theorem C3sub (fuel w a b : Nat) (hw : AcceptedWidth w) (ha : a < 2 ^ w) (hb : b < 2 ^ w) :
    NewBinaryExpr (fuel+4) .sub (.constant a w) (.constant b w)
      = .ok (.constant (specEnc w ((a : Int) - b)) w) := by
  have h64 : w ≤ 64 := by rcases hw with rfl | rfl | rfl | rfl | rfl <;> norm_num
  show newSubExpr (fuel+3) (.constant a w) (.constant b w)
    = .ok (.constant (specEnc w ((a : Int) - b)) w)
  by_cases hab : a = b
  · subst hab
    simp [newSubExpr, CompareExpr, exprKind, NewConstantExpr_eq h64, ConstantExpr.toExpr,
      specEnc, ExprWidth, Int.zero_emod]
  · have hc : CompareExpr (.constant a w) (.constant b w) ≠ 0 := by
      simp only [CompareExpr, exprKind, lt_self_iff_false, if_false, gt_iff_lt]
      split_ifs <;> omega
    simp only [newSubExpr, if_neg hc, Expr.asConst, ConstantExpr.Sub, ite_not,
      NewConstantExpr_eq h64, wsub, ne_eq, not_true_eq_false, if_false, ite_self,
      if_true, Res.bind_ok, ConstantExpr.toExpr, Res.ok.injEq, Expr.constant.injEq]
    rw [and_true, specEnc]
    rcases hw with rfl | rfl | rfl | rfl | rfl <;> omega

theorem C3and (fuel w a b : Nat) (hw : AcceptedWidth w) (ha : a < 2 ^ w) (hb : b < 2 ^ w) :
    NewBinaryExpr (fuel+4) .and (.constant a w) (.constant b w)
      = .ok (.constant (a &&& b) w) := by
  have h64 : w ≤ 64 := by rcases hw with rfl | rfl | rfl | rfl | rfl <;> norm_num
  have hlt : a &&& b < 2 ^ w := lt_of_le_of_lt Nat.and_le_left ha
  show newAndExpr (fuel+3) (.constant a w) (.constant b w) = .ok (.constant (a &&& b) w)
  simp [newAndExpr, Expr.asConst, ConstantExpr.And, NewConstantExpr_eq h64,
    ConstantExpr.toExpr, Nat.mod_eq_of_lt hlt]

theorem C3or (fuel w a b : Nat) (hw : AcceptedWidth w) (ha : a < 2 ^ w) (hb : b < 2 ^ w) :
    NewBinaryExpr (fuel+4) .or (.constant a w) (.constant b w)
      = .ok (.constant (a ||| b) w) := by
  have h64 : w ≤ 64 := by rcases hw with rfl | rfl | rfl | rfl | rfl <;> norm_num
  have hlt : a ||| b < 2 ^ w := Nat.or_lt_two_pow ha hb
  show newOrExpr (fuel+3) (.constant a w) (.constant b w) = .ok (.constant (a ||| b) w)
  simp [newOrExpr, Expr.asConst, ConstantExpr.Or, NewConstantExpr_eq h64,
    ConstantExpr.toExpr, Nat.mod_eq_of_lt hlt]

theorem C3xor (fuel w a b : Nat) (hw : AcceptedWidth w) (ha : a < 2 ^ w) (hb : b < 2 ^ w) :
    NewBinaryExpr (fuel+4) .xor (.constant a w) (.constant b w)
      = .ok (.constant (a ^^^ b) w) := by
  have h64 : w ≤ 64 := by rcases hw with rfl | rfl | rfl | rfl | rfl <;> norm_num
  have hlt : a ^^^ b < 2 ^ w := Nat.xor_lt_two_pow ha hb
  show newXorExpr (fuel+3) (.constant a w) (.constant b w) = .ok (.constant (a ^^^ b) w)
  by_cases ha0 : a = 0
  · subst ha0
    simp [newXorExpr, IsConstantExpr, Expr.asConst, ConstantExpr.toExpr,
      Nat.mod_eq_of_lt hb]
  · simp [newXorExpr, IsConstantExpr, Expr.asConst, ConstantExpr.Xor, ha0,
      NewConstantExpr_eq h64, ConstantExpr.toExpr, Nat.mod_eq_of_lt hlt]

theorem eqFoldNBE (fuel w a b : Nat) (ha : a < 2 ^ w) (hb : b < 2 ^ w) :
    NewBinaryExpr (fuel+2) .eq (.constant a w) (.constant b w)
      = .ok (.constant (if a = b then 1 else 0) 1) := by
  show newEqExpr (fuel+1) (.constant a w) (.constant b w)
    = .ok (.constant (if a = b then 1 else 0) 1)
  by_cases hab : a = b <;>
    simp [newEqExpr, IsConstantExpr, Expr.asConst, ConstantExpr.Eq, NewBoolConstantExpr,
      ConstantExpr.toExpr, WidthBool, hab]

theorem C3eq (fuel w a b : Nat) (hw : AcceptedWidth w) (ha : a < 2 ^ w) (hb : b < 2 ^ w) :
    NewBinaryExpr (fuel+4) .eq (.constant a w) (.constant b w)
      = .ok (.constant (if a = b then 1 else 0) 1) :=
  eqFoldNBE (fuel+2) w a b ha hb

theorem C3ne (fuel w a b : Nat) (hw : AcceptedWidth w) (ha : a < 2 ^ w) (hb : b < 2 ^ w) :
    NewBinaryExpr (fuel+4) .ne (.constant a w) (.constant b w)
      = .ok (.constant (if a = b then 0 else 1) 1) := by
  show Res.bind (NewBinaryExpr (fuel+3) .eq (.constant a w) (.constant b w))
      (fun inner => NewBinaryExpr (fuel+3) .eq (NewConstantExpr 0 WidthBool).toExpr inner)
    = .ok (.constant (if a = b then 0 else 1) 1)
  have h1 : NewBinaryExpr (fuel+3) .eq (.constant a w) (.constant b w)
      = .ok (.constant (if a = b then 1 else 0) 1) := eqFoldNBE (fuel+1) w a b ha hb
  rw [h1, Res.bind_ok]
  have h0 : (NewConstantExpr 0 WidthBool).toExpr = .constant 0 1 := rfl
  rw [h0]
  have h2 : NewBinaryExpr (fuel+3) .eq (.constant 0 1) (.constant (if a = b then 1 else 0) 1)
      = .ok (.constant (if 0 = (if a = b then 1 else 0) then 1 else 0) 1) :=
    eqFoldNBE (fuel+1) 1 0 (if a = b then 1 else 0) (by norm_num)
      (by split <;> norm_num)
  rw [h2]
  by_cases hab : a = b <;> simp [hab]

theorem ultFold (fuel w a b : Nat) (hw : StdWidth w) (ha : a < 2 ^ w) (hb : b < 2 ^ w) :
    newUltExpr (fuel+1) (.constant a w) (.constant b w)
      = .ok (.constant (if a < b then 1 else 0) 1) := by
  have ha2 := Nat.mod_eq_of_lt ha
  have hb2 := Nat.mod_eq_of_lt hb
  rcases hw with rfl | rfl | rfl | rfl <;>
    simp [newUltExpr, Expr.asConst, ConstantExpr.Ult, NewBoolConstantExpr,
      ConstantExpr.toExpr, WidthBool] <;>
    (try split_ifs) <;> (try simp_all) <;> omega

theorem uleFold (fuel w a b : Nat) (hw : StdWidth w) (ha : a < 2 ^ w) (hb : b < 2 ^ w) :
    newUleExpr (fuel+1) (.constant a w) (.constant b w)
      = .ok (.constant (if a ≤ b then 1 else 0) 1) := by
  have ha2 := Nat.mod_eq_of_lt ha
  have hb2 := Nat.mod_eq_of_lt hb
  rcases hw with rfl | rfl | rfl | rfl <;>
    simp [newUleExpr, Expr.asConst, ConstantExpr.Ule, NewBoolConstantExpr,
      ConstantExpr.toExpr, WidthBool] <;>
    (try split_ifs) <;> (try simp_all) <;> omega

theorem sltFold (fuel w a b : Nat) (hw : StdWidth w) (ha : a < 2 ^ w) (hb : b < 2 ^ w) :
    newSltExpr (fuel+1) (.constant a w) (.constant b w)
      = .ok (.constant (if specSInt w a < specSInt w b then 1 else 0) 1) := by
  rw [specSInt_eq_toSigned]
  rcases hw with rfl | rfl | rfl | rfl <;>
    simp [newSltExpr, Expr.asConst, ConstantExpr.Slt, NewBoolConstantExpr,
      ConstantExpr.toExpr, WidthBool] <;>
    (try split_ifs) <;> simp_all

theorem sleFold (fuel w a b : Nat) (hw : StdWidth w) (ha : a < 2 ^ w) (hb : b < 2 ^ w) :
    newSleExpr (fuel+1) (.constant a w) (.constant b w)
      = .ok (.constant (if specSInt w a ≤ specSInt w b then 1 else 0) 1) := by
  rw [specSInt_eq_toSigned]
  rcases hw with rfl | rfl | rfl | rfl <;>
    simp [newSleExpr, Expr.asConst, ConstantExpr.Sle, NewBoolConstantExpr,
      ConstantExpr.toExpr, WidthBool] <;>
    (try split_ifs) <;> simp_all

theorem C3ult (fuel w a b : Nat) (hw : StdWidth w) (ha : a < 2 ^ w) (hb : b < 2 ^ w) :
    NewBinaryExpr (fuel+4) .ult (.constant a w) (.constant b w)
      = .ok (.constant (if a < b then 1 else 0) 1) :=
  ultFold (fuel+2) w a b hw ha hb

theorem C3ugt (fuel w a b : Nat) (hw : StdWidth w) (ha : a < 2 ^ w) (hb : b < 2 ^ w) :
    NewBinaryExpr (fuel+4) .ugt (.constant a w) (.constant b w)
      = .ok (.constant (if b < a then 1 else 0) 1) :=
  ultFold (fuel+2) w b a hw hb ha

theorem C3ule (fuel w a b : Nat) (hw : StdWidth w) (ha : a < 2 ^ w) (hb : b < 2 ^ w) :
    NewBinaryExpr (fuel+4) .ule (.constant a w) (.constant b w)
      = .ok (.constant (if a ≤ b then 1 else 0) 1) :=
  uleFold (fuel+2) w a b hw ha hb

theorem C3uge (fuel w a b : Nat) (hw : StdWidth w) (ha : a < 2 ^ w) (hb : b < 2 ^ w) :
    NewBinaryExpr (fuel+4) .uge (.constant a w) (.constant b w)
      = .ok (.constant (if b ≤ a then 1 else 0) 1) :=
  uleFold (fuel+2) w b a hw hb ha

theorem C3slt (fuel w a b : Nat) (hw : StdWidth w) (ha : a < 2 ^ w) (hb : b < 2 ^ w) :
    NewBinaryExpr (fuel+4) .slt (.constant a w) (.constant b w)
      = .ok (.constant (if specSInt w a < specSInt w b then 1 else 0) 1) :=
  sltFold (fuel+2) w a b hw ha hb

theorem C3sgt (fuel w a b : Nat) (hw : StdWidth w) (ha : a < 2 ^ w) (hb : b < 2 ^ w) :
    NewBinaryExpr (fuel+4) .sgt (.constant a w) (.constant b w)
      = .ok (.constant (if specSInt w b < specSInt w a then 1 else 0) 1) :=
  sltFold (fuel+2) w b a hw hb ha

theorem C3sle (fuel w a b : Nat) (hw : StdWidth w) (ha : a < 2 ^ w) (hb : b < 2 ^ w) :
    NewBinaryExpr (fuel+4) .sle (.constant a w) (.constant b w)
      = .ok (.constant (if specSInt w a ≤ specSInt w b then 1 else 0) 1) :=
  sleFold (fuel+2) w a b hw ha hb

theorem C3sge (fuel w a b : Nat) (hw : StdWidth w) (ha : a < 2 ^ w) (hb : b < 2 ^ w) :
    NewBinaryExpr (fuel+4) .sge (.constant a w) (.constant b w)
      = .ok (.constant (if specSInt w b ≤ specSInt w a then 1 else 0) 1) :=
  sleFold (fuel+2) w b a hw hb ha

theorem goUint64_mod {w : Nat} (hw : w ≤ 64) (x : Int) :
    goUint64 x % 2 ^ w = specEnc w x := by
  rw [goUint64, specEnc]
  have hd : ((2:Int) ^ w) ∣ 2 ^ 64 := pow_dvd_pow 2 hw
  have h1 : x.emod (2 ^ 64) = x % 2 ^ 64 := rfl
  rw [h1, ← Int.emod_emod_of_dvd x hd]
  obtain ⟨n, hn⟩ : ∃ n : Nat, x % 2 ^ 64 = (n : Int) :=
    ⟨(x % 2 ^ 64).toNat, (Int.toNat_of_nonneg (Int.emod_nonneg x (by positivity))).symm⟩
  rw [hn, show ((2:Int) ^ w) = ((2 ^ w : Nat) : Int) by push_cast [Int.natCast_pow]; ring]
  rw [← Int.natCast_mod, Int.toNat_natCast, Int.toNat_natCast]

theorem C3udiv (fuel w a b : Nat) (hw : StdWidth w) (ha : a < 2 ^ w) (hb : b < 2 ^ w)
    (hb0 : b ≠ 0) :
    NewBinaryExpr (fuel+4) .udiv (.constant a w) (.constant b w)
      = .ok (.constant (a / b) w) := by
  have hd : a / b < 2 ^ w := lt_of_le_of_lt (Nat.div_le_self a b) ha
  have ha2 := Nat.mod_eq_of_lt ha
  have hb2 := Nat.mod_eq_of_lt hb
  show newDivExpr (fuel+3) .udiv (.constant a w) (.constant b w) = .ok (.constant (a / b) w)
  rcases hw with rfl | rfl | rfl | rfl <;>
    simp_all [newDivExpr, Expr.asConst, ConstantExpr.UDiv, NewConstantExpr_eq,
      ConstantExpr.toExpr] <;>
    rw [if_neg (by omega), Nat.mod_eq_of_lt ha, Nat.mod_eq_of_lt hb,
      Nat.mod_eq_of_lt hd] <;> rfl

theorem C3urem (fuel w a b : Nat) (hw : StdWidth w) (ha : a < 2 ^ w) (hb : b < 2 ^ w)
    (hb0 : b ≠ 0) :
    NewBinaryExpr (fuel+4) .urem (.constant a w) (.constant b w)
      = .ok (.constant (a % b) w) := by
  have hd : a % b < 2 ^ w := lt_of_le_of_lt (Nat.mod_le a b) ha
  have ha2 := Nat.mod_eq_of_lt ha
  have hb2 := Nat.mod_eq_of_lt hb
  show newRemExpr (fuel+3) .urem (.constant a w) (.constant b w) = .ok (.constant (a % b) w)
  rcases hw with rfl | rfl | rfl | rfl <;>
    simp_all [newRemExpr, Expr.asConst, ConstantExpr.URem, NewConstantExpr_eq,
      ConstantExpr.toExpr] <;>
    rw [if_neg (by omega), Nat.mod_eq_of_lt ha, Nat.mod_eq_of_lt hb,
      Nat.mod_eq_of_lt hd] <;> rfl

theorem C3sdiv (fuel w a b : Nat) (hw : StdWidth w) (ha : a < 2 ^ w) (hb : b < 2 ^ w)
    (hb0 : b ≠ 0) :
    NewBinaryExpr (fuel+4) .sdiv (.constant a w) (.constant b w)
      = .ok (.constant (specEnc w (Int.tdiv (specSInt w a) (specSInt w b))) w) := by
  rw [specSInt_eq_toSigned]
  have ha2 := Nat.mod_eq_of_lt ha
  have hb2 := Nat.mod_eq_of_lt hb
  have h64 : w ≤ 64 := by rcases hw with rfl | rfl | rfl | rfl <;> norm_num
  have hg := goUint64_mod h64 (Int.tdiv (toSigned w a) (toSigned w b))
  show newDivExpr (fuel+3) .sdiv (.constant a w) (.constant b w) = _
  rcases hw with rfl | rfl | rfl | rfl <;>
    simp_all [newDivExpr, Expr.asConst, ConstantExpr.SDiv, NewConstantExpr_eq,
      ConstantExpr.toExpr] <;>
    rw [if_neg (by omega)] <;> rfl

theorem C3srem (fuel w a b : Nat) (hw : StdWidth w) (ha : a < 2 ^ w) (hb : b < 2 ^ w)
    (hb0 : b ≠ 0) :
    NewBinaryExpr (fuel+4) .srem (.constant a w) (.constant b w)
      = .ok (.constant (specEnc w (Int.tmod (specSInt w a) (specSInt w b))) w) := by
  rw [specSInt_eq_toSigned]
  have ha2 := Nat.mod_eq_of_lt ha
  have hb2 := Nat.mod_eq_of_lt hb
  have h64 : w ≤ 64 := by rcases hw with rfl | rfl | rfl | rfl <;> norm_num
  have hg := goUint64_mod h64 (Int.tmod (toSigned w a) (toSigned w b))
  show newRemExpr (fuel+3) .srem (.constant a w) (.constant b w) = _
  rcases hw with rfl | rfl | rfl | rfl <;>
    simp_all [newRemExpr, Expr.asConst, ConstantExpr.SRem, NewConstantExpr_eq,
      ConstantExpr.toExpr] <;>
    rw [if_neg (by omega)] <;> rfl

theorem C3shl (fuel w a b : Nat) (hw : StdWidth w) (ha : a < 2 ^ w) (hb : b < 2 ^ w) :
    NewBinaryExpr (fuel+4) .shl (.constant a w) (.constant b w)
      = .ok (.constant (a * 2 ^ b % 2 ^ w) w) := by
  have ha2 := Nat.mod_eq_of_lt ha
  show newShlExpr (fuel+3) (.constant a w) (.constant b w)
    = .ok (.constant (a * 2 ^ b % 2 ^ w) w)
  rcases hw with rfl | rfl | rfl | rfl <;>
    simp_all [newShlExpr, Expr.asConst, ConstantExpr.Shl, NewConstantExpr_eq,
      ConstantExpr.toExpr, Nat.mod_mod_of_dvd]

theorem C3lshr (fuel w a b : Nat) (hw : StdWidth w) (ha : a < 2 ^ w) (hb : b < 2 ^ w) :
    NewBinaryExpr (fuel+4) .lshr (.constant a w) (.constant b w)
      = .ok (.constant (a / 2 ^ b) w) := by
  have hd : a / 2 ^ b < 2 ^ w := lt_of_le_of_lt (Nat.div_le_self a _) ha
  have ha2 := Nat.mod_eq_of_lt ha
  show newLShrExpr (fuel+3) (.constant a w) (.constant b w) = .ok (.constant (a / 2 ^ b) w)
  rcases hw with rfl | rfl | rfl | rfl <;>
    simp_all [newLShrExpr, Expr.asConst, ConstantExpr.LShr, NewConstantExpr_eq,
      ConstantExpr.toExpr] <;>
    rw [Nat.mod_eq_of_lt ha, Nat.mod_eq_of_lt hd]

theorem C3ashr (fuel w a b : Nat) (hw : StdWidth w) (ha : a < 2 ^ w) (hb : b < 2 ^ w) :
    NewBinaryExpr (fuel+4) .ashr (.constant a w) (.constant b w)
      = .ok (.constant (specEnc w (Int.fdiv (specSInt w a) (2 ^ b))) w) := by
  rw [specSInt_eq_toSigned]
  have h64 : w ≤ 64 := by rcases hw with rfl | rfl | rfl | rfl <;> norm_num
  have hg := goUint64_mod h64 (Int.fdiv (toSigned w a) (2 ^ b))
  show newAShrExpr (fuel+3) (.constant a w) (.constant b w) = _
  rcases hw with rfl | rfl | rfl | rfl <;>
    simp_all [newAShrExpr, Expr.asConst, ConstantExpr.AShr, NewConstantExpr_eq,
      ConstantExpr.toExpr]

theorem specEnc_natCast (w n : Nat) : specEnc w ((n : Nat) : Int) = n % 2 ^ w := by
  rw [specEnc, show ((2:Int) ^ w) = ((2 ^ w : Nat) : Int) by push_cast; ring,
    ← Int.natCast_mod, Int.toNat_natCast]

theorem extract_val {off w2 a : Nat} (h64 : off + w2 ≤ 64) (ha : a < 2 ^ 64) :
    goUint64 (Int.fdiv (toSigned 64 a) (2 ^ off)) % 2 ^ w2 = a / 2 ^ off % 2 ^ w2 := by
  rw [Int.fdiv_eq_ediv _ (by positivity), goUint64_mod (by omega : w2 ≤ 64)]
  by_cases hs : a < 2 ^ 63
  · have h1 : toSigned 64 a = (a : Int) := by
      rw [toSigned]
      split <;> omega
    rw [h1, show ((2:Int) ^ off) = ((2 ^ off : Nat) : Int) by push_cast; ring,
      ← Int.natCast_div, specEnc_natCast]
  · have h1 : toSigned 64 a = (a : Int) - 2 ^ 64 := by
      rw [toSigned]
      split <;> omega
    have hsplit : (a : Int) - 2 ^ 64 = (a : Int) + (-(2 ^ (64 - off))) * 2 ^ off := by
      have : (2:Int) ^ (64 - off) * 2 ^ off = 2 ^ 64 := by
        rw [← pow_add]
        congr 1
        omega
      rw [neg_mul, this]
      ring
    rw [h1, hsplit, Int.add_mul_ediv_right _ _ (by positivity : ((2:Int) ^ off) ≠ 0)]
    have hsplit2 : (a : Int) / 2 ^ off + -(2 ^ (64 - off))
        = (a : Int) / 2 ^ off + (-(2 ^ (64 - off - w2))) * 2 ^ w2 := by
      have : (2:Int) ^ (64 - off - w2) * 2 ^ w2 = 2 ^ (64 - off) := by
        rw [← pow_add]
        congr 1
        omega
      rw [neg_mul, this]
    rw [hsplit2, specEnc, show ((2:Int) ^ w2) = ((2 ^ w2 : Nat) : Int) by push_cast; ring]
    rw [Int.add_mul_emod_self]
    rw [show ((2:Int) ^ off) = ((2 ^ off : Nat) : Int) by push_cast; ring,
      ← Int.natCast_div, ← Int.natCast_mod, Int.toNat_natCast]

theorem C3not (w a : Nat) (hw : AcceptedWidth w) (ha : a < 2 ^ w) :
    NewNotExpr (.constant a w) = .ok (.constant (2 ^ w - 1 - a) w) := by
  have h64 : w ≤ 64 := by rcases hw with rfl | rfl | rfl | rfl | rfl <;> norm_num
  simp only [NewNotExpr, Expr.asConst, ConstantExpr.Not, NewConstantExpr_eq h64,
    ConstantExpr.toExpr, Res.ok.injEq, Expr.constant.injEq]
  refine ⟨?_, trivial⟩
  rcases hw with rfl | rfl | rfl | rfl | rfl <;> omega

theorem C3extract (fuel w a off w2 : Nat) (hw : AcceptedWidth w) (ha : a < 2 ^ w)
    (h2 : 0 < w2) (hle : off + w2 ≤ w) :
    NewExtractExpr (fuel+1) (.constant a w) off w2
      = .ok (.constant (a / 2 ^ off % 2 ^ w2) w2) := by
  have h64 : w ≤ 64 := by rcases hw with rfl | rfl | rfl | rfl | rfl <;> norm_num
  have ha64 : a < 2 ^ 64 := lt_of_lt_of_le ha (Nat.pow_le_pow_right (by norm_num) h64)
  by_cases hfull : w2 = w
  · subst hfull
    have hoff : off = 0 := by omega
    subst hoff
    simp [NewExtractExpr, ExprWidth, Nat.pos_iff_ne_zero.mp h2, Nat.mod_eq_of_lt ha]
  · rw [NewExtractExpr]
    simp only [ExprWidth, if_neg (by omega : ¬ w2 = 0),
      if_neg (by omega : ¬ ¬ off + w2 ≤ w), if_neg hfull]
    simp only [ConstantExpr.Extract, bitmask_succ h64, NewConstantExpr_eq (by omega : w2 ≤ 64),
      ConstantExpr.toExpr, Res.ok.injEq, Expr.constant.injEq]
    refine ⟨?_, trivial⟩
    rw [Nat.mod_mod_of_dvd _ (pow_dvd_pow 2 (by omega : w2 ≤ w)),
      extract_val (by omega) ha64]

theorem mul_pow_lor_eq_add {a b k : Nat} (hb : b < 2 ^ k) :
    a * 2 ^ k ||| b = a * 2 ^ k + b := by
  apply Nat.eq_of_testBit_eq
  intro j
  rw [Nat.testBit_lor, show a * 2 ^ k + b = 2 ^ k * a + b by ring,
    Nat.testBit_mul_pow_two_add a hb j]
  by_cases hj : j < k
  · rw [if_pos hj]
    have h0 : (a * 2 ^ k).testBit j = false := by
      rw [show a * 2 ^ k = 2 ^ k * a + 0 by ring,
        Nat.testBit_mul_pow_two_add a (by positivity) j, if_pos hj]
      exact Nat.zero_testBit j
    rw [h0, Bool.false_or]
  · rw [if_neg hj]
    have hbf : b.testBit j = false :=
      Nat.testBit_lt_two_pow (lt_of_lt_of_le hb (Nat.pow_le_pow_right (by norm_num) (by omega)))
    rw [hbf, Bool.or_false, show a * 2 ^ k = 2 ^ k * a + 0 by ring,
      Nat.testBit_mul_pow_two_add a (by positivity) j, if_neg hj]

theorem C3concat (fuel wa wb a b : Nat) (hwa : AcceptedWidth wa) (hwb : AcceptedWidth wb)
    (hsum : wa + wb ≤ 64) (ha : a < 2 ^ wa) (hb : b < 2 ^ wb) :
    NewConcatExpr (fuel+1) (.constant a wa) (.constant b wb)
      = .ok (.constant (a * 2 ^ wb + b) (wa + wb)) := by
  have hab : a * 2 ^ wb + b < 2 ^ (wa + wb) := by
    rw [pow_add]
    calc a * 2 ^ wb + b < a * 2 ^ wb + 2 ^ wb := by omega
    _ = (a + 1) * 2 ^ wb := by ring
    _ ≤ 2 ^ wa * 2 ^ wb := Nat.mul_le_mul_right _ ha
  have hlt64 : a * 2 ^ wb < 2 ^ 64 := by
    calc a * 2 ^ wb ≤ a * 2 ^ wb + b := by omega
    _ < 2 ^ (wa + wb) := hab
    _ ≤ 2 ^ 64 := Nat.pow_le_pow_right (by norm_num) hsum
  rw [NewConcatExpr]
  simp only [ConstantExpr.Concat, NewConstantExpr_eq hsum, ConstantExpr.toExpr,
    Res.ok.injEq, Expr.constant.injEq]
  rw [Nat.mod_eq_of_lt hlt64, mul_pow_lor_eq_add hb, Nat.mod_eq_of_lt hab]
  exact ⟨rfl, trivial⟩

theorem C3zext (fuel w w2 a : Nat) (hw : AcceptedWidth w) (hw2 : AcceptedWidth w2)
    (ha : a < 2 ^ w) :
    NewCastExpr (fuel+2) (.constant a w) w2 false = .ok (.constant (a % 2 ^ w2) w2) := by
  rw [NewCastExpr, if_neg (by simp)]
  rcases Nat.lt_trichotomy w2 w with hlt | rfl | hgt
  · rw [newZExtExpr]
    simp only [ExprWidth, if_neg (by omega : ¬ w2 = w), if_pos hlt]
    have h2 : 0 < w2 := by rcases hw2 with rfl | rfl | rfl | rfl | rfl <;> norm_num
    have he := C3extract fuel w a 0 w2 hw ha h2 (by omega)
    rw [he, pow_zero, Nat.div_one]
  · rw [newZExtExpr]
    simp [ExprWidth, Nat.mod_eq_of_lt ha]
  · rw [newZExtExpr]
    simp only [ExprWidth, if_neg (by omega : ¬ w2 = w), if_neg (by omega : ¬ w2 < w),
      Expr.asConst]
    have hw21 : w2 ≠ 1 := by
      have hw1 : 1 ≤ w := by rcases hw with rfl | rfl | rfl | rfl | rfl <;> norm_num
      omega
    have h64 : w2 ≤ 64 := by rcases hw2 with rfl | rfl | rfl | rfl | rfl <;> norm_num
    simp only [ConstantExpr.ZExt, WidthBool]
    rw [if_neg (show ¬ (⟨a, w⟩ : ConstantExpr).Width = w2 from by show ¬ w = w2; omega),
      if_neg hw21, NewConstantExpr_eq h64]
    rfl

theorem SExt_fold (ws wt a : Nat)
    (hp : (ws = 8 ∧ (wt = 16 ∨ wt = 32 ∨ wt = 64)) ∨ (ws = 16 ∧ (wt = 32 ∨ wt = 64))
      ∨ (ws = 32 ∧ wt = 64)) :
    ConstantExpr.SExt ⟨a, ws⟩ wt = .ok ⟨specEnc wt (toSigned ws a), wt⟩ := by
  have key : ∀ u : Nat, u ≤ 64 →
      NewConstantExpr (ConstantExpr.goSExtCast ws a) u = ⟨specEnc u (toSigned ws a), u⟩ := by
    intro u hu
    rw [NewConstantExpr_eq hu, ConstantExpr.goSExtCast, goUint64_mod hu]
  obtain ⟨rfl, rfl | rfl | rfl⟩ | ⟨rfl, rfl | rfl⟩ | ⟨rfl, rfl⟩ := hp
  · exact (key 16 (by norm_num) ▸ rfl)
  · exact (key 32 (by norm_num) ▸ rfl)
  · exact (key 64 (by norm_num) ▸ rfl)
  · exact (key 32 (by norm_num) ▸ rfl)
  · exact (key 64 (by norm_num) ▸ rfl)
  · exact (key 64 (by norm_num) ▸ rfl)

theorem C3sext (fuel w w2 a : Nat) (hw : StdWidth w) (hw2 : AcceptedWidth w2)
    (ha : a < 2 ^ w) :
    NewCastExpr (fuel+2) (.constant a w) w2 true
      = .ok (.constant (if w2 ≤ w then a % 2 ^ w2 else specEnc w2 (specSInt w a)) w2) := by
  rw [NewCastExpr, if_pos rfl]
  rcases Nat.lt_trichotomy w2 w with hlt | rfl | hgt
  · rw [newSExtExpr, if_pos (by omega : w2 ≤ w)]
    simp only [ExprWidth, if_neg (by omega : ¬ w2 = w), if_pos hlt]
    have h2 : 0 < w2 := by rcases hw2 with rfl | rfl | rfl | rfl | rfl <;> norm_num
    have he := C3extract fuel w a 0 w2 (Or.inr hw) ha h2 (by omega)
    rw [he, pow_zero, Nat.div_one]
  · rw [newSExtExpr, if_pos (le_refl _)]
    simp [ExprWidth, Nat.mod_eq_of_lt ha]
  · rw [newSExtExpr, if_neg (by omega : ¬ w2 ≤ w)]
    simp only [ExprWidth, if_neg (by omega : ¬ w2 = w), if_neg (by omega : ¬ w2 < w),
      Expr.asConst, specSInt_eq_toSigned]
    rw [SExt_fold w w2 a]
    · rfl
    · rcases hw with rfl | rfl | rfl | rfl <;> rcases hw2 with rfl | rfl | rfl | rfl | rfl <;>
        omega

theorem C3abort_shl (fuel w a b : Nat) (hw : ¬ StdWidth w) :
    NewBinaryExpr (fuel+4) .shl (.constant a w) (.constant b w) = .fatal := by
  rw [show NewBinaryExpr (fuel+4) .shl (.constant a w) (.constant b w)
      = Res.bind (ConstantExpr.Shl ⟨a, w⟩ ⟨b, w⟩) (fun c => .ok c.toExpr) from rfl]
  rw [ConstantExpr.Shl]
  split
  · exact absurd (Or.inl (by assumption)) hw
  · exact absurd (Or.inr (Or.inl (by assumption))) hw
  · exact absurd (Or.inr (Or.inr (Or.inl (by assumption)))) hw
  · exact absurd (Or.inr (Or.inr (Or.inr (by assumption)))) hw
  · rfl

theorem C3abort_sdiv (fuel w a b : Nat) (hw : ¬ StdWidth w) :
    NewBinaryExpr (fuel+4) .sdiv (.constant a w) (.constant b w) = .fatal := by
  rw [show NewBinaryExpr (fuel+4) .sdiv (.constant a w) (.constant b w)
      = Res.bind (ConstantExpr.SDiv ⟨a, w⟩ ⟨b, w⟩) (fun c => .ok c.toExpr) from rfl]
  rw [ConstantExpr.SDiv]
  rw [if_neg (by simp)]
  split
  · rfl
  · split
    · exact absurd (Or.inl (by assumption)) hw
    · exact absurd (Or.inr (Or.inl (by assumption))) hw
    · exact absurd (Or.inr (Or.inr (Or.inl (by assumption)))) hw
    · exact absurd (Or.inr (Or.inr (Or.inr (by assumption)))) hw
    · rfl

theorem C3abort_slt (fuel w a b : Nat) (hw : ¬ StdWidth w) :
    NewBinaryExpr (fuel+4) .slt (.constant a w) (.constant b w) = .fatal := by
  rw [show NewBinaryExpr (fuel+4) .slt (.constant a w) (.constant b w)
      = Res.bind (ConstantExpr.Slt ⟨a, w⟩ ⟨b, w⟩) (fun c => .ok c.toExpr) from rfl]
  rw [ConstantExpr.Slt]
  split
  · exact absurd (Or.inl (by assumption)) hw
  · exact absurd (Or.inr (Or.inl (by assumption))) hw
  · exact absurd (Or.inr (Or.inr (Or.inl (by assumption)))) hw
  · exact absurd (Or.inr (Or.inr (Or.inr (by assumption)))) hw
  · rfl

theorem C3abort_sext1 (fuel : Nat) :
    NewCastExpr (fuel+2) (.constant 1 1) 8 true = .fatal := rfl

/-- C3 counterexample: width 1 is *not* accepted by the shift/division/
ordered-comparison constant folds — `SHL` of two width-1 constants hits
the `default: panic` arm of `ConstantExpr.Shl`'s width switch and aborts
instead of returning a constant. -/
theorem C3_counterexample :
    NewBinaryExpr 4 .shl (.constant 1 1) (.constant 1 1) = .fatal
    ∧ AcceptedWidth 1 := ⟨rfl, Or.inl rfl⟩

/-- C3 (amended): constant folding matches the closed-form modulo-`2^w`
semantics (two's complement via `specSInt`/`specEnc` for signed
operations), but the widths accepted differ by operator: ADD/SUB/MUL/
AND/OR/XOR/EQ/NE fold at every width in {1,8,16,32,64} (boolean ADD/SUB
refactor to XOR, boolean MUL to AND, numerically equal to the mod-2
semantics); the shifts, divisions, remainders and ordered comparisons
fold only at {8,16,32,64} and abort at every other width, including
width 1; NOT, unsigned casts, EXTRACT and CONCAT fold at every accepted
width; signed extension folds only from source widths {8,16,32,64} and
aborts from width 1. -/
theorem C3_constant_folding (fuel : Nat) :
    (∀ w a b : Nat, AcceptedWidth w → a < 2 ^ w → b < 2 ^ w →
      NewBinaryExpr (fuel+4) .add (.constant a w) (.constant b w)
          = .ok (.constant ((a + b) % 2 ^ w) w)
      ∧ NewBinaryExpr (fuel+4) .sub (.constant a w) (.constant b w)
          = .ok (.constant (specEnc w ((a : Int) - b)) w)
      ∧ NewBinaryExpr (fuel+4) .mul (.constant a w) (.constant b w)
          = .ok (.constant (a * b % 2 ^ w) w)
      ∧ NewBinaryExpr (fuel+4) .and (.constant a w) (.constant b w)
          = .ok (.constant (a &&& b) w)
      ∧ NewBinaryExpr (fuel+4) .or (.constant a w) (.constant b w)
          = .ok (.constant (a ||| b) w)
      ∧ NewBinaryExpr (fuel+4) .xor (.constant a w) (.constant b w)
          = .ok (.constant (a ^^^ b) w)
      ∧ NewBinaryExpr (fuel+4) .eq (.constant a w) (.constant b w)
          = .ok (.constant (if a = b then 1 else 0) 1)
      ∧ NewBinaryExpr (fuel+4) .ne (.constant a w) (.constant b w)
          = .ok (.constant (if a = b then 0 else 1) 1))
    ∧ (∀ w a b : Nat, StdWidth w → a < 2 ^ w → b < 2 ^ w →
      NewBinaryExpr (fuel+4) .shl (.constant a w) (.constant b w)
          = .ok (.constant (a * 2 ^ b % 2 ^ w) w)
      ∧ NewBinaryExpr (fuel+4) .lshr (.constant a w) (.constant b w)
          = .ok (.constant (a / 2 ^ b) w)
      ∧ NewBinaryExpr (fuel+4) .ashr (.constant a w) (.constant b w)
          = .ok (.constant (specEnc w (Int.fdiv (specSInt w a) (2 ^ b))) w)
      ∧ NewBinaryExpr (fuel+4) .ult (.constant a w) (.constant b w)
          = .ok (.constant (if a < b then 1 else 0) 1)
      ∧ NewBinaryExpr (fuel+4) .ugt (.constant a w) (.constant b w)
          = .ok (.constant (if b < a then 1 else 0) 1)
      ∧ NewBinaryExpr (fuel+4) .ule (.constant a w) (.constant b w)
          = .ok (.constant (if a ≤ b then 1 else 0) 1)
      ∧ NewBinaryExpr (fuel+4) .uge (.constant a w) (.constant b w)
          = .ok (.constant (if b ≤ a then 1 else 0) 1)
      ∧ NewBinaryExpr (fuel+4) .slt (.constant a w) (.constant b w)
          = .ok (.constant (if specSInt w a < specSInt w b then 1 else 0) 1)
      ∧ NewBinaryExpr (fuel+4) .sgt (.constant a w) (.constant b w)
          = .ok (.constant (if specSInt w b < specSInt w a then 1 else 0) 1)
      ∧ NewBinaryExpr (fuel+4) .sle (.constant a w) (.constant b w)
          = .ok (.constant (if specSInt w a ≤ specSInt w b then 1 else 0) 1)
      ∧ NewBinaryExpr (fuel+4) .sge (.constant a w) (.constant b w)
          = .ok (.constant (if specSInt w b ≤ specSInt w a then 1 else 0) 1))
    ∧ (∀ w a b : Nat, StdWidth w → a < 2 ^ w → b < 2 ^ w → b ≠ 0 →
      NewBinaryExpr (fuel+4) .udiv (.constant a w) (.constant b w)
          = .ok (.constant (a / b) w)
      ∧ NewBinaryExpr (fuel+4) .urem (.constant a w) (.constant b w)
          = .ok (.constant (a % b) w)
      ∧ NewBinaryExpr (fuel+4) .sdiv (.constant a w) (.constant b w)
          = .ok (.constant (specEnc w (Int.tdiv (specSInt w a) (specSInt w b))) w)
      ∧ NewBinaryExpr (fuel+4) .srem (.constant a w) (.constant b w)
          = .ok (.constant (specEnc w (Int.tmod (specSInt w a) (specSInt w b))) w))
    ∧ (∀ w a : Nat, AcceptedWidth w → a < 2 ^ w →
      NewNotExpr (.constant a w) = .ok (.constant (2 ^ w - 1 - a) w))
    ∧ (∀ w w2 a : Nat, AcceptedWidth w → AcceptedWidth w2 → a < 2 ^ w →
      NewCastExpr (fuel+2) (.constant a w) w2 false = .ok (.constant (a % 2 ^ w2) w2))
    ∧ (∀ w w2 a : Nat, StdWidth w → AcceptedWidth w2 → a < 2 ^ w →
      NewCastExpr (fuel+2) (.constant a w) w2 true
        = .ok (.constant (if w2 ≤ w then a % 2 ^ w2 else specEnc w2 (specSInt w a)) w2))
    ∧ (∀ w a off w2 : Nat, AcceptedWidth w → a < 2 ^ w → 0 < w2 → off + w2 ≤ w →
      NewExtractExpr (fuel+1) (.constant a w) off w2
        = .ok (.constant (a / 2 ^ off % 2 ^ w2) w2))
    ∧ (∀ wa wb a b : Nat, AcceptedWidth wa → AcceptedWidth wb → wa + wb ≤ 64 →
      a < 2 ^ wa → b < 2 ^ wb →
      NewConcatExpr (fuel+1) (.constant a wa) (.constant b wb)
        = .ok (.constant (a * 2 ^ wb + b) (wa + wb)))
    ∧ (∀ w a b : Nat, ¬ StdWidth w →
      NewBinaryExpr (fuel+4) .shl (.constant a w) (.constant b w) = .fatal
      ∧ NewBinaryExpr (fuel+4) .sdiv (.constant a w) (.constant b w) = .fatal
      ∧ NewBinaryExpr (fuel+4) .slt (.constant a w) (.constant b w) = .fatal)
    ∧ NewCastExpr (fuel+2) (.constant 1 1) 8 true = .fatal := by
  refine ⟨fun w a b hw ha hb => ⟨C3add fuel w a b hw ha hb, C3sub fuel w a b hw ha hb,
      C3mul fuel w a b hw ha hb, C3and fuel w a b hw ha hb, C3or fuel w a b hw ha hb,
      C3xor fuel w a b hw ha hb, C3eq fuel w a b hw ha hb, C3ne fuel w a b hw ha hb⟩,
    fun w a b hw ha hb => ⟨C3shl fuel w a b hw ha hb, C3lshr fuel w a b hw ha hb,
      C3ashr fuel w a b hw ha hb, C3ult fuel w a b hw ha hb, C3ugt fuel w a b hw ha hb,
      C3ule fuel w a b hw ha hb, C3uge fuel w a b hw ha hb, C3slt fuel w a b hw ha hb,
      C3sgt fuel w a b hw ha hb, C3sle fuel w a b hw ha hb, C3sge fuel w a b hw ha hb⟩,
    fun w a b hw ha hb hb0 => ⟨C3udiv fuel w a b hw ha hb hb0,
      C3urem fuel w a b hw ha hb hb0, C3sdiv fuel w a b hw ha hb hb0,
      C3srem fuel w a b hw ha hb hb0⟩,
    fun w a hw ha => C3not w a hw ha,
    fun w w2 a hw hw2 ha => C3zext fuel w w2 a hw hw2 ha,
    fun w w2 a hw hw2 ha => C3sext fuel w w2 a hw hw2 ha,
    fun w a off w2 hw ha h2 hle => C3extract fuel w a off w2 hw ha h2 hle,
    fun wa wb a b hwa hwb hsum ha hb => C3concat fuel wa wb a b hwa hwb hsum ha hb,
    fun w a b hw => ⟨C3abort_shl fuel w a b hw, C3abort_sdiv fuel w a b hw,
      C3abort_slt fuel w a b hw⟩,
    C3abort_sext1 fuel⟩

/-- C3 witness: the amended theorem applied at concrete constants —
8-bit ADD with wrap, signed 8-bit division 236/7 (i.e. (-20)/7 = -2,
encoded 254), signed extension of 0x80 to 64 bits, a width-1 ADD
(boolean XOR refactor), and the width-1 SHL abort. -/
theorem C3_constant_folding_witness :
    NewBinaryExpr 4 .add (.constant 200 8) (.constant 100 8)
      = .ok (.constant ((200 + 100) % 2 ^ 8) 8)
    ∧ NewBinaryExpr 4 .add (.constant 1 1) (.constant 1 1)
      = .ok (.constant ((1 + 1) % 2 ^ 1) 1)
    ∧ NewBinaryExpr 4 .sdiv (.constant 236 8) (.constant 7 8)
      = .ok (.constant (specEnc 8 (Int.tdiv (specSInt 8 236) (specSInt 8 7))) 8)
    ∧ NewCastExpr 2 (.constant 128 8) 64 true
      = .ok (.constant (if 64 ≤ 8 then 128 % 2 ^ 64 else specEnc 64 (specSInt 8 128)) 64)
    ∧ NewBinaryExpr 4 .shl (.constant 1 3) (.constant 1 3) = .fatal :=
  ⟨((C3_constant_folding 0).1 8 200 100 (Or.inr (Or.inl rfl)) (by norm_num)
      (by norm_num)).1,
   ((C3_constant_folding 0).1 1 1 1 (Or.inl rfl) (by norm_num) (by norm_num)).1,
   ((C3_constant_folding 0).2.2.1 8 236 7 (Or.inl rfl) (by norm_num) (by norm_num)
      (by norm_num)).2.2.1,
   ((C3_constant_folding 0).2.2.2.2.2.1 8 64 128 (Or.inl rfl)
      (Or.inr (Or.inr (Or.inr (Or.inr rfl)))) (by norm_num)),
   ((C3_constant_folding 0).2.2.2.2.2.2.2.2.1 3 1 1 (by norm_num)).1⟩

theorem addFold64 (fuel x y : Nat) (hf : 2 ≤ fuel) (h : x + y < 2 ^ 64) :
    NewBinaryExpr fuel .add (.constant x 64) (.constant y 64)
      = .ok (.constant (x + y) 64) := by
  obtain ⟨f, rfl⟩ : ∃ f, fuel = f + 2 := ⟨fuel - 2, by omega⟩
  exact NBE_add_const64 f x y h

theorem eqFold64 (fuel x y : Nat) (hf : 2 ≤ fuel) :
    NewBinaryExpr fuel .eq (.constant x 64) (.constant y 64)
      = .ok (NewBoolConstantExpr (x == y)).toExpr := by
  obtain ⟨f, rfl⟩ : ∃ f, fuel = f + 2 := ⟨fuel - 2, by omega⟩
  exact NBE_eq_const64 f x y

theorem storeByte_const_f (fuel : Nat) (hf : 1 ≤ fuel) (a : Arr) (k : Nat) (v : Expr)
    (hk : k < a.Size) (hv : ExprWidth v = 8) :
    Arr.storeByte fuel a (.constant k 64) v
      = .ok (.mk a.ID a.Size (.cons (.constant k 64) v (gcTail k a.Updates))) := by
  obtain ⟨f, rfl⟩ : ∃ f, fuel = f + 1 := ⟨fuel - 1, by omega⟩
  exact storeByte_const f a k v hk hv

theorem gcTail_chainOf (y : Nat) (W : List (Nat × Expr)) (rest : Upd)
    (h : ∀ p ∈ W.map Prod.fst, p ≠ y) :
    gcTail y (chainOf W rest) = chainOf W (gcTail y rest) := by
  induction W with
  | nil => rfl
  | cons pb W ih =>
      obtain ⟨p, b⟩ := pb
      have hp : p ≠ y := h p (by simp)
      rw [chainOf, gcTail]
      simp only [Expr.asConst]
      rw [if_neg hp, ih fun q hq => h q (by simp [hq])]
      rfl

theorem selectByteLoop_chain (fuel : Nat) (hf : 2 ≤ fuel) (a : Arr) (x : Nat)
    (W : List (Nat × Expr)) (rest : Upd) (b : Expr)
    (hlk : pairsLookup x W = some b) :
    selectByteLoop fuel a (.constant x 64) (chainOf W rest) = .ok b := by
  induction W with
  | nil => exact absurd hlk (by simp [pairsLookup])
  | cons pb W ih =>
      obtain ⟨p, b2⟩ := pb
      rw [chainOf, selectByteLoop]
      simp only [Res.monad_bind_eq_bind, eqFold64 fuel x p hf, Res.bind_ok]
      by_cases hpx : p = x
      · subst hpx
        rw [pairsLookup, if_pos rfl, Option.some_inj] at hlk
        subst hlk
        simp only [NewBoolConstantExpr, beq_self_eq_true, if_true, ConstantExpr.toExpr,
          Expr.asConst]
        rw [if_pos (by decide)]
      · rw [pairsLookup, if_neg hpx] at hlk
        have hbeq : (x == p) = false := by
          simp only [beq_eq_false_iff_ne, ne_eq]
          exact fun hh => hpx hh.symm
        rw [hbeq]
        simp only [NewBoolConstantExpr, Bool.false_eq_true, if_false, ConstantExpr.toExpr,
          Expr.asConst]
        rw [if_neg (by decide)]
        exact ih hlk

theorem select_chainOf (fuel : Nat) (hf : 2 ≤ fuel) (id S x : Nat)
    (W : List (Nat × Expr)) (rest : Upd) (b : Expr)
    (hlk : pairsLookup x W = some b) :
    Arr.selectByte fuel (.mk id S (chainOf W rest)) (.constant x 64) = .ok b := by
  rw [Arr.selectByte, if_neg (by simp [ExprWidth])]
  exact selectByteLoop_chain fuel hf _ x W rest b hlk

theorem NewConstantExpr64_toExpr (m : Nat) (hm : m < 2 ^ 64) :
    (NewConstantExpr64 m).toExpr = .constant m 64 := by
  rw [NewConstantExpr64, NewConstantExpr_eq (le_refl 64), ConstantExpr.toExpr,
    Nat.mod_eq_of_lt hm]

theorem storeLoop_chain (fuel : Nat) (hf : 3 ≤ fuel) (bo n id S : Nat) (v : Expr)
    (le : Bool) (bv : Nat → Expr)
    (hbv : ∀ k, k < n → NewExtractExpr fuel v (k * 8) Width8 = .ok (bv k))
    (hbw : ∀ k, k < n → ExprWidth (bv k) = 8)
    (hbound : bo + n ≤ S) (hS : S ≤ 2 ^ 64) :
    ∀ (r i : Nat) (W : List (Nat × Expr)) (rest : Upd),
      i + r = n →
      (∀ p ∈ W.map Prod.fst, ∃ k, k < i ∧ p = bo + (if le then k else n - k - 1)) →
      (∀ k, k < i → pairsLookup (bo + (if le then k else n - k - 1)) W = some (bv k)) →
      ∃ (W2 : List (Nat × Expr)) (rest2 : Upd),
        storeLoop fuel (.constant bo 64) v n le (.mk id S (chainOf W rest)) i r
          = .ok (.mk id S (chainOf W2 rest2))
        ∧ ∀ k, k < n → pairsLookup (bo + (if le then k else n - k - 1)) W2 = some (bv k) := by
  intro r
  induction r with
  | zero =>
      intro i W rest hin hWset hW
      exact ⟨W, rest, rfl, fun k hk => hW k (by omega)⟩
  | succ r ih =>
      intro i W rest hin hWset hW
      have hi : i < n := by omega
      have hBo : bo + (if le then i else n - i - 1) < S := by
        split <;> omega
      have hAdd : bo + (if le then i else n - i - 1) < 2 ^ 64 := lt_of_lt_of_le hBo hS
      have hBo64 : (if le then i else n - i - 1) < 2 ^ 64 := by omega
      have hgc : ∀ p ∈ W.map Prod.fst, p ≠ bo + (if le then i else n - i - 1) := by
        intro p hp heq
        obtain ⟨k, hk, hpk⟩ := hWset p hp
        have h2 : (if le then k else n - k - 1) = (if le then i else n - i - 1) := by omega
        by_cases hle : le = true
        · rw [if_pos hle, if_pos hle] at h2
          omega
        · rw [if_neg hle, if_neg hle] at h2
          omega
      rw [storeLoop]
      simp only [Res.monad_bind_eq_bind]
      rw [NewConstantExpr64_toExpr _ hBo64,
        addFold64 fuel bo (if le then i else n - i - 1) (by omega) hAdd, Res.bind_ok,
        hbv i hi, Res.bind_ok,
        storeByte_const_f fuel (by omega) (.mk id S (chainOf W rest))
          (bo + (if le then i else n - i - 1)) (bv i) hBo (hbw i hi), Res.bind_ok]
      rw [show Arr.Updates (.mk id S (chainOf W rest)) = chainOf W rest from rfl,
        gcTail_chainOf (bo + (if le then i else n - i - 1)) W rest hgc]
      have hstep := ih (i+1) ((bo + (if le then i else n - i - 1), bv i) :: W)
        (gcTail (bo + (if le then i else n - i - 1)) rest) (by omega)
        (by
          intro p hp
          simp only [List.map_cons, List.mem_cons] at hp
          rcases hp with rfl | hp
          · exact ⟨i, by omega, rfl⟩
          · obtain ⟨k, hk, rfl⟩ := hWset p hp
            exact ⟨k, by omega, rfl⟩)
        (by
          intro k hk
          by_cases hki : k = i
          · subst hki
            rw [pairsLookup, if_pos rfl]
          · have hne : bo + (if le then k else n - k - 1)
                ≠ bo + (if le then i else n - i - 1) := by
              intro heq
              have h2 : (if le then k else n - k - 1) = (if le then i else n - i - 1) := by
                omega
              by_cases hle : le = true
              · rw [if_pos hle, if_pos hle] at h2
                omega
              · rw [if_neg hle, if_neg hle] at h2
                omega
            rw [pairsLookup, if_neg (fun hh => hne (by rw [hh]))]
            exact hW k (by omega))
      obtain ⟨W2, rest2, heq, hlk⟩ := hstep
      exact ⟨W2, rest2, heq, hlk⟩

theorem newZExtExpr_nop_f (fuel : Nat) (hf : 1 ≤ fuel) (e : Expr) (w : Nat)
    (h : ExprWidth e = w) : newZExtExpr fuel e w = .ok e := by
  obtain ⟨f, rfl⟩ : ∃ f, fuel = f + 1 := ⟨fuel - 1, by omega⟩
  exact newZExtExpr_nop f e w h

theorem NewExtractExpr_full_f (fuel : Nat) (hf : 1 ≤ fuel) (e : Expr) (w : Nat)
    (h : ExprWidth e = w) (hw : w ≠ 0) : NewExtractExpr fuel e 0 w = .ok e := by
  obtain ⟨f, rfl⟩ : ∃ f, fuel = f + 1 := ⟨fuel - 1, by omega⟩
  exact NewExtractExpr_full f e w h hw

theorem selectLoop_acc (fuel : Nat) (hf : 3 ≤ fuel) (bo n id S : Nat) (v : Expr)
    (le : Bool) (W2 : List (Nat × Expr)) (rest2 : Upd)
    (hw : ExprWidth v = 8 * n) (hpl : v.asConst = none) (hpc : isConcatExpr v = false)
    (hS : bo + n ≤ 2 ^ 64)
    (hlk : ∀ k, k < n → pairsLookup (bo + (if le then k else n - k - 1)) W2
        = some (.extract v (k * 8) 8)) :
    ∀ (r i : Nat), i + r = n → 1 ≤ i → i < n →
      selectLoop fuel (.mk id S (chainOf W2 rest2)) (.constant bo 64) n le i r
          (some (.extract v 0 (8 * i)))
        = .ok (some v) := by
  intro r
  induction r with
  | zero =>
      intro i hin h1 hltn
      omega
  | succ r ih =>
      intro i hin h1 hltn
      have hBo64 : (if le then i else n - i - 1) < 2 ^ 64 := by
        split <;> omega
      rw [selectLoop]
      simp only [Res.monad_bind_eq_bind]
      rw [NewConstantExpr64_toExpr _ hBo64,
        addFold64 fuel bo (if le then i else n - i - 1) (by omega)
          (by split <;> omega), Res.bind_ok,
        select_chainOf fuel (by omega) id S _ W2 rest2 _ (hlk i (by omega)), Res.bind_ok,
        if_neg (by omega : ¬ i = 0)]
      obtain ⟨f, rfl⟩ : ∃ f, fuel = f + 1 := ⟨fuel - 1, by omega⟩
      rw [NewConcatExpr]
      rw [if_pos ⟨rfl, by omega⟩]
      by_cases hlast : r = 0
      · subst hlast
        rw [NewExtractExpr_full_f f (by omega) v (8 + 8 * i) (by omega) (by omega),
          Res.bind_ok]
        rfl
      · rw [NewExtractExpr_plain f (by omega) v 0 (8 + 8 * i) (by omega) (by omega)
          (by omega) hpl hpc, Res.bind_ok]
        rw [show (8 + 8 * i) = 8 * (i + 1) from by ring]
        exact ih (i + 1) (by omega) (by omega) (by omega)

theorem roundTrip_plain (fuel bo w : Nat) (a : Arr) (v : Expr) (le : Bool)
    (hw : ExprWidth v = w) (hw3 : w = 16 ∨ w = 32 ∨ w = 64)
    (hpl : v.asConst = none) (hpc : isConcatExpr v = false)
    (hbound : bo + w / 8 ≤ a.Size) (hS : a.Size ≤ 2 ^ 64) :
    ∃ a2, Arr.Store (fuel+3) a (.constant bo 64) v le = .ok a2
      ∧ Arr.Select (fuel+3) a2 (.constant bo 64) w le = .ok (some v) := by
  obtain ⟨id, S, u⟩ := a
  rw [Arr.Size] at hbound hS
  have h8n : 8 * (w / 8) = w := by rcases hw3 with rfl | rfl | rfl <;> norm_num
  have hw16 : 16 ≤ w := by rcases hw3 with rfl | rfl | rfl <;> norm_num
  have hw64 : w ≤ 64 := by rcases hw3 with rfl | rfl | rfl <;> norm_num
  have hbv : ∀ k, k < w / 8 →
      NewExtractExpr (fuel+3) v (k * 8) Width8 = .ok (.extract v (k * 8) 8) := by
    intro k hk
    exact NewExtractExpr_plain (fuel+3) (by omega) v (k * 8) 8 (by omega) (by omega)
      (by omega) hpl hpc
  have hbw : ∀ k, k < w / 8 → ExprWidth (.extract v (k * 8) 8) = 8 := by
    intro k hk
    rfl
  obtain ⟨W2, rest2, hst, hlk⟩ := storeLoop_chain (fuel+3) (by omega) bo (w / 8) id S v
    le (fun k => .extract v (k * 8) 8) hbv hbw hbound hS (w / 8) 0 [] u (by omega)
    (by intro p hp; simp at hp) (by intro k hk; omega)
  refine ⟨.mk id S (chainOf W2 rest2), ?_, ?_⟩
  · rw [Arr.Store, Arr.Clone]
    simp only [Res.monad_bind_eq_bind,
      newZExtExpr_nop_f (fuel+3) (by omega) (.constant bo 64) Width64 rfl, Res.bind_ok,
      hw, WidthBool]
    rw [if_neg (by omega), if_neg (by omega)]
    exact hst
  · rw [Arr.Select]
    rw [if_neg (by omega)]
    simp only [Res.monad_bind_eq_bind,
      newZExtExpr_nop_f (fuel+3) (by omega) (.constant bo 64) Width64 rfl, Res.bind_ok,
      WidthBool]
    rw [if_neg (by omega)]
    obtain ⟨r, hr⟩ : ∃ r, w / 8 = r + 1 := ⟨w / 8 - 1, by omega⟩
    rw [hr] at hlk ⊢
    rw [selectLoop]
    simp only [Res.monad_bind_eq_bind]
    have hBo64 : (if le then 0 else r + 1 - 0 - 1) < 2 ^ 64 := by
      split <;> omega
    rw [NewConstantExpr64_toExpr _ hBo64,
      addFold64 (fuel+3) bo (if le then 0 else r + 1 - 0 - 1) (by omega)
        (by split <;> omega), Res.bind_ok,
      select_chainOf (fuel+3) (by omega) id S _ W2 rest2 _ (hlk 0 (by omega)),
      Res.bind_ok, if_pos trivial]
    exact selectLoop_acc (fuel+3) (by omega) bo (r+1) id S v le W2 rest2 (by omega)
      hpl hpc (by omega) hlk r 1 (by omega) (by omega) (by omega)

theorem roundTrip_byte (fuel bo : Nat) (a : Arr) (v : Expr) (le : Bool)
    (hw : ExprWidth v = 8) (hbound : bo + 1 ≤ a.Size) (hS : a.Size ≤ 2 ^ 64) :
    ∃ a2, Arr.Store (fuel+3) a (.constant bo 64) v le = .ok a2
      ∧ Arr.Select (fuel+3) a2 (.constant bo 64) 8 le = .ok (some v) := by
  obtain ⟨id, S, u⟩ := a
  rw [Arr.Size] at hbound hS
  have hbv : ∀ k, k < 1 → NewExtractExpr (fuel+3) v (k * 8) Width8 = .ok v := by
    intro k hk
    have hk0 : k = 0 := by omega
    subst hk0
    exact NewExtractExpr_full_f (fuel+3) (by omega) v 8 hw (by omega)
  have hbw : ∀ k, k < 1 → ExprWidth v = 8 := fun _ _ => hw
  obtain ⟨W2, rest2, hst, hlk⟩ := storeLoop_chain (fuel+3) (by omega) bo 1 id S v
    le (fun _ => v) hbv hbw hbound hS 1 0 [] u (by omega)
    (by intro p hp; simp at hp) (by intro k hk; omega)
  refine ⟨.mk id S (chainOf W2 rest2), ?_, ?_⟩
  · rw [Arr.Store, Arr.Clone]
    simp only [Res.monad_bind_eq_bind,
      newZExtExpr_nop_f (fuel+3) (by omega) (.constant bo 64) Width64 rfl, Res.bind_ok,
      hw, WidthBool]
    rw [if_neg (by omega), if_neg (by omega)]
    exact hst
  · rw [Arr.Select]
    rw [if_neg (by omega)]
    simp only [Res.monad_bind_eq_bind,
      newZExtExpr_nop_f (fuel+3) (by omega) (.constant bo 64) Width64 rfl, Res.bind_ok,
      WidthBool]
    rw [if_neg (by omega)]
    rw [show (8 : Nat) / 8 = 0 + 1 from by norm_num]
    rw [selectLoop]
    simp only [Res.monad_bind_eq_bind]
    have hBo64 : (if le then 0 else 0 + 1 - 0 - 1) < 2 ^ 64 := by
      split <;> omega
    rw [NewConstantExpr64_toExpr _ hBo64,
      addFold64 (fuel+3) bo (if le then 0 else 0 + 1 - 0 - 1) (by omega)
        (by split <;> omega), Res.bind_ok,
      select_chainOf (fuel+3) (by omega) id S _ W2 rest2 _ (hlk 0 (by omega)),
      Res.bind_ok, if_pos trivial]
    rfl

theorem roundTrip_bool (fuel bo c : Nat) (a : Arr) (le : Bool)
    (hc : c < 2) (hbound : bo < a.Size) (hS : a.Size ≤ 2 ^ 64) :
    ∃ a2, Arr.Store (fuel+3) a (.constant bo 64) (.constant c 1) le = .ok a2
      ∧ Arr.Select (fuel+3) a2 (.constant bo 64) 1 le = .ok (some (.constant c 1)) := by
  obtain ⟨id, S, u⟩ := a
  rw [Arr.Size] at hbound hS
  have hz8 : newZExtExpr (fuel+3) (.constant c 1) Width8 = .ok (.constant c 8) := by
    obtain ⟨f, hf⟩ : ∃ f, fuel + 3 = f + 1 := ⟨fuel + 2, by omega⟩
    rw [hf, newZExtExpr]
    simp only [ExprWidth, Width8]
    rw [if_neg (by omega), if_neg (by omega)]
    simp only [Expr.asConst, ConstantExpr.ZExt, WidthBool]
    rw [if_neg (show ¬ (⟨c, 1⟩ : ConstantExpr).Width = 8 from by show ¬ 1 = 8; omega),
      if_neg (by omega : ¬ (8 : Nat) = 1), NewConstantExpr_eq (by omega),
      Nat.mod_eq_of_lt (by omega : c < 2 ^ 8)]
    rfl
  refine ⟨.mk id S (chainOf [(bo, .constant c 8)] (gcTail bo u)), ?_, ?_⟩
  · rw [Arr.Store, Arr.Clone]
    simp only [Res.monad_bind_eq_bind,
      newZExtExpr_nop_f (fuel+3) (by omega) (.constant bo 64) Width64 rfl, Res.bind_ok,
      ExprWidth, WidthBool]
    rw [if_neg (by omega), if_pos trivial]
    rw [Arr.storeByte]
    rw [if_neg (by simp [ExprWidth])]
    simp only [Expr.asConst]
    rw [if_neg (show ¬ ¬ (⟨bo, 64⟩ : ConstantExpr).Value < (Arr.mk id S u).Size from
      by show ¬ ¬ bo < S; omega)]
    rw [NewArrayUpdate]
    simp only [Res.monad_bind_eq_bind,
      newZExtExpr_nop_f (fuel+3) (by omega) (.constant bo 64) Width64 rfl, Res.bind_ok,
      hz8]
    rfl
  · rw [Arr.Select]
    rw [if_neg (by omega)]
    simp only [Res.monad_bind_eq_bind,
      newZExtExpr_nop_f (fuel+3) (by omega) (.constant bo 64) Width64 rfl, Res.bind_ok,
      WidthBool]
    rw [if_pos trivial]
    rw [select_chainOf (fuel+3) (by omega) id S bo [(bo, .constant c 8)] (gcTail bo u)
      (.constant c 8) (by rw [pairsLookup, if_pos rfl]), Res.bind_ok]
    have he := C3extract (fuel+2) 8 c 0 1 (Or.inr (Or.inl rfl))
      (by omega : c < 2 ^ 8) (by omega) (by omega)
    rw [show fuel + 2 + 1 = fuel + 3 from by omega] at he
    rw [he, Res.bind_ok]
    rw [show c / 2 ^ 0 % 2 ^ 1 = c from by omega]

/-- C6: storing a 1-bit symbolic value and selecting it back yields an
extract of a zero-extending cast of the value, not the value itself. -/
theorem C6_counterexample :
    (Arr.Store 10 (.mk 1 4 .nil) (.constant 0 64)
        (.extract (.select (.mk 2 8 .nil) (.constant 0 64)) 0 1) true).bind
      (fun a2 => Arr.Select 10 a2 (.constant 0 64) 1 true)
    = .ok (some (.extract
        (.cast (.extract (.select (.mk 2 8 .nil) (.constant 0 64)) 0 1) 8 false) 0 1))
  ∧ Expr.extract
        (.cast (.extract (.select (.mk 2 8 .nil) (.constant 0 64)) 0 1) 8 false) 0 1
      ≠ Expr.extract (.select (.mk 2 8 .nil) (.constant 0 64)) 0 1 := by
  exact ⟨rfl, by decide⟩

theorem extract_const_gen (fuel w a off w2 : Nat) (h64 : w ≤ 64) (ha : a < 2 ^ w)
    (h2 : 0 < w2) (hle : off + w2 ≤ w) :
    NewExtractExpr (fuel+1) (.constant a w) off w2
      = .ok (.constant (a / 2 ^ off % 2 ^ w2) w2) := by
  have ha64 : a < 2 ^ 64 := lt_of_lt_of_le ha (Nat.pow_le_pow_right (by norm_num) h64)
  by_cases hfull : w2 = w
  · subst hfull
    have hoff : off = 0 := by omega
    subst hoff
    simp [NewExtractExpr, ExprWidth, Nat.pos_iff_ne_zero.mp h2, Nat.mod_eq_of_lt ha]
  · rw [NewExtractExpr]
    simp only [ExprWidth, if_neg (by omega : ¬ w2 = 0),
      if_neg (by omega : ¬ ¬ off + w2 ≤ w), if_neg hfull]
    simp only [ConstantExpr.Extract, bitmask_succ h64, NewConstantExpr_eq (by omega : w2 ≤ 64),
      ConstantExpr.toExpr, Res.ok.injEq, Expr.constant.injEq]
    refine ⟨?_, trivial⟩
    rw [Nat.mod_mod_of_dvd _ (pow_dvd_pow 2 (by omega : w2 ≤ w)),
      extract_val (by omega) ha64]

theorem concat_const_gen (fuel wa wb a b : Nat)
    (hsum : wa + wb ≤ 64) (ha : a < 2 ^ wa) (hb : b < 2 ^ wb) :
    NewConcatExpr (fuel+1) (.constant a wa) (.constant b wb)
      = .ok (.constant (a * 2 ^ wb + b) (wa + wb)) := by
  have hab : a * 2 ^ wb + b < 2 ^ (wa + wb) := by
    rw [pow_add]
    calc a * 2 ^ wb + b < a * 2 ^ wb + 2 ^ wb := by omega
    _ = (a + 1) * 2 ^ wb := by ring
    _ ≤ 2 ^ wa * 2 ^ wb := Nat.mul_le_mul_right _ ha
  have hlt64 : a * 2 ^ wb < 2 ^ 64 := by
    calc a * 2 ^ wb ≤ a * 2 ^ wb + b := by omega
    _ < 2 ^ (wa + wb) := hab
    _ ≤ 2 ^ 64 := Nat.pow_le_pow_right (by norm_num) hsum
  rw [NewConcatExpr]
  simp only [ConstantExpr.Concat, NewConstantExpr_eq hsum, ConstantExpr.toExpr,
    Res.ok.injEq, Expr.constant.injEq]
  rw [Nat.mod_eq_of_lt hlt64, mul_pow_lor_eq_add hb, Nat.mod_eq_of_lt hab]
  exact ⟨rfl, trivial⟩

theorem NewConcatExpr_default (fuel : Nat) (hf : 1 ≤ fuel) (x y : Expr)
    (h1 : constPair x y = false) (h2 : mergeablePair x y = false) :
    NewConcatExpr fuel x y = .ok (.concat x y) := by
  obtain ⟨f, rfl⟩ : ∃ f, fuel = f + 1 := ⟨fuel - 1, by omega⟩
  cases x <;> cases y <;> simp only [constPair, mergeablePair] at h1 h2 <;> try rfl
  · exact absurd h1 (by simp)
  · rename_i pe po pw qe qo qw
    rw [NewConcatExpr, if_neg (by rintro ⟨rfl, hsum⟩; simp [hsum] at h2)]

theorem constPair_concat_r (m a b : Expr) : constPair m (.concat a b) = false := by
  cases m <;> rfl

theorem mergeablePair_concat_r (m a b : Expr) : mergeablePair m (.concat a b) = false := by
  cases m <;> rfl

theorem combOf_width (ms : List Expr) (base : Expr)
    (hchunks : ∀ m ∈ ms, ExprWidth m = 8) :
    ExprWidth (combOf ms base) = 8 * ms.length + ExprWidth base := by
  induction ms with
  | nil => simp [combOf]
  | cons m ms ih =>
      rw [combOf, show ExprWidth (.concat m (combOf ms base))
          = ExprWidth m + ExprWidth (combOf ms base) from rfl,
        hchunks m (List.mem_cons_self m ms),
        ih (fun x hx => hchunks x (List.mem_cons_of_mem m hx))]
      simp [List.length_cons]
      ring

theorem extract_combOf (base : Expr) (j : Nat) (baseByte : Nat → Expr)
    (hj : 1 ≤ j) (hbw : ExprWidth base = 8 * j)
    (hbB : ∀ f, 1 ≤ f → ∀ k, k < j → NewExtractExpr f base (k * 8) 8 = .ok (baseByte k)) :
    ∀ (ms : List Expr) (fuel k : Nat), (∀ m ∈ ms, ExprWidth m = 8) →
      ms.length + 1 ≤ fuel → k < ms.length + j →
      NewExtractExpr fuel (combOf ms base) (k * 8) 8
        = .ok (combByteF j baseByte ms k) := by
  intro ms
  induction ms with
  | nil =>
      intro fuel k hch hf hk
      rw [combByteF, if_pos (by simpa using hk)]
      exact hbB fuel (by omega) k (by simpa using hk)
  | cons m ms ih =>
      intro fuel k hch hf hk
      obtain ⟨f, rfl⟩ : ∃ f, fuel = f + 1 := ⟨fuel - 1, by omega⟩
      have hm8 : ExprWidth m = 8 := hch m (List.mem_cons_self m ms)
      have hwl : ExprWidth (combOf ms base) = 8 * (ms.length + j) := by
        rw [combOf_width ms base (fun x hx => hch x (List.mem_cons_of_mem m hx)), hbw]
        ring
      simp only [List.length_cons] at hk hf
      rw [combOf, NewExtractExpr]
      simp only [ExprWidth, hm8, hwl]
      rw [if_neg (by omega : ¬ (8:Nat) = 0),
        if_neg (by omega : ¬ ¬ k * 8 + 8 ≤ 8 + 8 * (ms.length + j)),
        if_neg (by omega : ¬ (8:Nat) = 8 + 8 * (ms.length + j))]
      by_cases htop : k = ms.length + j
      · rw [if_pos (by omega : k * 8 ≥ 8 * (ms.length + j)),
          show k * 8 - 8 * (ms.length + j) = 0 from by omega,
          NewExtractExpr_full_f f (by omega) m 8 hm8 (by omega),
          combByteF, if_neg (by omega : ¬ k < j),
          show (m :: ms).length + j - 1 - k = 0 from by
            simp only [List.length_cons]; omega]
        rfl
      · rw [if_neg (by omega : ¬ k * 8 ≥ 8 * (ms.length + j)),
          if_pos (by omega : k * 8 + 8 ≤ 8 * (ms.length + j)),
          ih f k (fun x hx => hch x (List.mem_cons_of_mem m hx)) (by omega) (by omega)]
        by_cases hkj : k < j
        · rw [combByteF, if_pos hkj, combByteF, if_pos hkj]
        · rw [combByteF, if_neg hkj, combByteF, if_neg hkj,
            show (m :: ms).length + j - 1 - k = (ms.length + j - 1 - k) + 1 from by
              simp only [List.length_cons]; omega,
            List.getD_cons_succ]

theorem selectLoop_build (fuel : Nat) (hf : 3 ≤ fuel) (bo n id S : Nat) (le : Bool)
    (W2 : List (Nat × Expr)) (rest2 : Upd) (byte acc : Nat → Expr)
    (hS : bo + n ≤ 2 ^ 64)
    (hlk : ∀ k, k < n → pairsLookup (bo + (if le then k else n - k - 1)) W2
        = some (byte k))
    (hstep : ∀ i, 1 ≤ i → i < n → NewConcatExpr fuel (byte i) (acc i) = .ok (acc (i+1))) :
    ∀ (r i : Nat), i + r = n → 1 ≤ i →
      selectLoop fuel (.mk id S (chainOf W2 rest2)) (.constant bo 64) n le i r
          (some (acc i))
        = .ok (some (acc n)) := by
  intro r
  induction r with
  | zero =>
      intro i hin h1
      obtain rfl : i = n := by omega
      rfl
  | succ r ih =>
      intro i hin h1
      have hi : i < n := by omega
      have hBo64 : (if le then i else n - i - 1) < 2 ^ 64 := by
        split <;> omega
      rw [selectLoop]
      simp only [Res.monad_bind_eq_bind]
      rw [NewConstantExpr64_toExpr _ hBo64,
        addFold64 fuel bo (if le then i else n - i - 1) (by omega)
          (by split <;> omega), Res.bind_ok,
        select_chainOf fuel (by omega) id S _ W2 rest2 _ (hlk i hi), Res.bind_ok,
        if_neg (by omega : ¬ i = 0),
        hstep i h1 hi, Res.bind_ok]
      exact ih (i+1) (by omega) (by omega)

theorem comb_step (fuel : Nat) (hf : 2 ≤ fuel) (ms : List Expr) (base : Expr)
    (j : Nat) (baseByte baseAcc : Nat → Expr)
    (hj : 1 ≤ j)
    (hB4 : ∀ f, 2 ≤ f → ∀ i, 1 ≤ i → i < j →
        NewConcatExpr f (baseByte i) (baseAcc i) = .ok (baseAcc (i+1)))
    (hB5 : baseAcc j = base)
    (hpC : constPair (ms.getD (ms.length - 1) (.constant 0 8)) base = false)
    (hpM : mergeablePair (ms.getD (ms.length - 1) (.constant 0 8)) base = false)
    (i : Nat) (h1 : 1 ≤ i) (hi : i < ms.length + j) :
    NewConcatExpr fuel (combByteF j baseByte ms i) (combAccF j baseAcc ms base i)
      = .ok (combAccF j baseAcc ms base (i+1)) := by
  by_cases hij : i < j
  · rw [combByteF, if_pos hij, combAccF, if_pos hij]
    by_cases hij1 : i + 1 < j
    · rw [combAccF, if_pos hij1]
      exact hB4 fuel hf i h1 hij
    · rw [combAccF, if_neg (by omega : ¬ i + 1 < j),
        show ms.length + j - (i + 1) = ms.length from by omega, List.drop_length,
        show combOf [] base = base from rfl, ← hB5,
        show j = i + 1 from by omega]
      exact hB4 fuel hf i h1 hij
  · have hms1 : 1 ≤ ms.length := by omega
    have hsl : ms.length + j - 1 - i < ms.length := by omega
    rw [combByteF, if_neg hij, combAccF, if_neg (by omega : ¬ i < j),
      combAccF, if_neg (by omega : ¬ i + 1 < j),
      show ms.length + j - i = (ms.length + j - 1 - i) + 1 from by omega,
      show ms.length + j - (i + 1) = ms.length + j - 1 - i from by omega,
      List.drop_eq_getElem_cons hsl, combOf,
      List.getD_eq_getElem ms _ hsl]
    by_cases hij0 : i = j
    · rw [show ms.length + j - 1 - i + 1 = ms.length from by omega, List.drop_length,
        show combOf [] base = base from rfl]
      rw [show ms.length - 1 = ms.length + j - 1 - i from by omega] at hpC hpM
      rw [List.getD_eq_getElem ms _ hsl] at hpC hpM
      exact NewConcatExpr_default fuel (by omega) _ base hpC hpM
    · have hs1 : ms.length + j - 1 - i + 1 < ms.length := by omega
      rw [List.drop_eq_getElem_cons hs1, combOf]
      exact NewConcatExpr_default fuel (by omega) _ _
        (constPair_concat_r _ _ _) (mergeablePair_concat_r _ _ _)

theorem const_step (f c i w : Nat) (hc : c < 2 ^ w) (hiw : 8 * (i + 1) ≤ w)
    (h64 : w ≤ 64) :
    NewConcatExpr (f+1) (.constant (c / 2 ^ (i * 8) % 2 ^ 8) 8)
        (.constant (c % 2 ^ (8 * i)) (8 * i))
      = .ok (.constant (c % 2 ^ (8 * (i + 1))) (8 * (i + 1))) := by
  have h1 : c / 2 ^ (i * 8) % 2 ^ 8 < 2 ^ 8 := Nat.mod_lt _ (by positivity)
  have h2 : c % 2 ^ (8 * i) < 2 ^ (8 * i) := Nat.mod_lt _ (by positivity)
  rw [concat_const_gen f 8 (8 * i) _ _ (by omega) h1 h2]
  have hval : (c / 2 ^ (i * 8) % 2 ^ 8) * 2 ^ (8 * i) + c % 2 ^ (8 * i)
      = c % 2 ^ (8 * (i + 1)) := by
    rw [show 8 * (i + 1) = 8 * i + 8 from by ring, pow_add, Nat.mod_mul,
      show i * 8 = 8 * i from by ring]
    ring
  rw [hval, show 8 + 8 * i = 8 * (i + 1) from by ring]

theorem baseOK_spec (base : Expr) (hb : baseOK base = true) :
    ∃ (j : Nat) (baseByte baseAcc : Nat → Expr),
      1 ≤ j ∧ ExprWidth base = 8 * j
      ∧ (∀ f, 1 ≤ f → ∀ k, k < j → NewExtractExpr f base (k * 8) 8 = .ok (baseByte k))
      ∧ (∀ k, k < j → ExprWidth (baseByte k) = 8)
      ∧ (j = 1 → baseByte 0 = base)
      ∧ (1 < j → baseAcc 1 = baseByte 0)
      ∧ (∀ f, 2 ≤ f → ∀ i, 1 ≤ i → i < j →
            NewConcatExpr f (baseByte i) (baseAcc i) = .ok (baseAcc (i+1)))
      ∧ baseAcc j = base := by
  rw [baseOK] at hb
  by_cases h8 : ExprWidth base = 8
  · rw [if_pos h8] at hb
    refine ⟨1, fun _ => base, fun _ => base, le_refl 1, by omega, ?_, ?_,
      fun _ => rfl, fun h => absurd h (by omega), ?_, rfl⟩
    · intro f hf k hk
      obtain rfl : k = 0 := by omega
      rw [show (0 : Nat) * 8 = 0 from rfl]
      exact NewExtractExpr_full_f f hf base 8 h8 (by omega)
    · intro k hk
      exact h8
    · intro f hf i h1 hij
      exact absurd (lt_of_le_of_lt h1 hij) (by omega)
  · rw [if_neg h8] at hb
    cases hco : base.asConst with
    | some cc =>
        rw [hco] at hb
        simp only [Bool.and_eq_true, decide_eq_true_eq] at hb
        obtain ⟨⟨⟨hval, h16⟩, hmod⟩, h64⟩ := hb
        obtain ⟨c, w⟩ := cc
        dsimp only at hval h16 hmod h64
        have hbase : base = .constant c w := by
          cases base <;> simp only [Expr.asConst] at hco <;> try cases hco
          rfl
        subst hbase
        refine ⟨w / 8, fun k => .constant (c / 2 ^ (k * 8) % 2 ^ 8) 8,
          fun i => .constant (c % 2 ^ (8 * i)) (8 * i), by omega, ?_, ?_, ?_, ?_, ?_, ?_, ?_⟩
        · show w = 8 * (w / 8)
          omega
        · intro f hf k hk
          obtain ⟨g, rfl⟩ : ∃ g, f = g + 1 := ⟨f - 1, by omega⟩
          exact extract_const_gen g w c (k * 8) 8 h64 hval (by omega) (by omega)
        · intro k hk
          rfl
        · intro hj1
          exact absurd hj1 (by omega)
        · intro hj2
          norm_num
        · intro f hf i h1 hij
          obtain ⟨g, rfl⟩ : ∃ g, f = g + 1 := ⟨f - 1, by omega⟩
          exact const_step g c i w hval (by omega) h64
        · show Expr.constant (c % 2 ^ (8 * (w / 8))) (8 * (w / 8)) = .constant c w
          rw [show 8 * (w / 8) = w from by omega, Nat.mod_eq_of_lt hval]
    | none =>
        rw [hco] at hb
        simp only [Bool.and_eq_true, Bool.not_eq_true', decide_eq_true_eq] at hb
        obtain ⟨⟨hcc, hmod⟩, h16⟩ := hb
        refine ⟨ExprWidth base / 8, fun k => .extract base (k * 8) 8,
          fun i => if i = ExprWidth base / 8 then base else .extract base 0 (8 * i),
          by omega, by omega, ?_, ?_, ?_, ?_, ?_, ?_⟩
        · intro f hf k hk
          exact NewExtractExpr_plain f (by omega) base (k * 8) 8 (by omega) (by omega)
            (by omega) hco hcc
        · intro k hk
          rfl
        · intro hj1
          exact absurd hj1 (by omega)
        · intro hj2
          dsimp only
          rw [if_neg (by omega)]
        · intro f hf i h1 hij
          obtain ⟨g, rfl⟩ : ∃ g, f = g + 1 := ⟨f - 1, by omega⟩
          dsimp only
          rw [if_neg (by omega : ¬ i = ExprWidth base / 8), NewConcatExpr,
            if_pos ⟨rfl, by omega⟩]
          by_cases hlast : i + 1 = ExprWidth base / 8
          · rw [if_pos hlast]
            exact NewExtractExpr_full_f g (by omega) base (8 + 8 * i) (by omega) (by omega)
          · rw [if_neg hlast,
              NewExtractExpr_plain g (by omega) base 0 (8 + 8 * i) (by omega) (by omega)
                (by omega) hco hcc,
              show 8 + 8 * i = 8 * (i + 1) from by ring]
        · dsimp only
          rw [if_pos rfl]

theorem roundTrip_const (fuel bo w c : Nat) (a : Arr) (le : Bool)
    (hc : c < 2 ^ w) (hw3 : w = 16 ∨ w = 32 ∨ w = 64)
    (hbound : bo + w / 8 ≤ a.Size) (hS : a.Size ≤ 2 ^ 64) :
    ∃ a2, Arr.Store (fuel+3) a (.constant bo 64) (.constant c w) le = .ok a2
      ∧ Arr.Select (fuel+3) a2 (.constant bo 64) w le
          = .ok (some (.constant c w)) := by
  obtain ⟨id, S, u⟩ := a
  rw [Arr.Size] at hbound hS
  have h64 : w ≤ 64 := by rcases hw3 with rfl | rfl | rfl <;> norm_num
  have h8n : 8 * (w / 8) = w := by rcases hw3 with rfl | rfl | rfl <;> norm_num
  have hn2 : 2 ≤ w / 8 := by rcases hw3 with rfl | rfl | rfl <;> norm_num
  have hbv : ∀ k, k < w / 8 → NewExtractExpr (fuel+3) (.constant c w) (k * 8) Width8
      = .ok (.constant (c / 2 ^ (k * 8) % 2 ^ 8) 8) := by
    intro k hk
    exact extract_const_gen (fuel+2) w c (k * 8) 8 h64 hc (by omega) (by omega)
  have hbw : ∀ k, k < w / 8 → ExprWidth (.constant (c / 2 ^ (k * 8) % 2 ^ 8) 8) = 8 := by
    intro k hk
    rfl
  obtain ⟨W2, rest2, hst, hlk⟩ := storeLoop_chain (fuel+3) (by omega) bo (w / 8) id S
    (.constant c w) le (fun k => .constant (c / 2 ^ (k * 8) % 2 ^ 8) 8) hbv hbw hbound hS
    (w / 8) 0 [] u (by omega) (by intro p hp; simp at hp) (by intro k hk; omega)
  refine ⟨.mk id S (chainOf W2 rest2), ?_, ?_⟩
  · rw [Arr.Store, Arr.Clone]
    simp only [Res.monad_bind_eq_bind,
      newZExtExpr_nop_f (fuel+3) (by omega) (.constant bo 64) Width64 rfl, Res.bind_ok,
      ExprWidth, WidthBool]
    rw [if_neg (by omega), if_neg (by omega)]
    exact hst
  · rw [Arr.Select]
    rw [if_neg (by omega)]
    simp only [Res.monad_bind_eq_bind,
      newZExtExpr_nop_f (fuel+3) (by omega) (.constant bo 64) Width64 rfl, Res.bind_ok,
      WidthBool]
    rw [if_neg (by omega)]
    have hstep : ∀ i, 1 ≤ i → i < w / 8 →
        NewConcatExpr (fuel+3) (.constant (c / 2 ^ (i * 8) % 2 ^ 8) 8)
            (.constant (c % 2 ^ (8 * i)) (8 * i))
          = .ok (.constant (c % 2 ^ (8 * (i + 1))) (8 * (i + 1))) := by
      intro i h1 hi
      exact const_step (fuel+2) c i w hc (by omega) h64
    have hbuild := selectLoop_build (fuel+3) (by omega) bo (w / 8) id S le W2 rest2
      (fun k => .constant (c / 2 ^ (k * 8) % 2 ^ 8) 8)
      (fun i => .constant (c % 2 ^ (8 * i)) (8 * i)) (by omega) hlk hstep
    obtain ⟨r, hr⟩ : ∃ r, w / 8 = r + 1 := ⟨w / 8 - 1, by omega⟩
    rw [hr] at hlk hbuild ⊢
    rw [selectLoop]
    simp only [Res.monad_bind_eq_bind]
    have hBo64 : (if le then 0 else r + 1 - 0 - 1) < 2 ^ 64 := by
      split <;> omega
    rw [NewConstantExpr64_toExpr _ hBo64,
      addFold64 (fuel+3) bo (if le then 0 else r + 1 - 0 - 1) (by omega)
        (by split <;> omega), Res.bind_ok,
      select_chainOf (fuel+3) (by omega) id S _ W2 rest2 _ (hlk 0 (by omega)),
      Res.bind_ok, if_pos trivial]
    have hb0 : (Expr.constant (c / 2 ^ (0 * 8) % 2 ^ 8) 8)
        = .constant (c % 2 ^ (8 * 1)) (8 * 1) := by
      norm_num
    rw [hb0]
    have hfin := hbuild r 1 (by omega) (by omega)
    dsimp only at hfin
    rw [show 8 * (r + 1) = w from by omega, Nat.mod_eq_of_lt hc] at hfin
    exact hfin

theorem roundTrip_comb (fuel bo w : Nat) (a : Arr) (ms : List Expr) (base : Expr)
    (le : Bool)
    (hms : ms ≠ [])
    (hchunks : ∀ m ∈ ms, ExprWidth m = 8)
    (hbase : baseOK base = true)
    (hpC : constPair (ms.getD (ms.length - 1) (.constant 0 8)) base = false)
    (hpM : mergeablePair (ms.getD (ms.length - 1) (.constant 0 8)) base = false)
    (hw : ExprWidth (combOf ms base) = w) (hw3 : w = 16 ∨ w = 32 ∨ w = 64)
    (hbound : bo + w / 8 ≤ a.Size) (hS : a.Size ≤ 2 ^ 64) :
    ∃ a2, Arr.Store (fuel+11) a (.constant bo 64) (combOf ms base) le = .ok a2
      ∧ Arr.Select (fuel+11) a2 (.constant bo 64) w le
          = .ok (some (combOf ms base)) := by
  obtain ⟨id, S, u⟩ := a
  rw [Arr.Size] at hbound hS
  obtain ⟨j, baseByte, baseAcc, hj, hbw, hB1, hB2, hj1, hB3, hB4, hB5⟩ :=
    baseOK_spec base hbase
  have hwc : 8 * ms.length + 8 * j = w := by
    rw [← hw, combOf_width ms base hchunks, hbw]
  have h64 : w ≤ 64 := by rcases hw3 with rfl | rfl | rfl <;> norm_num
  have h8n : 8 * (w / 8) = w := by rcases hw3 with rfl | rfl | rfl <;> norm_num
  have htl : 1 ≤ ms.length := List.length_pos.mpr hms
  have hn : w / 8 = ms.length + j := by omega
  have hbv : ∀ k, k < w / 8 → NewExtractExpr (fuel+11) (combOf ms base) (k * 8) Width8
      = .ok (combByteF j baseByte ms k) := by
    intro k hk
    exact extract_combOf base j baseByte hj hbw hB1 ms (fuel+11) k hchunks (by omega)
      (by omega)
  have hbwidths : ∀ k, k < w / 8 → ExprWidth (combByteF j baseByte ms k) = 8 := by
    intro k hk
    rw [combByteF]
    by_cases hkj : k < j
    · rw [if_pos hkj]
      exact hB2 k hkj
    · rw [if_neg hkj]
      have hlt : ms.length + j - 1 - k < ms.length := by omega
      rw [List.getD_eq_getElem ms _ hlt]
      exact hchunks _ (List.getElem_mem hlt)
  obtain ⟨W2, rest2, hst, hlk⟩ := storeLoop_chain (fuel+11) (by omega) bo (w / 8) id S
    (combOf ms base) le (combByteF j baseByte ms) hbv hbwidths hbound hS
    (w / 8) 0 [] u (by omega) (by intro p hp; simp at hp) (by intro k hk; omega)
  refine ⟨.mk id S (chainOf W2 rest2), ?_, ?_⟩
  · rw [Arr.Store, Arr.Clone]
    simp only [Res.monad_bind_eq_bind,
      newZExtExpr_nop_f (fuel+11) (by omega) (.constant bo 64) Width64 rfl, Res.bind_ok,
      hw, WidthBool]
    rw [if_neg (by omega), if_neg (by omega)]
    exact hst
  · rw [Arr.Select]
    rw [if_neg (by omega)]
    simp only [Res.monad_bind_eq_bind,
      newZExtExpr_nop_f (fuel+11) (by omega) (.constant bo 64) Width64 rfl, Res.bind_ok,
      WidthBool]
    rw [if_neg (by omega)]
    have hstep : ∀ i, 1 ≤ i → i < w / 8 →
        NewConcatExpr (fuel+11) (combByteF j baseByte ms i)
            (combAccF j baseAcc ms base i)
          = .ok (combAccF j baseAcc ms base (i + 1)) := by
      intro i h1 hi
      exact comb_step (fuel+11) (by omega) ms base j baseByte baseAcc hj hB4 hB5
        hpC hpM i h1 (by omega)
    have hbuild := selectLoop_build (fuel+11) (by omega) bo (w / 8) id S le W2 rest2
      (combByteF j baseByte ms) (combAccF j baseAcc ms base) (by omega) hlk hstep
    obtain ⟨r, hr⟩ : ∃ r, w / 8 = r + 1 := ⟨w / 8 - 1, by omega⟩
    rw [hr] at hlk hbuild hn ⊢
    rw [selectLoop]
    simp only [Res.monad_bind_eq_bind]
    have hBo64 : (if le then 0 else r + 1 - 0 - 1) < 2 ^ 64 := by
      split <;> omega
    rw [NewConstantExpr64_toExpr _ hBo64,
      addFold64 (fuel+11) bo (if le then 0 else r + 1 - 0 - 1) (by omega)
        (by split <;> omega), Res.bind_ok,
      select_chainOf (fuel+11) (by omega) id S _ W2 rest2 _ (hlk 0 (by omega)),
      Res.bind_ok, if_pos trivial]
    have hacc1 : combByteF j baseByte ms 0 = combAccF j baseAcc ms base 1 := by
      rw [combByteF, if_pos (by omega : 0 < j), combAccF]
      by_cases hj2 : 1 < j
      · rw [if_pos hj2]
        exact (hB3 hj2).symm
      · have hjeq : j = 1 := by omega
        rw [if_neg (by omega),
          show ms.length + j - 1 = ms.length from by omega, List.drop_length,
          show combOf [] base = base from rfl]
        exact hj1 hjeq
    rw [hacc1]
    have hfin := hbuild r 1 (by omega) (by omega)
    rw [show combAccF j baseAcc ms base (r + 1) = combOf ms base from by
      rw [combAccF, if_neg (by omega),
        show ms.length + j - (r + 1) = 0 from by omega, List.drop_zero]] at hfin
    exact hfin

/-- C6: the store/select round trip at a concrete in-bounds offset returns
the stored value, at either endianness, in each of these cases: width 8
with any value; widths 16/32/64 with any well-formed constant; widths
16/32/64 with any value that is neither a constant nor a concat; widths
16/32/64 with any concat that is a right-nested chain of 8-bit chunks over
a `baseOK` lowest chunk whose deepest pair is neither two constants nor
two contiguous extracts of one parent; and width 1 with a constant value. -/
theorem C6_round_trip (fuel : Nat) :
    (∀ (a : Arr) (bo : Nat) (v : Expr) (le : Bool),
        ExprWidth v = 8 → bo + 1 ≤ a.Size → a.Size ≤ 2 ^ 64 →
        ∃ a2, Arr.Store (fuel+11) a (.constant bo 64) v le = .ok a2
          ∧ Arr.Select (fuel+11) a2 (.constant bo 64) 8 le = .ok (some v))
  ∧ (∀ (a : Arr) (bo w c : Nat) (le : Bool),
        (w = 16 ∨ w = 32 ∨ w = 64) → c < 2 ^ w →
        bo + w / 8 ≤ a.Size → a.Size ≤ 2 ^ 64 →
        ∃ a2, Arr.Store (fuel+11) a (.constant bo 64) (.constant c w) le = .ok a2
          ∧ Arr.Select (fuel+11) a2 (.constant bo 64) w le
              = .ok (some (.constant c w)))
  ∧ (∀ (a : Arr) (bo w : Nat) (v : Expr) (le : Bool),
        (w = 16 ∨ w = 32 ∨ w = 64) → ExprWidth v = w → v.asConst = none →
        isConcatExpr v = false → bo + w / 8 ≤ a.Size → a.Size ≤ 2 ^ 64 →
        ∃ a2, Arr.Store (fuel+11) a (.constant bo 64) v le = .ok a2
          ∧ Arr.Select (fuel+11) a2 (.constant bo 64) w le = .ok (some v))
  ∧ (∀ (a : Arr) (bo w : Nat) (ms : List Expr) (base : Expr) (le : Bool),
        ms ≠ [] → (∀ m ∈ ms, ExprWidth m = 8) → baseOK base = true →
        constPair (ms.getD (ms.length - 1) (.constant 0 8)) base = false →
        mergeablePair (ms.getD (ms.length - 1) (.constant 0 8)) base = false →
        ExprWidth (combOf ms base) = w → (w = 16 ∨ w = 32 ∨ w = 64) →
        bo + w / 8 ≤ a.Size → a.Size ≤ 2 ^ 64 →
        ∃ a2, Arr.Store (fuel+11) a (.constant bo 64) (combOf ms base) le = .ok a2
          ∧ Arr.Select (fuel+11) a2 (.constant bo 64) w le
              = .ok (some (combOf ms base)))
  ∧ (∀ (a : Arr) (bo c : Nat) (le : Bool),
        c < 2 → bo < a.Size → a.Size ≤ 2 ^ 64 →
        ∃ a2, Arr.Store (fuel+11) a (.constant bo 64) (.constant c 1) le = .ok a2
          ∧ Arr.Select (fuel+11) a2 (.constant bo 64) 1 le
              = .ok (some (.constant c 1))) :=
  ⟨fun a bo v le hw hb hS => roundTrip_byte (fuel+8) bo a v le hw hb hS,
   fun a bo w c le hw3 hc hb hS => roundTrip_const (fuel+8) bo w c a le hc hw3 hb hS,
   fun a bo w v le hw3 hw hpl hpc hb hS =>
     roundTrip_plain (fuel+8) bo w a v le hw hw3 hpl hpc hb hS,
   fun a bo w ms base le hms hch hbase hpC hpM hw hw3 hb hS =>
     roundTrip_comb fuel bo w a ms base le hms hch hbase hpC hpM hw hw3 hb hS,
   fun a bo c le hc hb hS => roundTrip_bool (fuel+8) bo c a le hc hb hS⟩

theorem C6_round_trip_witness :
    (∃ a2, Arr.Store 11 (.mk 1 4 .nil) (.constant 0 64)
        (.select (.mk 2 4 .nil) (.constant 0 64)) true = .ok a2
      ∧ Arr.Select 11 a2 (.constant 0 64) 8 true
          = .ok (some (.select (.mk 2 4 .nil) (.constant 0 64))))
  ∧ (∃ a2, Arr.Store 11 (.mk 1 4 .nil) (.constant 0 64) (.constant 48879 16) false
        = .ok a2
      ∧ Arr.Select 11 a2 (.constant 0 64) 16 false = .ok (some (.constant 48879 16)))
  ∧ (∃ a2, Arr.Store 11 (.mk 1 4 .nil) (.constant 0 64)
        (.cast (.select (.mk 2 4 .nil) (.constant 0 64)) 16 false) false = .ok a2
      ∧ Arr.Select 11 a2 (.constant 0 64) 16 false
          = .ok (some (.cast (.select (.mk 2 4 .nil) (.constant 0 64)) 16 false)))
  ∧ (∃ a2, Arr.Store 11 (.mk 1 4 .nil) (.constant 0 64)
        (combOf [.select (.mk 2 4 .nil) (.constant 0 64)]
          (.select (.mk 2 4 .nil) (.constant 1 64))) true = .ok a2
      ∧ Arr.Select 11 a2 (.constant 0 64) 16 true
          = .ok (some (combOf [.select (.mk 2 4 .nil) (.constant 0 64)]
              (.select (.mk 2 4 .nil) (.constant 1 64)))))
  ∧ (∃ a2, Arr.Store 11 (.mk 1 4 .nil) (.constant 2 64) (.constant 1 1) true = .ok a2
      ∧ Arr.Select 11 a2 (.constant 2 64) 1 true = .ok (some (.constant 1 1))) :=
  ⟨(C6_round_trip 0).1 (.mk 1 4 .nil) 0 (.select (.mk 2 4 .nil) (.constant 0 64)) true
      (by decide) (by decide) (by rw [Arr.Size]; norm_num),
   (C6_round_trip 0).2.1 (.mk 1 4 .nil) 0 16 48879 false (Or.inl rfl) (by norm_num)
      (by decide) (by rw [Arr.Size]; norm_num),
   (C6_round_trip 0).2.2.1 (.mk 1 4 .nil) 0 16
      (.cast (.select (.mk 2 4 .nil) (.constant 0 64)) 16 false) false
      (Or.inl rfl) (by decide) (by decide) (by decide) (by decide)
      (by rw [Arr.Size]; norm_num),
   (C6_round_trip 0).2.2.2.1 (.mk 1 4 .nil) 0 16
      [.select (.mk 2 4 .nil) (.constant 0 64)] (.select (.mk 2 4 .nil) (.constant 1 64))
      true (by decide) (by decide) (by decide) (by decide) (by decide) (by decide)
      (Or.inl rfl) (by decide) (by rw [Arr.Size]; norm_num),
   (C6_round_trip 0).2.2.2.2 (.mk 1 4 .nil) 2 1 true (by decide) (by decide)
      (by rw [Arr.Size]; norm_num)⟩

end Glee
